import Mathlib

/-!
NC-DHT: ring topology, erasure-coded routing tables, signature combination,
quorum key material.

A shallow embedding of the Go sources

* `demo/encoding_decoding_demo.go`, `encoding_decoding_simulation_v3.go`,
  `src/Go/main.go` : `findSuccessor`, `buildFingerTables`;
* `crypto/threshold.go` : `CombineSignatures`;
* `coding/rs.go` : `EncodeRoutingTableWithParams`, `DecodeRoutingTable`;
* `types/peer.go`, `types/quorum.go` : `Peer`, `Quorum`, `BuildQuorum`.

Go values are modelled as follows.  `int` is a mathematical integer, wrapped to
64 bits where the code adds; a slice is a list; a `nil` byte slice inside
`[][]byte` is `none`, a non-nil one is `some bytes`; a run-time panic is the
`error` side of `Except RuntimePanic`; a Go `(value, error)` result is an
`Except` over the error kinds the function can produce.
-/

namespace NCDHT

/-! ## Go runtime -/

/-- Run-time panics the modelled functions can raise. -/
inductive RuntimePanic
  | indexOutOfRange
  | integerDivideByZero
  | makesliceLenOutOfRange
  deriving DecidableEq, Repr

deriving instance DecidableEq for Except

/-- Two's-complement wrap of a mathematical integer into the range of Go's
64-bit `int`. -/
def wrapInt (x : Int) : Int := (x + 2 ^ 63) % 2 ^ 64 - 2 ^ 63

/-- Go's `a % b` on `int`: truncated remainder, panicking on a zero divisor. -/
def goMod (a b : Int) : Except RuntimePanic Int :=
  if b = 0 then .error .integerDivideByZero else .ok (Int.tmod a b)

/-- The expression `int(math.Pow(2, float64(j)))` for a non-negative loop index `j`.
Powers of two up to `2^62` are exact in `float64` and fit an `int`.  From `2^63`
on the float does not fit; the conversion is then implementation-specific, and
the value amd64 produces (the most negative `int`) is used. -/
def pow2Int (j : Nat) : Int := if j ≤ 62 then 2 ^ j else -(2 ^ 63)

/-! ## Ring topology -/

/-- The struct `Quorum` of the simulation programs:
`type Quorum struct { ID int; FingerTable []int }`. -/
structure Quorum where
  ID : Int
  FingerTable : List Int
  deriving DecidableEq, Repr

/-- The loop `for _, id := range ids { if id >= target { return id } }` of
`findSuccessor`: the first identifier that is `>= target`, if the loop returns. -/
def findSuccessorLoop (target : Int) : List Int → Option Int
  | [] => none
  | id :: rest => if id ≥ target then some id else findSuccessorLoop target rest

/-- The function `findSuccessor(target int, ids []int) int` (the three copies in
the repository are the same code up to the names of the parameters): the loop,
then `return ids[0]`, which panics on an empty slice. -/
def findSuccessor (target : Int) (ids : List Int) : Except RuntimePanic Int :=
  match findSuccessorLoop target ids with
  | some id => .ok id
  | none =>
    match ids with
    | [] => .error .indexOutOfRange
    | first :: _ => .ok first

/-- The inner loop `for j := 0; j < m; j++ { target := (ID + int(math.Pow(2, float64(j)))) % ringSize;
FingerTable[j] = findSuccessor(target, ids) }`, run over the indices `js`. -/
def fingerEntries (id ringSize : Int) (ids : List Int) : List Nat → Except RuntimePanic (List Int)
  | [] => .ok []
  | j :: js =>
    match goMod (wrapInt (id + pow2Int j)) ringSize with
    | .error p => .error p
    | .ok target =>
      match findSuccessor target ids with
      | .error p => .error p
      | .ok s =>
        match fingerEntries id ringSize ids js with
        | .error p => .error p
        | .ok rest => .ok (s :: rest)

/-- The statement `FingerTable = make([]int, m)` followed by the inner loop, for one
quorum identifier. -/
def fingerTableOf (id ringSize m : Int) (ids : List Int) : Except RuntimePanic (List Int) :=
  if m < 0 then .error .makesliceLenOutOfRange
  else fingerEntries id ringSize ids (List.range m.toNat)

/-- The outer loop `for i := range quorums { quorums[i].FingerTable = make([]int, m); ... }`
of `buildFingerTables` in `demo/encoding_decoding_demo.go` and `src/Go/main.go`. -/
def buildFingerTablesLoop (ids : List Int) (ringSize m : Int) :
    List Quorum → Except RuntimePanic (List Quorum)
  | [] => .ok []
  | q :: qs =>
    match fingerTableOf q.ID ringSize m ids with
    | .error p => .error p
    | .ok ft =>
      match buildFingerTablesLoop ids ringSize m qs with
      | .error p => .error p
      | .ok rest => .ok ({ ID := q.ID, FingerTable := ft } :: rest)

/-- The function `buildFingerTables(quorums []Quorum, ringSize, m int)` of
`demo/encoding_decoding_demo.go` and `src/Go/main.go`; the updated slice is the result. -/
def buildFingerTables (quorums : List Quorum) (ringSize m : Int) :
    Except RuntimePanic (List Quorum) :=
  buildFingerTablesLoop (quorums.map (fun q => q.ID)) ringSize m quorums

/-- The outer loop of `buildFingerTables` in `encoding_decoding_simulation_v3.go`:
`for idx, q := range quorums { q.FingerTable = make([]int, m); ...; quorums[idx] = q }`,
which fills a copy of the element and stores the copy back. -/
def buildFingerTablesV3Loop (quorumIDs : List Int) (ringSize m : Int) :
    List Quorum → Except RuntimePanic (List Quorum)
  | [] => .ok []
  | q :: qs =>
    match fingerTableOf q.ID ringSize m quorumIDs with
    | .error p => .error p
    | .ok ft =>
      let q1 : Quorum := { q with FingerTable := ft }
      match buildFingerTablesV3Loop quorumIDs ringSize m qs with
      | .error p => .error p
      | .ok rest => .ok (q1 :: rest)

/-- The function `buildFingerTables` of `encoding_decoding_simulation_v3.go`. -/
def buildFingerTablesV3 (quorums : List Quorum) (ringSize m : Int) :
    Except RuntimePanic (List Quorum) :=
  buildFingerTablesV3Loop (quorums.map (fun q => q.ID)) ringSize m quorums

/-! ## Signature combination -/

/-- A byte. -/
abbrev Byte := Fin 256

/-- A byte sequence (`[]byte`, or the bytes of a Go `string`). -/
abbrev Bytes := List Byte

/-- The error value of `CombineSignatures`: `errors.New("no signature shares")`. -/
inductive CombineError
  | noSignatureShares
  deriving DecidableEq, Repr

/-- The function `CombineSignatures(shares [][]byte) ([]byte, error)` of
`crypto/threshold.go`. -/
def CombineSignatures (shares : List Bytes) : Except CombineError Bytes :=
  match shares with
  | [] => .error .noSignatureShares
  | first :: _ => .ok first

/-! ## Erasure codec: data model and the external packages -/

/-- Error values of the two external packages the codec calls, the Reed-Solomon
library (`github.com/klauspost/reedsolomon`) and `encoding/json`.  The codec
never inspects them; it wraps them. -/
inductive LibError
  | invShardNum
  | maxShardNum
  | tooFewShards
  | shardNoData
  | shardSize
  | shortData
  | reconstructRequired
  | jsonSyntax
  | jsonType
  deriving DecidableEq, Repr

/-- The slice type `[][]byte` of a shard set: a slot is `none` for a `nil` shard and
`some bytes` for a non-nil one, which may have length zero. -/
abbrev Shards := List (Option Bytes)

/-- A Go `map[string]string`: `none` is the nil map, `some entries` a non-nil map
given by its entries, one per key, listed in ascending order of the key bytes. -/
abbrev RoutingTable := Option (List (Bytes × Bytes))

/-- The struct `ShardMetadata`. -/
structure ShardMetadata where
  DataShards : Int
  ParityShards : Int
  OriginalSize : Int
  deriving DecidableEq, Repr

/-- The struct `EncodedRoutingTable`. -/
structure EncodedRoutingTable where
  Metadata : ShardMetadata
  Shards : Shards
  deriving DecidableEq, Repr

/-- The methods of the interface `reedsolomon.Encoder` that the codec calls.  A
method that writes into the shard slice it is given returns the slice as it
stands afterwards. -/
structure Encoder where
  Split : Bytes → Except LibError Shards
  Encode : Shards → Except LibError Shards
  Reconstruct : Shards → Except LibError Shards
  Verify : Shards → Except LibError Bool
  Join : Shards → Int → Except LibError Bytes

/-- The external functions the codec is linked against: `reedsolomon.New`,
`json.Marshal` on a `map[string]string` and `json.Unmarshal` into a nil
`map[string]string`. -/
structure Packages where
  rsNew : Int → Int → Except LibError Encoder
  jsonMarshal : RoutingTable → Except LibError Bytes
  jsonUnmarshal : Bytes → Except LibError RoutingTable

/-- The error results of `EncodeRoutingTableWithParams` and `DecodeRoutingTable`, one
per `fmt.Errorf` / `errors.New` in `coding/rs.go`; a wrapped library error is the
argument. -/
inductive CodingError
  | marshalFailed (e : LibError)
  | encoderInitFailed (e : LibError)
  | splitFailed (e : LibError)
  | encodeParityFailed (e : LibError)
  | shardCountMismatch
  | decoderInitFailed (e : LibError)
  | reconstructionFailed (e : LibError)
  | verificationError (e : LibError)
  | verificationFailed
  | joinFailed (e : LibError)
  | unmarshalFailed (e : LibError)
  deriving DecidableEq, Repr

/-! ## Erasure codec: `coding/rs.go` -/

/-- The function `EncodeRoutingTableWithParams(rt, dataShards, parityShards)`. -/
def EncodeRoutingTableWithParams (pk : Packages) (rt : RoutingTable)
    (dataShards parityShards : Int) : Except CodingError EncodedRoutingTable :=
  match pk.jsonMarshal rt with
  | .error e => .error (.marshalFailed e)
  | .ok dataBytes =>
    match pk.rsNew dataShards parityShards with
    | .error e => .error (.encoderInitFailed e)
    | .ok rsEnc =>
      match rsEnc.Split dataBytes with
      | .error e => .error (.splitFailed e)
      | .ok shards =>
        match rsEnc.Encode shards with
        | .error e => .error (.encodeParityFailed e)
        | .ok shards =>
          .ok { Metadata := { DataShards := dataShards, ParityShards := parityShards,
                              OriginalSize := dataBytes.length },
                Shards := shards }

/-- The body of the loop `for i, shard := range shards { if shard != nil && len(shard) == 0
{ shards[i] = nil } }` for one slot. -/
def normalizeShard : Option Bytes → Option Bytes
  | some [] => none
  | s => s

/-- The function `DecodeRoutingTable(encoded)`, together with the contents of the slice
`encoded.Shards` when it returns (the function writes into that slice). -/
def DecodeRoutingTableRun (pk : Packages) (encoded : EncodedRoutingTable) :
    Except CodingError RoutingTable × Shards :=
  let md := encoded.Metadata
  let shards := encoded.Shards
  let totalShards := wrapInt (md.DataShards + md.ParityShards)
  if (shards.length : Int) ≠ totalShards then (.error .shardCountMismatch, shards)
  else
    match pk.rsNew md.DataShards md.ParityShards with
    | .error e => (.error (.decoderInitFailed e), shards)
    | .ok rsEnc =>
      let shards := shards.map normalizeShard
      match rsEnc.Reconstruct shards with
      | .error e => (.error (.reconstructionFailed e), shards)
      | .ok shards =>
        match rsEnc.Verify shards with
        | .error e => (.error (.verificationError e), shards)
        | .ok false => (.error .verificationFailed, shards)
        | .ok true =>
          match rsEnc.Join shards md.OriginalSize with
          | .error e => (.error (.joinFailed e), shards)
          | .ok buf =>
            match pk.jsonUnmarshal buf with
            | .error e => (.error (.unmarshalFailed e), shards)
            | .ok rt => (.ok rt, shards)

/-- The result of `DecodeRoutingTable(encoded)`. -/
def DecodeRoutingTable (pk : Packages) (encoded : EncodedRoutingTable) :
    Except CodingError RoutingTable :=
  (DecodeRoutingTableRun pk encoded).1

/-! ## Erasure codec: vocabulary of the properties -/

/-- A slot the Reed-Solomon library counts as present: non-nil and of non-zero length. -/
def shardPresent : Option Bytes → Bool
  | some (_ :: _) => true
  | _ => false

/-- Number of slots that are missing: nil or of length zero. -/
def missingCount (shards : Shards) : Nat := shards.countP (fun s => !shardPresent s)

/-- Number of slots that are present. -/
def presentCount (shards : Shards) : Nat := shards.countP shardPresent

/-- Every slot of the shard set is non-nil and has length `S`. -/
def AllOfSize (S : Nat) (shards : Shards) : Prop :=
  ∀ s ∈ shards, ∃ b : Bytes, s = some b ∧ b.length = S

instance (S : Nat) (shards : Shards) : Decidable (AllOfSize S shards) :=
  decidable_of_iff (∀ s ∈ shards, s.map List.length = some S) (by
    unfold AllOfSize
    constructor
    · intro h s hs
      have := h s hs
      cases s with
      | none => simp at this
      | some b => exact ⟨b, rfl, by simpa using this⟩
    · intro h s hs
      obtain ⟨b, rfl, hb⟩ := h s hs
      simp [hb])

/-- The bytes of a list of shards, one after the other (a nil shard adds nothing). -/
def concatShards (shards : Shards) : Bytes :=
  (shards.map (fun s => s.getD [])).flatten

/-- The shard set `damaged` is `shards` with some slots lost: each slot holds the
shard of `shards` at that place or is missing (nil or of length zero). -/
def IsErasureOf (shards damaged : Shards) : Prop :=
  List.Forall₂ (fun s d => d = s ∨ shardPresent d = false) shards damaged

instance (shards damaged : Shards) : Decidable (IsErasureOf shards damaged) := by
  unfold IsErasureOf
  infer_instance

/-- Byte `b` with bit `k` flipped. -/
def flipBit (b : Byte) (k : Fin 8) : Byte := b ^^^ ((2 : Byte) ^ k.val)

/-- The shard set with bit `k` of byte `pos` of shard `i` flipped; a slot that is nil
or too short is left alone. -/
def flipShardBit (shards : Shards) (i pos : Nat) (k : Fin 8) : Shards :=
  shards.modify (fun s => s.map (fun b => b.modify (fun x => flipBit x k) pos)) i

/-! ## The behaviour of the Reed-Solomon library that the properties rest on

Each law below is a statement of the documented behaviour of
`github.com/klauspost/reedsolomon` for an encoder made by `New(D, P)`. -/

/-- `New` fails with `ErrInvShardNum` unless `D ≥ 1` and `P ≥ 0`, and with
`ErrMaxShardNum` when `D + P` exceeds the number of shards the library supports
(256 for the 8-bit field, 65536 in all). -/
def RangeLaw (rsNew : Int → Int → Except LibError Encoder) : Prop :=
  ∀ D P enc, rsNew D P = .ok enc → 1 ≤ D ∧ 0 ≤ P ∧ D + P ≤ 65536

/-- `Split` cuts the data into `D` shards of one size `S` with `S * D ≥ len(data)`,
the last ones filled up with zeros, and adds `P` shards of the same size. -/
def SplitLaw (rsNew : Int → Int → Except LibError Encoder) : Prop :=
  ∀ D P enc, rsNew D P = .ok enc → ∀ data shards, enc.Split data = .ok shards →
    ∃ S, data.length ≤ S * D.toNat ∧ shards.length = D.toNat + P.toNat ∧
      AllOfSize S shards ∧
      concatShards (shards.take D.toNat) =
        data ++ List.replicate (S * D.toNat - data.length) 0

/-- `Encode` accepts `D + P` shards of one non-zero size only; it leaves the `D`
data shards as they are and overwrites the parity shards, keeping every size;
encoding its own output changes nothing. -/
def EncodeLaw (rsNew : Int → Int → Except LibError Encoder) : Prop :=
  ∀ D P enc, rsNew D P = .ok enc → ∀ shards out, enc.Encode shards = .ok out →
    out.length = D.toNat + P.toNat ∧ out.take D.toNat = shards.take D.toNat ∧
      (∃ S, 0 < S ∧ AllOfSize S shards ∧ AllOfSize S out) ∧
      enc.Encode out = .ok out

/-- `Reconstruct` returns at once, changing nothing, when all `D + P` shards are
present with one non-zero size. -/
def ReconstructPresentLaw (rsNew : Int → Int → Except LibError Encoder) : Prop :=
  ∀ D P enc, rsNew D P = .ok enc → ∀ shards S, 0 < S → AllOfSize S shards →
    shards.length = D.toNat + P.toNat → enc.Reconstruct shards = .ok shards

/-- `Reconstruct`, given `D + P` shards of which at most `P` are nil and the others
have one non-zero size, returns without error; it fills every nil shard with a
shard of that size and leaves the other shards as they are.  The integrity of
the result is not checked. -/
def ReconstructFillLaw (rsNew : Int → Int → Except LibError Encoder) : Prop :=
  ∀ D P enc, rsNew D P = .ok enc → ∀ shards S, 0 < S →
    shards.length = D.toNat + P.toNat →
    (∀ s ∈ shards, s = none ∨ ∃ b : Bytes, s = some b ∧ b.length = S) →
    shards.count none ≤ P.toNat →
    ∃ out, enc.Reconstruct shards = .ok out ∧ AllOfSize S out ∧
      List.Forall₂ (fun s o => o = s ∨ s = none) shards out

/-- `Reconstruct` rebuilds every nil shard of an encoded shard set as long as at
most `P` of the `D + P` shards are nil. -/
def ErasureLaw (rsNew : Int → Int → Except LibError Encoder) : Prop :=
  ∀ D P enc, rsNew D P = .ok enc → ∀ shards out damaged, enc.Encode shards = .ok out →
    List.Forall₂ (fun s d => d = s ∨ d = none) out damaged →
    damaged.count none ≤ P.toNat → enc.Reconstruct damaged = .ok out

/-- `Reconstruct` fails (`ErrTooFewShards`, or `ErrShardNoData` when nothing is
left) when fewer than `D` shards are present. -/
def TooFewLaw (rsNew : Int → Int → Except LibError Encoder) : Prop :=
  ∀ D P enc, rsNew D P = .ok enc → ∀ shards, presentCount shards < D.toNat →
    ∃ e, enc.Reconstruct shards = .error e

/-- `Verify`, given `D + P` shards of one non-zero size, returns without error, and
returns true exactly when the parity shards are the ones `Encode` computes from
the data shards. -/
def VerifyLaw (rsNew : Int → Int → Except LibError Encoder) : Prop :=
  ∀ D P enc, rsNew D P = .ok enc → ∀ shards S, 0 < S → AllOfSize S shards →
    shards.length = D.toNat + P.toNat →
    ∃ b, enc.Verify shards = .ok b ∧ (b = true ↔ enc.Encode shards = .ok shards)

/-- `Join` writes the first `outSize` bytes of the `D` data shards when these are
non-nil and hold that many bytes. -/
def JoinLaw (rsNew : Int → Int → Except LibError Encoder) : Prop :=
  ∀ D P enc, rsNew D P = .ok enc → ∀ shards S (outSize : Nat), AllOfSize S shards →
    D.toNat ≤ shards.length → outSize ≤ S * D.toNat →
    enc.Join shards outSize = .ok ((concatShards (shards.take D.toNat)).take outSize)

/-! ## Reference model of the Reed-Solomon package

A model of `github.com/klauspost/reedsolomon` over the field GF(2^8) the
package uses: reducing polynomial `x^8 + x^4 + x^3 + x^2 + 1` (0x11D),
generator 2, multiplication by logarithm tables.  The code of the package is
the systematic code whose matrix is the Vandermonde matrix with rows
`(r^0, ..., r^(D-1))`, `r = 0 .. D+P-1`, times the inverse of its top square:
shard `r` holds, byte by byte, the value at `r` of the polynomial of degree
below `D` that takes the data bytes at `0 .. D-1`.  The model computes these
values in Lagrange form. -/

/-- Powers of the generator: entry `k` is `2^k` in GF(2^8), for `k` below 255. -/
def gfExpTable : List Nat :=
  [1, 2, 4, 8, 16, 32, 64, 128, 29, 58, 116, 232, 205, 135, 19, 38, 76, 152, 45, 90, 180, 117,
   234, 201, 143, 3, 6, 12, 24, 48, 96, 192, 157, 39, 78, 156, 37, 74, 148, 53, 106, 212, 181,
   119, 238, 193, 159, 35, 70, 140, 5, 10, 20, 40, 80, 160, 93, 186, 105, 210, 185, 111, 222,
   161, 95, 190, 97, 194, 153, 47, 94, 188, 101, 202, 137, 15, 30, 60, 120, 240, 253, 231, 211,
   187, 107, 214, 177, 127, 254, 225, 223, 163, 91, 182, 113, 226, 217, 175, 67, 134, 17, 34, 68,
   136, 13, 26, 52, 104, 208, 189, 103, 206, 129, 31, 62, 124, 248, 237, 199, 147, 59, 118, 236,
   197, 151, 51, 102, 204, 133, 23, 46, 92, 184, 109, 218, 169, 79, 158, 33, 66, 132, 21, 42, 84,
   168, 77, 154, 41, 82, 164, 85, 170, 73, 146, 57, 114, 228, 213, 183, 115, 230, 209, 191, 99,
   198, 145, 63, 126, 252, 229, 215, 179, 123, 246, 241, 255, 227, 219, 171, 75, 150, 49, 98,
   196, 149, 55, 110, 220, 165, 87, 174, 65, 130, 25, 50, 100, 200, 141, 7, 14, 28, 56, 112, 224,
   221, 167, 83, 166, 81, 162, 89, 178, 121, 242, 249, 239, 195, 155, 43, 86, 172, 69, 138, 9,
   18, 36, 72, 144, 61, 122, 244, 245, 247, 243, 251, 235, 203, 139, 11, 22, 44, 88, 176, 125,
   250, 233, 207, 131, 27, 54, 108, 216, 173, 71, 142]

/-- Logarithms to base 2 in GF(2^8): entry `a` is the `k` with `2^k = a`, for `a`
from 1 to 255; entry 0 is unused. -/
def gfLogTable : List Nat :=
  [0, 0, 1, 25, 2, 50, 26, 198, 3, 223, 51, 238, 27, 104, 199, 75, 4, 100, 224, 14, 52, 141, 239,
   129, 28, 193, 105, 248, 200, 8, 76, 113, 5, 138, 101, 47, 225, 36, 15, 33, 53, 147, 142, 218,
   240, 18, 130, 69, 29, 181, 194, 125, 106, 39, 249, 185, 201, 154, 9, 120, 77, 228, 114, 166,
   6, 191, 139, 98, 102, 221, 48, 253, 226, 152, 37, 179, 16, 145, 34, 136, 54, 208, 148, 206,
   143, 150, 219, 189, 241, 210, 19, 92, 131, 56, 70, 64, 30, 66, 182, 163, 195, 72, 126, 110,
   107, 58, 40, 84, 250, 133, 186, 61, 202, 94, 155, 159, 10, 21, 121, 43, 78, 212, 229, 172,
   115, 243, 167, 87, 7, 112, 192, 247, 140, 128, 99, 13, 103, 74, 222, 237, 49, 197, 254, 24,
   227, 165, 153, 119, 38, 184, 180, 124, 17, 68, 146, 217, 35, 32, 137, 46, 55, 63, 209, 91,
   149, 188, 207, 205, 144, 135, 151, 178, 220, 252, 190, 97, 242, 86, 211, 171, 20, 42, 93, 158,
   132, 60, 57, 83, 71, 109, 65, 162, 31, 45, 67, 216, 183, 123, 164, 118, 196, 23, 73, 236, 127,
   12, 111, 246, 108, 161, 59, 82, 41, 157, 85, 170, 251, 96, 134, 177, 187, 204, 62, 90, 203,
   89, 95, 176, 156, 169, 160, 81, 11, 245, 22, 235, 122, 117, 44, 215, 79, 174, 213, 233, 230,
   231, 173, 232, 116, 214, 244, 234, 168, 80, 88, 175]

/-- The byte with number `n`, reduced modulo 256. -/
def byteOf (n : Nat) : Byte := Fin.ofNat n

/-- The power `2^k` in GF(2^8), `k` taken below 255. -/
def gfExp (k : Nat) : Byte := byteOf (gfExpTable.getD k 0)

/-- The logarithm of a non-zero byte. -/
def gfLog (a : Byte) : Nat := gfLogTable.getD a.val 0

/-- Addition in GF(2^8), which is also subtraction: exclusive or. -/
def gfAdd (a b : Byte) : Byte :=
  ⟨a.val ^^^ b.val, Nat.xor_lt_two_pow (n := 8) a.isLt b.isLt⟩

/-- Multiplication in GF(2^8) (`galMultiply`). -/
def gfMul (a b : Byte) : Byte :=
  if a = 0 ∨ b = 0 then 0 else gfExp ((gfLog a + gfLog b) % 255)

/-- Inverse in GF(2^8); the inverse of 0 is taken to be 0. -/
def gfInv (a : Byte) : Byte := if a = 0 then 0 else gfExp ((255 - gfLog a) % 255)

/-- Sum in GF(2^8) of a list of bytes. -/
def gfSum (l : List Byte) : Byte := l.foldr gfAdd 0

/-- Product in GF(2^8) of a list of bytes. -/
def gfProd (l : List Byte) : Byte := l.foldr gfMul 1

/-- Value at `x` of the Lagrange basis polynomial of the node `xi` among `nodes`:
the product of `(x - xj) / (xi - xj)` over the other nodes `xj`. -/
def lagrangeBasisAt (nodes : List Byte) (xi x : Byte) : Byte :=
  gfProd ((nodes.filter (fun xj => xj ≠ xi)).map
    (fun xj => gfMul (gfInv (gfAdd xi xj)) (gfAdd x xj)))

/-- Value at `x` of the polynomial of degree below `len(nodes)` that takes the value
`val xi` at every node `xi`. -/
def lagrangeAt (nodes : List Byte) (val : Byte → Byte) (x : Byte) : Byte :=
  gfSum (nodes.map (fun xi => gfMul (val xi) (lagrangeBasisAt nodes xi x)))

/-- Byte `k` of the shard in slot `x`; 0 where there is none. -/
def shardByte (shards : Shards) (k : Nat) (x : Byte) : Byte :=
  ((shards.getD x.val none).getD []).getD k 0

/-- The shard of slot `r` computed from the shards in the slots `nodes`: byte by byte
the value at `r` of the polynomial through the bytes of those shards. -/
def interpShard (nodes : List Byte) (shards : Shards) (S : Nat) (r : Byte) : Bytes :=
  (List.range S).map (fun k => lagrangeAt nodes (shardByte shards k) r)

/-- Length of a shard; 0 for a nil shard. -/
def shardLen (s : Option Bytes) : Nat := (s.getD []).length

/-- The library's `shardSize`: the length of the first shard of non-zero length, 0 if
there is none. -/
def shardSize : Shards → Nat
  | [] => 0
  | s :: rest => if shardLen s ≠ 0 then shardLen s else shardSize rest

/-- The library's `checkShards`: some shard has data, and every shard has the common
size, or length zero if `nilok`. -/
def checkShards (shards : Shards) (nilok : Bool) : Except LibError Unit :=
  if shardSize shards = 0 then .error .shardNoData
  else if shards.all (fun s => shardLen s == shardSize shards || (nilok && shardLen s == 0))
  then .ok ()
  else .error .shardSize

/-- The slots `0 .. D-1` of the data shards. -/
def dataNodes (D : Nat) : List Byte := (List.range D).map byteOf

/-- The `P` parity shards computed from the `D` data shards. -/
def parityOf (D P : Nat) (shards : Shards) : Shards :=
  (List.range P).map (fun j =>
    some (interpShard (dataNodes D) shards (shardSize shards) (byteOf (D + j))))

/-- Model of `Encode`. -/
def refEncode (D P : Nat) (shards : Shards) : Except LibError Shards :=
  if shards.length ≠ D + P then .error .tooFewShards
  else
    match checkShards shards false with
    | .error e => .error e
    | .ok _ => .ok (shards.take D ++ parityOf D P shards)

/-- Model of `Verify`. -/
def refVerify (D P : Nat) (shards : Shards) : Except LibError Bool :=
  if shards.length ≠ D + P then .error .tooFewShards
  else
    match checkShards shards false with
    | .error e => .error e
    | .ok _ => .ok (decide (shards.drop D = parityOf D P shards))

/-- The slots that hold a shard of non-zero length, in ascending order. -/
def presentSlots (shards : Shards) : List Nat :=
  (List.range shards.length).filter (fun i => shardPresent (shards.getD i none))

/-- Model of `Reconstruct`: every missing shard is computed from the first `D`
present ones. -/
def refReconstruct (D P : Nat) (shards : Shards) : Except LibError Shards :=
  if shards.length ≠ D + P then .error .tooFewShards
  else
    match checkShards shards true with
    | .error e => .error e
    | .ok _ =>
      if presentCount shards = D + P then .ok shards
      else if presentCount shards < D then .error .tooFewShards
      else
        let nodes := ((presentSlots shards).take D).map byteOf
        .ok ((List.range shards.length).map (fun i =>
          if shardPresent (shards.getD i none) then shards.getD i none
          else some (interpShard nodes shards (shardSize shards) (byteOf i))))

/-- The list cut into `n` pieces of length `S`. -/
def chunks (S : Nat) : Nat → Bytes → List Bytes
  | 0, _ => []
  | n + 1, l => l.take S :: chunks S n (l.drop S)

/-- Model of `Split`. -/
def refSplit (D P : Nat) (data : Bytes) : Except LibError Shards :=
  if data.length = 0 then .error .shortData
  else
    let perShard := (data.length + D - 1) / D
    let padded := data ++ List.replicate (perShard * D - data.length) 0
    .ok ((chunks perShard D padded).map some ++
      List.replicate P (some (List.replicate perShard 0)))

/-- The first loop of `Join`: the bytes at hand, counted shard by shard until
`outSize` is reached; `none` when a nil shard comes first. -/
def joinAvailable (outSize : Nat) : Shards → Nat → Option Nat
  | [], size => some size
  | none :: _, _ => none
  | some b :: rest, size =>
    if size + b.length ≥ outSize then some (size + b.length)
    else joinAvailable outSize rest (size + b.length)

/-- Model of `Join`.  A negative `outSize` makes the library slice out of bounds;
the model reports it as `ErrShortData`. -/
def refJoin (D : Nat) (shards : Shards) (outSize : Int) : Except LibError Bytes :=
  if shards.length < D then .error .tooFewShards
  else if outSize < 0 then .error .shortData
  else
    match joinAvailable outSize.toNat (shards.take D) 0 with
    | none => .error .reconstructRequired
    | some size =>
      if size < outSize.toNat then .error .shortData
      else .ok ((concatShards (shards.take D)).take outSize.toNat)

/-- Model of `reedsolomon.New` with the default options, for the 8-bit field: up to 256
shards.  (Above 256 shards the library goes over to a 16-bit field, which the
model leaves out: it reports `ErrMaxShardNum` there.) -/
def refNew (dataShards parityShards : Int) : Except LibError Encoder :=
  if dataShards ≤ 0 ∨ parityShards < 0 then .error .invShardNum
  else if dataShards + parityShards > 256 then .error .maxShardNum
  else
    .ok { Split := refSplit dataShards.toNat parityShards.toNat
          Encode := refEncode dataShards.toNat parityShards.toNat
          Reconstruct := refReconstruct dataShards.toNat parityShards.toNat
          Verify := refVerify dataShards.toNat parityShards.toNat
          Join := refJoin dataShards.toNat }

/-- Multiplication by the generator 2 in GF(2^8): shift left, then reduce by the
polynomial 0x11D if bit 8 was set. -/
def xtime (a : Byte) : Byte :=
  ⟨((a.val &&& 0x7F) * 2) ^^^ ((a.val / 128) * 0x1D), by
    have h1 : a.val &&& 0x7F ≤ 0x7F := Nat.and_le_right
    have h2 : a.val / 128 < 2 := by omega
    have h3 : (a.val &&& 0x7F) * 2 < 2 ^ 8 := by omega
    have h4 : (a.val / 128) * 0x1D < 2 ^ 8 := by omega
    exact Nat.xor_lt_two_pow h3 h4⟩

/-- The field GF(2^8), carried by the bytes. -/
structure GF256 where
  byte : Byte
  deriving DecidableEq

/-! ## Reference model of `encoding/json` on `map[string]string`

`json.Marshal` writes `null` for the nil map and otherwise the entries as
`"key":"value"` pairs in ascending key order between braces; a string is
written with the escapes of `appendString` (HTML escaping on), every byte that
is not part of a valid UTF-8 sequence becoming U+FFFD.  How U+FFFD is written
depends on the Go release: the encoder built on `encoding/json/v2` writes the
character itself (bytes EF BF BD), the earlier encoder the six-byte escape
`\ufffd`; the flag `escapeInvalid` tells the two apart, and nothing else in the
output depends on it.  `json.Unmarshal` first checks the whole input against the
JSON grammar and then stores it into the map. -/

/-- Whether the byte is a UTF-8 continuation byte. -/
def isCont (b : Byte) : Bool := 0x80 ≤ b.val && b.val ≤ 0xBF

/-- The function `utf8.DecodeRune`: the code point at the head of the bytes and the
length of its encoding, or `(0xFFFD, 1)` when the head is not a valid encoding
(`(0xFFFD, 0)` for no bytes). -/
def decodeRune : Bytes → Nat × Nat
  | [] => (0xFFFD, 0)
  | b0 :: rest =>
    if b0.val < 0x80 then (b0.val, 1)
    else if 0xC2 ≤ b0.val ∧ b0.val ≤ 0xDF then
      match rest with
      | b1 :: _ =>
        if isCont b1 then ((b0.val - 0xC0) * 64 + (b1.val - 0x80), 2) else (0xFFFD, 1)
      | [] => (0xFFFD, 1)
    else if 0xE0 ≤ b0.val ∧ b0.val ≤ 0xEF then
      match rest with
      | b1 :: b2 :: _ =>
        if (if b0.val = 0xE0 then 0xA0 else 0x80) ≤ b1.val ∧
            b1.val ≤ (if b0.val = 0xED then 0x9F else 0xBF) ∧ isCont b2 then
          (((b0.val - 0xE0) * 64 + (b1.val - 0x80)) * 64 + (b2.val - 0x80), 3)
        else (0xFFFD, 1)
      | _ => (0xFFFD, 1)
    else if 0xF0 ≤ b0.val ∧ b0.val ≤ 0xF4 then
      match rest with
      | b1 :: b2 :: b3 :: _ =>
        if (if b0.val = 0xF0 then 0x90 else 0x80) ≤ b1.val ∧
            b1.val ≤ (if b0.val = 0xF4 then 0x8F else 0xBF) ∧ isCont b2 ∧ isCont b3 then
          ((((b0.val - 0xF0) * 64 + (b1.val - 0x80)) * 64 + (b2.val - 0x80)) * 64 +
            (b3.val - 0x80), 4)
        else (0xFFFD, 1)
      | _ => (0xFFFD, 1)
    else (0xFFFD, 1)

/-- The function `utf8.EncodeRune` (appending form): a surrogate or a value above
0x10FFFF is written as U+FFFD. -/
def encodeRune (r : Nat) : Bytes :=
  if r < 0x80 then [byteOf r]
  else if r < 0x800 then [byteOf (0xC0 + r / 64), byteOf (0x80 + r % 64)]
  else if (0xD800 ≤ r ∧ r < 0xE000) ∨ 0x10FFFF < r then [0xEF, 0xBF, 0xBD]
  else if r < 0x10000 then
    [byteOf (0xE0 + r / 4096), byteOf (0x80 + r / 64 % 64), byteOf (0x80 + r % 64)]
  else
    [byteOf (0xF0 + r / 262144), byteOf (0x80 + r / 4096 % 64), byteOf (0x80 + r / 64 % 64),
      byteOf (0x80 + r % 64)]

/-- Lower-case hexadecimal digit. -/
def hexDigit (n : Nat) : Byte := byteOf (if n < 10 then 0x30 + n else 0x57 + n)

/-- The table `htmlSafeSet`: the ASCII bytes written as they are. -/
def htmlSafe (b : Byte) : Bool :=
  0x20 ≤ b.val && b.val < 0x80 && b.val != 0x22 && b.val != 0x5C && b.val != 0x3C &&
    b.val != 0x3E && b.val != 0x26

/-- The escape written for an ASCII byte that is not in `htmlSafeSet`. -/
def escapeAscii (b : Byte) : Bytes :=
  if b.val = 0x5C ∨ b.val = 0x22 then [0x5C, b]
  else if b.val = 0x08 then [0x5C, 0x62]
  else if b.val = 0x0C then [0x5C, 0x66]
  else if b.val = 0x0A then [0x5C, 0x6E]
  else if b.val = 0x0D then [0x5C, 0x72]
  else if b.val = 0x09 then [0x5C, 0x74]
  else [0x5C, 0x75, 0x30, 0x30, hexDigit (b.val / 16), hexDigit (b.val % 16)]

/-- The loop of `appendString` over the bytes of a string.  `pending` counts the
bytes still belonging to the multi-byte sequence met last; they are copied if
`keep` and left out otherwise. -/
def quoteBody (escapeInvalid : Bool) : Nat → Bool → Bytes → Bytes
  | _, _, [] => []
  | n + 1, keep, b :: rest => (if keep then [b] else []) ++ quoteBody escapeInvalid n keep rest
  | 0, _, b :: rest =>
    if b.val < 0x80 then
      (if htmlSafe b then [b] else escapeAscii b) ++ quoteBody escapeInvalid 0 true rest
    else if decodeRune (b :: rest) = (0xFFFD, 1) then
      (if escapeInvalid then [0x5C, 0x75, 0x66, 0x66, 0x66, 0x64] else [0xEF, 0xBF, 0xBD]) ++
        quoteBody escapeInvalid 0 true rest
    else if (decodeRune (b :: rest)).1 = 0x2028 ∨ (decodeRune (b :: rest)).1 = 0x2029 then
      [0x5C, 0x75, 0x32, 0x30, 0x32, hexDigit ((decodeRune (b :: rest)).1 % 16)] ++
        quoteBody escapeInvalid ((decodeRune (b :: rest)).2 - 1) false rest
    else b :: quoteBody escapeInvalid ((decodeRune (b :: rest)).2 - 1) true rest

/-- A string as `json.Marshal` writes it, the quotes included. -/
def quoteString (escapeInvalid : Bool) (s : Bytes) : Bytes :=
  [0x22] ++ quoteBody escapeInvalid 0 true s ++ [0x22]

/-- Order of Go strings: bytewise lexicographic, `a ≤ b`. -/
def bytesLe : Bytes → Bytes → Bool
  | [], _ => true
  | _ :: _, [] => false
  | a :: as, b :: bs => a.val < b.val || (a.val == b.val && bytesLe as bs)

/-- The map entries written one after the other, a comma between two. -/
def marshalEntries (escapeInvalid : Bool) : List (Bytes × Bytes) → Bytes
  | [] => []
  | [kv] => quoteString escapeInvalid kv.1 ++ [0x3A] ++ quoteString escapeInvalid kv.2
  | kv :: rest =>
    quoteString escapeInvalid kv.1 ++ [0x3A] ++ quoteString escapeInvalid kv.2 ++ [0x2C] ++
      marshalEntries escapeInvalid rest

/-- Model of `json.Marshal` on a `map[string]string`; it cannot fail on this type. -/
def goJsonMarshal (escapeInvalid : Bool) (rt : RoutingTable) : Except LibError Bytes :=
  match rt with
  | none => .ok [0x6E, 0x75, 0x6C, 0x6C]
  | some entries =>
    .ok ([0x7B] ++
      marshalEntries escapeInvalid
        (entries.insertionSort (fun a b => bytesLe a.1 b.1 = true)) ++ [0x7D])

/-- White space of the JSON scanner: space, tab, carriage return, line feed. -/
def isSpace (b : Byte) : Bool := b.val == 0x20 || b.val == 0x09 || b.val == 0x0D || b.val == 0x0A

/-- The input without its leading white space. -/
def skipSpace : Bytes → Bytes
  | [] => []
  | b :: rest => if isSpace b then skipSpace rest else b :: rest

/-- Whether the byte is a hexadecimal digit. -/
def isHex (b : Byte) : Bool :=
  (0x30 ≤ b.val && b.val ≤ 0x39) || (0x61 ≤ b.val && b.val ≤ 0x66) ||
    (0x41 ≤ b.val && b.val ≤ 0x46)

/-- Value of a hexadecimal digit. -/
def hexVal (b : Byte) : Nat :=
  if b.val ≤ 0x39 then b.val - 0x30 else if b.val ≤ 0x46 then b.val - 0x37 else b.val - 0x57

/-- The value of the escape `\uXXXX` at the head of the input (`getu4`), if there is one. -/
def getu4 : Bytes → Option Nat
  | bs :: u :: h1 :: h2 :: h3 :: h4 :: _ =>
    if bs.val = 0x5C ∧ u.val = 0x75 ∧ isHex h1 ∧ isHex h2 ∧ isHex h3 ∧ isHex h4 then
      some (((hexVal h1 * 16 + hexVal h2) * 16 + hexVal h3) * 16 + hexVal h4)
    else none
  | _ => none

/-- The character of a one-letter escape, if the letter is one. -/
def simpleEscape (c : Byte) : Option Byte :=
  if c.val = 0x22 ∨ c.val = 0x5C ∨ c.val = 0x2F then some c
  else if c.val = 0x62 then some 0x08
  else if c.val = 0x66 then some 0x0C
  else if c.val = 0x6E then some 0x0A
  else if c.val = 0x72 then some 0x0D
  else if c.val = 0x74 then some 0x09
  else none

/-- A string literal read from just after its opening quote: the string it denotes
(`unquote`) and the input after the closing quote; `none` where the scanner
reports a syntax error.  `pending` counts the bytes still to copy of the
multi-byte sequence met last. -/
def scanString : Nat → Nat → Bytes → Option (Bytes × Bytes)
  | 0, _, _ => none
  | _ + 1, _, [] => none
  | fuel + 1, n + 1, b :: rest =>
    (scanString fuel n rest).map (fun r => (b :: r.1, r.2))
  | fuel + 1, 0, b :: rest =>
    if b.val = 0x22 then some ([], rest)
    else if b.val < 0x20 then none
    else if b.val = 0x5C then
      match rest with
      | [] => none
      | c :: rest1 =>
        if c.val = 0x75 then
          match getu4 (b :: rest) with
          | none => none
          | some r =>
            if 0xD800 ≤ r ∧ r < 0xDC00 then
              match getu4 (rest1.drop 4) with
              | some r1 =>
                if 0xDC00 ≤ r1 ∧ r1 < 0xE000 then
                  (scanString fuel 0 (rest1.drop 10)).map (fun out =>
                    (encodeRune (0x10000 + (r - 0xD800) * 1024 + (r1 - 0xDC00)) ++ out.1, out.2))
                else
                  (scanString fuel 0 (rest1.drop 4)).map (fun out =>
                    (encodeRune 0xFFFD ++ out.1, out.2))
              | none =>
                (scanString fuel 0 (rest1.drop 4)).map (fun out =>
                  (encodeRune 0xFFFD ++ out.1, out.2))
            else
              (scanString fuel 0 (rest1.drop 4)).map (fun out => (encodeRune r ++ out.1, out.2))
        else
          match simpleEscape c with
          | none => none
          | some x => (scanString fuel 0 rest1).map (fun out => (x :: out.1, out.2))
    else if b.val < 0x80 then (scanString fuel 0 rest).map (fun out => (b :: out.1, out.2))
    else if decodeRune (b :: rest) = (0xFFFD, 1) then
      (scanString fuel 0 rest).map (fun out => ([0xEF, 0xBF, 0xBD] ++ out.1, out.2))
    else
      (scanString fuel ((decodeRune (b :: rest)).2 - 1) rest).map (fun out => (b :: out.1, out.2))

/-- The input without its leading decimal digits. -/
def skipDigits : Bytes → Bytes
  | [] => []
  | b :: rest => if 0x30 ≤ b.val ∧ b.val ≤ 0x39 then skipDigits rest else b :: rest

/-- One or more decimal digits taken off the input. -/
def scanDigits : Bytes → Option Bytes
  | [] => none
  | b :: rest => if 0x30 ≤ b.val ∧ b.val ≤ 0x39 then some (skipDigits rest) else none

/-- The fraction and exponent of a number, both optional, taken off the input. -/
def scanNumberTail (input : Bytes) : Option Bytes :=
  let afterFrac : Option Bytes :=
    match input with
    | b :: rest => if b.val = 0x2E then scanDigits rest else some input
    | [] => some []
  match afterFrac with
  | none => none
  | some (e :: rest) =>
    if e.val = 0x65 ∨ e.val = 0x45 then
      match rest with
      | s :: rest1 => if s.val = 0x2B ∨ s.val = 0x2D then scanDigits rest1 else scanDigits rest
      | [] => none
    else some (e :: rest)
  | some [] => some []

/-- A number taken off the input, which starts with `-` or a digit. -/
def scanNumber (input : Bytes) : Option Bytes :=
  let digits : Bytes := match input with
    | b :: rest => if b.val = 0x2D then rest else input
    | [] => []
  match digits with
  | d :: rest =>
    if d.val = 0x30 then scanNumberTail rest
    else if 0x31 ≤ d.val ∧ d.val ≤ 0x39 then scanNumberTail (skipDigits rest)
    else none
  | [] => none

/-- The literal `lit` taken off the input. -/
def scanLiteral : Bytes → Bytes → Option Bytes
  | [], input => some input
  | _ :: _, [] => none
  | c :: cs, b :: rest => if c = b then scanLiteral cs rest else none

/-- What the decoder needs to know of a JSON value that is stored into a
`map[string]string` or into one of its elements. -/
inductive JsonShape
  | null
  | str (s : Bytes)
  | object
  | other
  deriving DecidableEq, Repr

/-- The three places of the grammar the reader can stand at: before a value, inside
an array before an element, inside an object before a key. -/
inductive ReadMode
  | value
  | elems
  | members
  deriving DecidableEq, Repr

/-- What was read: the shape of the value, the members if it is an object (keys and the
shapes of their values, in input order), and the input that follows. -/
structure ReadOut where
  shape : JsonShape
  members : List (Bytes × JsonShape)
  rest : Bytes
  deriving DecidableEq, Repr

/-- The JSON reader: one value, or the rest of an array or object, read off the input;
`none` where the scanner reports a syntax error, among them a nesting deeper
than 10000.  Every second call at least consumes a byte, so a fuel of
`2 * len + 2` is enough for an input of `len` bytes. -/
def readJson : Nat → ReadMode → Nat → Bytes → Option ReadOut
  | 0, _, _, _ => none
  | fuel + 1, .value, depth, input =>
    match skipSpace input with
    | [] => none
    | c :: rest =>
      if c.val = 0x22 then
        (scanString (rest.length + 1) 0 rest).map (fun r => ⟨.str r.1, [], r.2⟩)
      else if c.val = 0x7B then
        if depth + 1 > 10000 then none
        else
          match skipSpace rest with
          | d :: rest1 =>
            if d.val = 0x7D then some ⟨.object, [], rest1⟩
            else readJson fuel .members (depth + 1) rest
          | [] => none
      else if c.val = 0x5B then
        if depth + 1 > 10000 then none
        else
          match skipSpace rest with
          | d :: rest1 =>
            if d.val = 0x5D then some ⟨.other, [], rest1⟩
            else readJson fuel .elems (depth + 1) rest
          | [] => none
      else if c.val = 0x2D ∨ (0x30 ≤ c.val ∧ c.val ≤ 0x39) then
        (scanNumber (c :: rest)).map (fun r => ⟨.other, [], r⟩)
      else if c.val = 0x74 then
        (scanLiteral [0x72, 0x75, 0x65] rest).map (fun r => ⟨.other, [], r⟩)
      else if c.val = 0x66 then
        (scanLiteral [0x61, 0x6C, 0x73, 0x65] rest).map (fun r => ⟨.other, [], r⟩)
      else if c.val = 0x6E then
        (scanLiteral [0x75, 0x6C, 0x6C] rest).map (fun r => ⟨.null, [], r⟩)
      else none
  | fuel + 1, .elems, depth, input =>
    match readJson fuel .value depth input with
    | none => none
    | some v =>
      match skipSpace v.rest with
      | c :: rest =>
        if c.val = 0x2C then readJson fuel .elems depth rest
        else if c.val = 0x5D then some ⟨.other, [], rest⟩
        else none
      | [] => none
  | fuel + 1, .members, depth, input =>
    match skipSpace input with
    | q :: rest =>
      if q.val = 0x22 then
        match scanString (rest.length + 1) 0 rest with
        | none => none
        | some (key, rest1) =>
          match skipSpace rest1 with
          | colon :: rest2 =>
            if colon.val = 0x3A then
              match readJson fuel .value depth rest2 with
              | none => none
              | some v =>
                match skipSpace v.rest with
                | c :: rest3 =>
                  if c.val = 0x2C then
                    match readJson fuel .members depth rest3 with
                    | none => none
                    | some more => some ⟨.object, (key, v.shape) :: more.members, more.rest⟩
                  else if c.val = 0x7D then some ⟨.object, [(key, v.shape)], rest3⟩
                  else none
                | [] => none
            else none
          | [] => none
      else none
    | [] => none

/-- The map with `key` set to `value`, the entries kept in ascending key order. -/
def tableInsert (key value : Bytes) : List (Bytes × Bytes) → List (Bytes × Bytes)
  | [] => [(key, value)]
  | kv :: rest =>
    if kv.1 = key then (key, value) :: rest
    else if bytesLe key kv.1 then (key, value) :: kv :: rest
    else kv :: tableInsert key value rest

/-- The members of an object stored into the map one after the other: a string is the
value, `null` leaves the zero value `""`, anything else is a type error. -/
def storeMembers : List (Bytes × JsonShape) → List (Bytes × Bytes) →
    Except LibError (List (Bytes × Bytes))
  | [], acc => .ok acc
  | (key, .str s) :: rest, acc => storeMembers rest (tableInsert key s acc)
  | (key, .null) :: rest, acc => storeMembers rest (tableInsert key [] acc)
  | _ :: _, _ => .error .jsonType

/-- Model of `json.Unmarshal(data, &rt)` for a nil `rt map[string]string`. -/
def goJsonUnmarshal (data : Bytes) : Except LibError RoutingTable :=
  match readJson (2 * data.length + 2) .value 0 data with
  | none => .error .jsonSyntax
  | some out =>
    match skipSpace out.rest with
    | _ :: _ => .error .jsonSyntax
    | [] =>
      match out.shape with
      | .null => .ok none
      | .object =>
        match storeMembers out.members [] with
        | .error e => .error e
        | .ok entries => .ok (some entries)
      | _ => .error .jsonType

/-- The packages the codec is linked against, as modelled above, the JSON encoder
writing U+FFFD as the character itself. -/
def refPackages : Packages :=
  { rsNew := refNew, jsonMarshal := goJsonMarshal false, jsonUnmarshal := goJsonUnmarshal }

/-- The same packages with the earlier JSON encoder, which writes U+FFFD as the
escape `\ufffd`. -/
def legacyPackages : Packages :=
  { rsNew := refNew, jsonMarshal := goJsonMarshal true, jsonUnmarshal := goJsonUnmarshal }

/-! ## Vocabulary of the round trip -/

/-- The function `utf8.Valid`, started `pending` bytes before the next sequence: whether
the bytes are a sequence of valid UTF-8 encodings. -/
def utf8ValidFrom : Nat → Bytes → Bool
  | _, [] => true
  | n + 1, _ :: rest => utf8ValidFrom n rest
  | 0, b :: rest =>
    if b.val < 0x80 then utf8ValidFrom 0 rest
    else if decodeRune (b :: rest) = (0xFFFD, 1) then false
    else utf8ValidFrom ((decodeRune (b :: rest)).2 - 1) rest

/-- Whether a Go string is valid UTF-8 (`utf8.ValidString`). -/
def utf8Valid (s : Bytes) : Bool := utf8ValidFrom 0 s

/-- The table is a `RoutingTable` as the data model describes it (the keys of a non-nil
map listed in strictly ascending order) and all its keys and values are valid
UTF-8. -/
def IsUtf8Table (rt : RoutingTable) : Prop :=
  ∀ entries, rt = some entries →
    entries.Pairwise (fun a b => bytesLe b.1 a.1 = false) ∧
      ∀ kv ∈ entries, utf8Valid kv.1 = true ∧ utf8Valid kv.2 = true

instance (rt : RoutingTable) : Decidable (IsUtf8Table rt) :=
  match rt with
  | none => isTrue (fun _ h => by cases h)
  | some entries =>
    decidable_of_iff
      (entries.Pairwise (fun a b => bytesLe b.1 a.1 = false) ∧
        ∀ kv ∈ entries, utf8Valid kv.1 = true ∧ utf8Valid kv.2 = true)
      ⟨fun h _ he => by cases he; exact h, fun h => h entries rfl⟩

/-- `json.Unmarshal` reads back what `json.Marshal` wrote for a map whose keys and
values are valid UTF-8. -/
def JsonRoundTripLaw (pk : Packages) : Prop :=
  ∀ rt serialized, IsUtf8Table rt → pk.jsonMarshal rt = .ok serialized →
    pk.jsonUnmarshal serialized = .ok rt

/-! ## Test data: the scenario of `main.go` and of the specification

Two data shards and three parity shards; shards 2 and 4 are lost. -/

/-- The table `k1 ↦ v1, k2 ↦ v2`. -/
def scenarioTable : RoutingTable :=
  some [([0x6B, 0x31], [0x76, 0x31]), ([0x6B, 0x32], [0x76, 0x32])]

/-- The JSON text of `scenarioTable`, 21 bytes. -/
def scenarioJson : Bytes :=
  [0x7B, 0x22, 0x6B, 0x31, 0x22, 0x3A, 0x22, 0x76, 0x31, 0x22, 0x2C,
   0x22, 0x6B, 0x32, 0x22, 0x3A, 0x22, 0x76, 0x32, 0x22, 0x7D]

/-- The encoding of `scenarioTable` with `D = 2`, `P = 3`. -/
def scenarioEncoded : EncodedRoutingTable :=
  { Metadata := { DataShards := 2, ParityShards := 3, OriginalSize := 21 }
    Shards := [some [123, 34, 107, 49, 34, 58, 34, 118, 49, 34, 44],
               some [34, 107, 50, 34, 58, 34, 118, 50, 34, 125, 0],
               some [201, 176, 217, 23, 18, 10, 138, 254, 23, 156, 116],
               some [144, 249, 128, 4, 10, 18, 222, 186, 4, 195, 88],
               some [2, 27, 18, 125, 66, 90, 111, 123, 125, 67, 156]] }

/-- The loop of `main.go` that drops shards 2 and 4:
`if i == 2 || i == 4 { received[i] = nil } else { received[i] = encoded.Shards[i] }`. -/
def receivedShards (shards : Shards) : Shards :=
  (List.range shards.length).map (fun i => if i = 2 ∨ i = 4 then none else shards.getD i none)

/-- The encoding of `scenarioTable` with `D = 2` and no parity shard. -/
def scenarioEncodedNoParity : EncodedRoutingTable :=
  { Metadata := { DataShards := 2, ParityShards := 0, OriginalSize := 21 }
    Shards := [some [123, 34, 107, 49, 34, 58, 34, 118, 49, 34, 44],
               some [34, 107, 50, 34, 58, 34, 118, 50, 34, 125, 0]] }

/-- A table whose one value is the byte 0xFF, which is not valid UTF-8: `k ↦ "\xff"`. -/
def invalidUtf8Table : RoutingTable := some [([0x6B], [0xFF])]

/-- The encoding of `invalidUtf8Table` with `D = 2`, `P = 3`, the JSON text being
`{"k":"` followed by the bytes EF BF BD and `"}`, 11 bytes. -/
def invalidUtf8Encoded : EncodedRoutingTable :=
  { Metadata := { DataShards := 2, ParityShards := 3, OriginalSize := 11 }
    Shards := [some [123, 34, 107, 34, 58, 34],
               some [239, 191, 189, 34, 125, 0],
               some [78, 5, 218, 34, 180, 102],
               some [218, 152, 12, 34, 243, 68],
               some [17, 108, 20, 34, 59, 170]] }

/-- The encoding of `invalidUtf8Table` with `D = 2`, `P = 3` by the earlier JSON encoder,
the JSON text being `{"k":"\ufffd"}`, 14 bytes. -/
def invalidUtf8EncodedLegacy : EncodedRoutingTable :=
  { Metadata := { DataShards := 2, ParityShards := 3, OriginalSize := 14 }
    Shards := [some [123, 34, 107, 34, 58, 34, 92],
               some [117, 102, 102, 102, 100, 34, 125],
               some [103, 170, 113, 170, 134, 34, 30],
               some [105, 238, 124, 238, 216, 34, 63],
               some [67, 47, 95, 47, 95, 34, 216]] }

/-- The shards of `scenarioEncoded` with all three parity shards lost. -/
def scenarioParityLost : Shards :=
  [some [123, 34, 107, 49, 34, 58, 34, 118, 49, 34, 44],
   some [34, 107, 50, 34, 58, 34, 118, 50, 34, 125, 0], none, none, none]

/-! ## Key material: `types/peer.go`, `types/quorum.go`

`BuildQuorum` calls the secret-sharing package `go.dedis.ch/kyber/v3/share` on
the suite Ed25519.  Scalars are the elements of a commutative ring `F` (for the
suite, the integers modulo the prime group order); a point of the group is
given by the scalar it is of the base point; the random stream is the
sequence `rand 0, rand 1, ...` of the scalars that successive calls of `Pick`
return. -/

namespace Kyber

/-- A point of the group, written as a multiple of the base point: `dlog • B`.  The
code never sees `dlog`; it is how the model names the point. -/
structure Point (F : Type) where
  dlog : F
  deriving DecidableEq, Repr

/-- The struct `share.PriShare`: a private share, index and value. -/
structure PriShare (F : Type) where
  I : Int
  V : F
  deriving DecidableEq, Repr

/-- The struct `share.PubShare`: a public share, index and point. -/
structure PubShare (F : Type) where
  I : Int
  V : Point F
  deriving DecidableEq, Repr

/-- The struct `share.PriPoly`: a secret-sharing polynomial, given by its coefficients,
the constant one first. -/
structure PriPoly (F : Type) where
  coeffs : List F
  deriving DecidableEq, Repr

/-- The struct `share.PubPoly`: the commitments to the coefficients of a `PriPoly`. -/
structure PubPoly (F : Type) where
  commits : List (Point F)
  deriving DecidableEq, Repr

variable {F : Type} [CommRing F]

/-- The function `share.NewPriPoly(group, t, nil, rand)`:
`coeffs := make([]kyber.Scalar, t); coeffs[0] = Pick(rand);
for i := 1; i < t; i++ { coeffs[i] = Pick(rand) }`. -/
def NewPriPoly (t : Int) (rand : Nat → F) : Except RuntimePanic (PriPoly F) :=
  if t < 0 then .error .makesliceLenOutOfRange
  else if t = 0 then .error .indexOutOfRange
  else .ok { coeffs := (List.range t.toNat).map rand }

/-- The method `(*PriPoly).Eval(i)`: the share `p(1 + i)`, computed by Horner's rule
from the last coefficient down:
`xi := SetInt64(1 + int64(i)); for j := t - 1; j >= 0; j-- { v.Mul(v, xi); v.Add(v, coeffs[j]) }`. -/
def PriPoly.Eval (p : PriPoly F) (i : Int) : PriShare F :=
  { I := i, V := p.coeffs.foldr (fun c v => v * ((1 + i : Int) : F) + c) 0 }

/-- The method `(*PriPoly).Shares(n)`: the shares `p(1), ..., p(n)`. -/
def PriPoly.Shares (p : PriPoly F) (n : Int) : Except RuntimePanic (List (PriShare F)) :=
  if n < 0 then .error .makesliceLenOutOfRange
  else .ok ((List.range n.toNat).map (fun i : Nat => p.Eval (i : Int)))

/-- The method `(*PriPoly).Commit(nil)`: every coefficient times the base point. -/
def PriPoly.Commit (p : PriPoly F) : PubPoly F :=
  { commits := p.coeffs.map (fun c => { dlog := c }) }

/-- The method `(*PubPoly).Eval(i)`: the public share at `1 + i`, by Horner's rule on
points: `for j := t - 1; j >= 0; j-- { v.Mul(xi, v); v.Add(v, commits[j]) }`. -/
def PubPoly.Eval (p : PubPoly F) (i : Int) : PubShare F :=
  { I := i
    V := { dlog := p.commits.foldr (fun c v => ((1 + i : Int) : F) * v + c.dlog) 0 } }

end Kyber

namespace Types

open Kyber

/-- The struct `Peer` of `types/peer.go`. -/
structure Peer (F : Type) where
  ID : Int
  PrivKeyShare : F
  PubKeyShare : Point F
  deriving DecidableEq, Repr

/-- The struct `Quorum` of `types/quorum.go`. -/
structure Quorum (F : Type) where
  ID : Int
  Peers : List (Peer F)
  PubKey : Point F
  PrivShares : List (PriShare F)
  deriving DecidableEq, Repr

variable {F : Type} [CommRing F]

/-- The loop `for i := 0; i < size; i++ { q.Peers[i] = &Peer{ID: i,
PrivKeyShare: privShares[i].V, PubKeyShare: suite.Point().Mul(privShares[i].V, nil)} }`
over the `size` shares, from index `i` on. -/
def buildPeers : Nat → List (PriShare F) → List (Peer F)
  | _, [] => []
  | i, sh :: rest =>
    { ID := i, PrivKeyShare := sh.V, PubKeyShare := { dlog := sh.V } } :: buildPeers (i + 1) rest

/-- The function `BuildQuorum(id, size, threshold)`, run on the random stream `rand`.  Its
error result is always nil; what can go wrong is a run-time panic. -/
def BuildQuorum (rand : Nat → F) (id size threshold : Int) :
    Except RuntimePanic (Quorum F) :=
  match NewPriPoly threshold rand with
  | .error p => .error p
  | .ok poly =>
    match poly.Shares size with
    | .error p => .error p
    | .ok privShares =>
      .ok { ID := id
            Peers := buildPeers 0 privShares
            PubKey := (poly.Commit.Eval 0).V
            PrivShares := privShares }

end Types

/-- The order of the group of the suite Ed25519, a prime:
`2^252 + 27742317777372353535851937790883648493`. -/
def ed25519Order : Nat := 2 ^ 252 + 27742317777372353535851937790883648493

/-- The scalars of the suite Ed25519: the integers modulo the group order. -/
abbrev Ed25519Scalar := ZMod ed25519Order

/-- A small prime modulus, for running the key generation on a scalar field by hand. -/
instance fact_prime_thirteen : Fact (Nat.Prime 13) := ⟨by norm_num⟩

/-! ## Successor search -/

theorem findSuccessorLoop_eq_none {target : Int} {ids : List Int} :
    findSuccessorLoop target ids = none ↔ ∀ x ∈ ids, x < target := by
  induction ids with
  | nil => simp [findSuccessorLoop]
  | cons a rest ih =>
    by_cases h : a ≥ target
    · simp only [findSuccessorLoop, h, if_true, List.mem_cons, forall_eq_or_imp]
      constructor
      · intro hc; cases hc
      · intro hc; omega
    · simp only [findSuccessorLoop, h, if_false, List.mem_cons, forall_eq_or_imp, ih]
      constructor
      · intro hc; exact ⟨by omega, hc⟩
      · intro hc; exact hc.2

theorem findSuccessorLoop_eq_some {target s : Int} {ids : List Int}
    (h : findSuccessorLoop target ids = some s) :
    s ∈ ids ∧ target ≤ s ∧ (ids.Sorted (· ≤ ·) → ∀ x ∈ ids, target ≤ x → s ≤ x) := by
  induction ids with
  | nil => simp [findSuccessorLoop] at h
  | cons a rest ih =>
    by_cases ha : a ≥ target
    · simp only [findSuccessorLoop, ha, if_true, Option.some.injEq] at h
      subst h
      refine ⟨List.mem_cons_self _ _, ha, ?_⟩
      intro hs x hx _
      rcases List.mem_cons.mp hx with rfl | hx
      · exact le_refl _
      · exact List.rel_of_sorted_cons hs x hx
    · simp only [findSuccessorLoop, ha, if_false] at h
      obtain ⟨hm, ht, hmin⟩ := ih h
      refine ⟨List.mem_cons_of_mem _ hm, ht, ?_⟩
      intro hs x hx hxt
      rcases List.mem_cons.mp hx with rfl | hx
      · omega
      · exact hmin hs.of_cons x hx hxt

theorem findSuccessor_of_ne_nil (target : Int) {ids : List Int} (hne : ids ≠ []) :
    ∃ s, findSuccessor target ids = .ok s ∧ s ∈ ids := by
  unfold findSuccessor
  cases hl : findSuccessorLoop target ids with
  | some s => exact ⟨s, rfl, (findSuccessorLoop_eq_some hl).1⟩
  | none =>
    cases ids with
    | nil => exact absurd rfl hne
    | cons a rest => exact ⟨a, rfl, List.mem_cons_self _ _⟩

/-- C5. On a non-empty list sorted in ascending order `findSuccessor` returns an
element of the list; when some element is `>= target` it is the smallest such
element, and when none is it is the first element `ids[0]`, the smallest of all. -/
theorem findSuccessor_correct (target : Int) (ids : List Int) (hne : ids ≠ [])
    (hs : ids.Sorted (· ≤ ·)) :
    ∃ s, findSuccessor target ids = .ok s ∧ s ∈ ids ∧
      ((∃ x ∈ ids, target ≤ x) → target ≤ s ∧ ∀ x ∈ ids, target ≤ x → s ≤ x) ∧
      ((∀ x ∈ ids, x < target) → ids.head? = some s ∧ ∀ x ∈ ids, s ≤ x) := by
  cases hl : findSuccessorLoop target ids with
  | some s =>
    obtain ⟨hm, ht, hmin⟩ := findSuccessorLoop_eq_some hl
    refine ⟨s, by simp [findSuccessor, hl], hm, fun _ => ⟨ht, hmin hs⟩, ?_⟩
    intro hall
    exact absurd (hall s hm) (by omega)
  | none =>
    have hall := findSuccessorLoop_eq_none.mp hl
    cases ids with
    | nil => exact absurd rfl hne
    | cons a rest =>
      refine ⟨a, by simp [findSuccessor, hl], List.mem_cons_self _ _, ?_, ?_⟩
      · rintro ⟨x, hx, hxt⟩
        exact absurd (hall x hx) (by omega)
      · intro _
        refine ⟨rfl, ?_⟩
        intro x hx
        rcases List.mem_cons.mp hx with rfl | hx
        · exact le_refl _
        · exact List.rel_of_sorted_cons hs x hx

/-- Witness for C5 on the identifiers 2, 5, 9, 13: the successor of 14 wraps to 2
and the successor of 6 is 9. -/
theorem findSuccessor_correct_witness :
    (∃ s, findSuccessor 14 [2, 5, 9, 13] = .ok s ∧ s ∈ [2, 5, 9, 13] ∧
      ((∃ x ∈ [2, 5, 9, 13], (14 : Int) ≤ x) →
        14 ≤ s ∧ ∀ x ∈ [2, 5, 9, 13], (14 : Int) ≤ x → s ≤ x) ∧
      ((∀ x ∈ [2, 5, 9, 13], x < (14 : Int)) →
        [2, 5, 9, 13].head? = some s ∧ ∀ x ∈ [2, 5, 9, 13], s ≤ x)) ∧
    findSuccessor 14 [2, 5, 9, 13] = .ok 2 ∧ findSuccessor 6 [2, 5, 9, 13] = .ok 9 :=
  ⟨findSuccessor_correct 14 [2, 5, 9, 13] (by decide) (by decide), by decide, by decide⟩

/-! ## Finger tables -/

theorem wrapInt_of_range {x : Int} (h0 : 0 ≤ x) (h1 : x < 2 ^ 63) : wrapInt x = x := by
  unfold wrapInt
  have h2 : (2 : Int) ^ 64 = 2 ^ 63 + 2 ^ 63 := by norm_num
  rw [Int.emod_eq_of_lt (by omega) (by omega)]
  omega

theorem pow2_le_pow62 {j : Nat} (hj : j ≤ 62) : (2 : Int) ^ j ≤ 2 ^ 62 :=
  pow_le_pow_right₀ (by norm_num) hj

/-- The target computed by the loop body is the ring position `(id + 2^j) mod 2^m`. -/
theorem fingerTarget_eq {id : Int} {m j : Nat} (hm : m ≤ 62) (hj : j < m)
    (h0 : 0 ≤ id) (h1 : id < 2 ^ m) :
    goMod (wrapInt (id + pow2Int j)) (2 ^ m) = .ok ((id + 2 ^ j) % 2 ^ m) := by
  have hj62 : j ≤ 62 := by omega
  have hpj : (0 : Int) < 2 ^ j := by positivity
  have hpm : (0 : Int) < 2 ^ m := by positivity
  have hb1 : (2 : Int) ^ j ≤ 2 ^ 62 := pow2_le_pow62 hj62
  have hb2 : (2 : Int) ^ m ≤ 2 ^ 62 := pow2_le_pow62 hm
  have h63 : (2 : Int) ^ 63 = 2 ^ 62 + 2 ^ 62 := by norm_num
  have hw : wrapInt (id + 2 ^ j) = id + 2 ^ j := wrapInt_of_range (by omega) (by omega)
  simp only [pow2Int, hj62, if_true, hw, goMod]
  rw [if_neg (by omega), Int.tmod_eq_emod (by omega) (by omega)]

theorem fingerEntries_spec {id : Int} {m : Nat} (ids : List Int) (hm : m ≤ 62)
    (h0 : 0 ≤ id) (h1 : id < 2 ^ m) (hne : ids ≠ []) :
    ∀ js : List Nat, (∀ j ∈ js, j < m) →
      ∃ ft, fingerEntries id (2 ^ m) ids js = .ok ft ∧
        List.Forall₂ (fun j s => findSuccessor ((id + 2 ^ j) % 2 ^ m) ids = .ok s) js ft := by
  intro js
  induction js with
  | nil => intro _; exact ⟨[], rfl, List.Forall₂.nil⟩
  | cons j js ih =>
    intro hjs
    obtain ⟨rest, hrest, hrel⟩ := ih (fun k hk => hjs k (List.mem_cons_of_mem _ hk))
    obtain ⟨s, hs, _⟩ := findSuccessor_of_ne_nil ((id + 2 ^ j) % 2 ^ m) hne
    refine ⟨s :: rest, ?_, List.Forall₂.cons hs hrel⟩
    simp only [fingerEntries, fingerTarget_eq hm (hjs j (List.mem_cons_self _ _)) h0 h1, hs, hrest]

theorem fingerTableOf_spec {id : Int} {m : Nat} (ids : List Int) (hm : m ≤ 62)
    (h0 : 0 ≤ id) (h1 : id < 2 ^ m) (hne : ids ≠ []) :
    ∃ ft, fingerTableOf id (2 ^ m) m ids = .ok ft ∧ ft.length = m ∧
      ∀ j, j < m → ∃ s, ft[j]? = some s ∧
        findSuccessor ((id + 2 ^ j) % 2 ^ m) ids = .ok s := by
  obtain ⟨ft, hft, hrel⟩ := fingerEntries_spec ids hm h0 h1 hne (List.range m)
    (fun j hj => List.mem_range.mp hj)
  have hlen : ft.length = m := by rw [← hrel.length_eq, List.length_range]
  refine ⟨ft, ?_, hlen, ?_⟩
  · simp only [fingerTableOf, Int.toNat_ofNat]
    rw [if_neg (by omega)]
    exact hft
  · intro j hj
    have hj2 : j < ft.length := by omega
    refine ⟨ft[j], List.getElem?_eq_getElem hj2, ?_⟩
    have h := List.Forall₂.get hrel (i := j) (by simpa using hj) hj2
    simpa using h

/-- The shape of a finger table built for the identifier list `ids` on the ring of
size `2^m`: `m` entries, entry `j` the successor of `(q.ID + 2^j) mod 2^m`. -/
def FingerTableOk (ids : List Int) (m : Nat) (q : Quorum) : Prop :=
  q.FingerTable.length = m ∧
    ∀ j, j < m → ∃ s, q.FingerTable[j]? = some s ∧
      findSuccessor ((q.ID + 2 ^ j) % 2 ^ m) ids = .ok s

theorem buildFingerTablesLoop_spec {m : Nat} (ids : List Int) (hm : m ≤ 62) (hne : ids ≠ []) :
    ∀ qs : List Quorum, (∀ q ∈ qs, 0 ≤ q.ID ∧ q.ID < 2 ^ m) →
      ∃ out, buildFingerTablesLoop ids (2 ^ m) m qs = .ok out ∧
        buildFingerTablesV3Loop ids (2 ^ m) m qs = .ok out ∧
        out.map (fun q => q.ID) = qs.map (fun q => q.ID) ∧
        ∀ q ∈ out, FingerTableOk ids m q := by
  intro qs
  induction qs with
  | nil => intro _; exact ⟨[], rfl, rfl, rfl, by simp⟩
  | cons q qs ih =>
    intro hq
    obtain ⟨rest, h1, h2, h3, h4⟩ := ih (fun x hx => hq x (List.mem_cons_of_mem _ hx))
    obtain ⟨hq0, hq1⟩ := hq q (List.mem_cons_self _ _)
    obtain ⟨ft, hft, hlen, hsucc⟩ := fingerTableOf_spec ids hm hq0 hq1 hne
    refine ⟨{ ID := q.ID, FingerTable := ft } :: rest, ?_, ?_, ?_, ?_⟩
    · simp only [buildFingerTablesLoop, hft, h1]
    · simp only [buildFingerTablesV3Loop, hft, h2]
    · simp only [List.map_cons, h3]
    · intro x hx
      rcases List.mem_cons.mp hx with rfl | hx
      · exact ⟨hlen, hsucc⟩
      · exact h4 x hx

/-- C6. For a non-empty list of quorums with identifiers in `[0, 2^m)` and
`ringSize = 2^m` (an `int`, so `m ≤ 62`), `buildFingerTables` (both variants in
the repository) returns normally; every quorum keeps its identifier and gets a
finger table of exactly `m` entries whose entry `j` is what `findSuccessor`
gives for `(Q.ID + 2^j) mod 2^m` over the list of quorum identifiers. -/
theorem buildFingerTables_spec (quorums : List Quorum) (m : Nat) (hm : m ≤ 62)
    (hne : quorums ≠ []) (hid : ∀ q ∈ quorums, 0 ≤ q.ID ∧ q.ID < 2 ^ m) :
    ∃ out, buildFingerTables quorums (2 ^ m) m = .ok out ∧
      buildFingerTablesV3 quorums (2 ^ m) m = .ok out ∧
      out.map (fun q => q.ID) = quorums.map (fun q => q.ID) ∧
      ∀ q ∈ out, q.FingerTable.length = m ∧
        ∀ j, j < m → ∃ s, q.FingerTable[j]? = some s ∧
          findSuccessor ((q.ID + 2 ^ j) % 2 ^ m) (quorums.map (fun q => q.ID)) = .ok s := by
  have hids : quorums.map (fun q => q.ID) ≠ [] := by
    cases quorums with
    | nil => exact absurd rfl hne
    | cons a l => simp
  obtain ⟨out, h1, h2, h3, h4⟩ := buildFingerTablesLoop_spec _ hm hids quorums hid
  exact ⟨out, h1, h2, h3, h4⟩

/-- Witness for C6: the ring of size 16 (`m = 4`) with quorums 2, 5, 9, 13. -/
theorem buildFingerTables_spec_witness :
    ∃ out, buildFingerTables [⟨2, []⟩, ⟨5, []⟩, ⟨9, []⟩, ⟨13, []⟩] (2 ^ 4) (4 : Nat) = .ok out ∧
      buildFingerTablesV3 [⟨2, []⟩, ⟨5, []⟩, ⟨9, []⟩, ⟨13, []⟩] (2 ^ 4) (4 : Nat) = .ok out ∧
      out.map (fun q => q.ID) = [2, 5, 9, 13] ∧
      ∀ q ∈ out, q.FingerTable.length = 4 ∧
        ∀ j, j < 4 → ∃ s, q.FingerTable[j]? = some s ∧
          findSuccessor ((q.ID + 2 ^ j) % 2 ^ 4) [2, 5, 9, 13] = .ok s :=
  buildFingerTables_spec [⟨2, []⟩, ⟨5, []⟩, ⟨9, []⟩, ⟨13, []⟩] 4 (by decide) (by decide)
    (by decide)

/-! ## Empty ring -/

/-- C10, the claim refuted on the empty list: `findSuccessor` returns no value at
all there, the access `ids[0]` panics with an index out of range. -/
theorem findSuccessor_nil_panics :
    findSuccessor 0 [] = .error RuntimePanic.indexOutOfRange ∧
      ¬ ∃ v : Int, findSuccessor 0 [] = .ok v := by
  refine ⟨rfl, ?_⟩
  rintro ⟨v, hv⟩
  simp [findSuccessor, findSuccessorLoop] at hv

/-- C10 as amended. On a non-empty list `findSuccessor` returns an identifier of the
list for every target; on the empty list it returns nothing, the run ends in the
index-out-of-range panic; `buildFingerTables` on an empty quorum list never
calls it and returns the empty list. -/
theorem findSuccessor_total_iff (target : Int) (ids : List Int) :
    (ids ≠ [] → ∃ s, findSuccessor target ids = .ok s ∧ s ∈ ids) ∧
    (ids = [] → findSuccessor target ids = .error RuntimePanic.indexOutOfRange) ∧
    (∀ ringSize m : Int, buildFingerTables [] ringSize m = .ok [] ∧
      buildFingerTablesV3 [] ringSize m = .ok []) := by
  refine ⟨fun h => findSuccessor_of_ne_nil target h, ?_, fun _ _ => ⟨rfl, rfl⟩⟩
  rintro rfl
  rfl

/-- Witness for the amended C10 on the identifiers 2, 5, 9, 13 and on the empty list. -/
theorem findSuccessor_total_iff_witness :
    (∃ s, findSuccessor 14 [2, 5, 9, 13] = .ok s ∧ s ∈ [2, 5, 9, 13]) ∧
      findSuccessor 14 [] = .error RuntimePanic.indexOutOfRange :=
  ⟨(findSuccessor_total_iff 14 [2, 5, 9, 13]).1 (by decide),
    (findSuccessor_total_iff 14 []).2.1 rfl⟩

/-! ## Signature combination -/

/-- C7, the claim refuted for threshold 1: a single share, which is exactly
`threshold` shares, is combined without any error. -/
theorem combine_one_share_at_threshold_one :
    ([[1, 2, 3]] : List Bytes).length = 1 ∧
      CombineSignatures [[1, 2, 3]] = .ok [1, 2, 3] := by
  decide

/-- C7 as amended. `CombineSignatures` takes no threshold and checks none: with
`T + 1` shares it succeeds for every `T`, and with exactly `T` shares it fails
if and only if `T = 0`, the error being "no signature shares". -/
theorem combine_threshold (T : Nat) (shares : List Bytes) :
    (shares.length = T + 1 → ∃ sig, CombineSignatures shares = .ok sig) ∧
    (shares.length = T →
      (CombineSignatures shares = .error CombineError.noSignatureShares ↔ T = 0) ∧
      (0 < T → ∃ sig, CombineSignatures shares = .ok sig)) := by
  cases shares with
  | nil =>
    refine ⟨fun h => by simp at h, fun h => ?_⟩
    simp only [List.length_nil] at h
    subst h
    exact ⟨by simp [CombineSignatures], fun h0 => absurd h0 (by decide)⟩
  | cons s rest =>
    refine ⟨fun _ => ⟨s, rfl⟩, fun h => ⟨?_, fun _ => ⟨s, rfl⟩⟩⟩
    simp only [List.length_cons] at h
    constructor
    · intro hc; simp [CombineSignatures] at hc
    · intro h0; omega

/-- Witness for the amended C7 with threshold 3: four shares are combined, and so
are three. -/
theorem combine_threshold_witness :
    (∃ sig, CombineSignatures [[1], [2], [3], [4]] = .ok sig) ∧
      (∃ sig, CombineSignatures [[1], [2], [3]] = .ok sig) :=
  ⟨(combine_threshold 3 [[1], [2], [3], [4]]).1 rfl,
    ((combine_threshold 3 [[1], [2], [3]]).2 rfl).2 (by decide)⟩

/-- C8, the claim refuted: a list holding the same share twice is accepted. -/
theorem combine_accepts_duplicate :
    CombineSignatures [[7, 7], [7, 7]] = .ok [7, 7] := by
  decide

/-- C8 as amended. `CombineSignatures` sees byte strings only, carries no peer
identifiers and detects no duplicates: every list with a repeated share is
accepted and its first share is returned. -/
theorem combine_no_duplicate_check (shares : List Bytes) (hdup : ¬ shares.Nodup) :
    ∃ sig, CombineSignatures shares = .ok sig ∧ shares.head? = some sig := by
  cases shares with
  | nil => exact absurd List.nodup_nil hdup
  | cons s rest => exact ⟨s, rfl, rfl⟩

/-- Witness for the amended C8. -/
theorem combine_no_duplicate_check_witness :
    ∃ sig, CombineSignatures [[7, 7], [9], [7, 7]] = .ok sig ∧
      ([[7, 7], [9], [7, 7]] : List Bytes).head? = some sig :=
  combine_no_duplicate_check [[7, 7], [9], [7, 7]] (by decide)

/-! ## Erasure codec: shard-count check -/

/-- C4. When the number of shard slots differs from `Metadata.DataShards +
Metadata.ParityShards` (the sum as Go computes it on `int`), `DecodeRoutingTable`
returns the shard-count-mismatch error whatever the slots hold and whatever the
libraries would do, and the shard slice is as it was. -/
theorem decode_shard_count_mismatch (pk : Packages) (encoded : EncodedRoutingTable)
    (h : (encoded.Shards.length : Int) ≠
      wrapInt (encoded.Metadata.DataShards + encoded.Metadata.ParityShards)) :
    DecodeRoutingTable pk encoded = .error CodingError.shardCountMismatch ∧
      DecodeRoutingTableRun pk encoded =
        (.error CodingError.shardCountMismatch, encoded.Shards) := by
  have hrun : DecodeRoutingTableRun pk encoded =
      (.error CodingError.shardCountMismatch, encoded.Shards) := by
    unfold DecodeRoutingTableRun
    simp only [ne_eq, h, not_false_eq_true, if_true]
  exact ⟨by rw [DecodeRoutingTable, hrun], hrun⟩

/-! ## Erasure codec: shape of the encoder output -/

theorem allOfSize_length_unique {S T : Nat} {shards : Shards} (hne : shards ≠ [])
    (hS : AllOfSize S shards) (hT : AllOfSize T shards) : S = T := by
  cases shards with
  | nil => exact absurd rfl hne
  | cons s rest =>
    obtain ⟨b, hb, hbl⟩ := hS s (List.mem_cons_self _ _)
    obtain ⟨c, hc, hcl⟩ := hT s (List.mem_cons_self _ _)
    rw [hb] at hc
    cases hc
    omega

/-- What a successful run of `EncodeRoutingTableWithParams` went through. -/
theorem encode_ok_inv {pk : Packages} {rt : RoutingTable} {D P : Int}
    {enc : EncodedRoutingTable} (h : EncodeRoutingTableWithParams pk rt D P = .ok enc) :
    ∃ dataBytes rsEnc shards, pk.jsonMarshal rt = .ok dataBytes ∧
      pk.rsNew D P = .ok rsEnc ∧ rsEnc.Split dataBytes = .ok shards ∧
      rsEnc.Encode shards = .ok enc.Shards ∧
      enc.Metadata = { DataShards := D, ParityShards := P, OriginalSize := dataBytes.length } := by
  unfold EncodeRoutingTableWithParams at h
  cases hm : pk.jsonMarshal rt with
  | error e => simp [hm] at h
  | ok dataBytes =>
    cases hn : pk.rsNew D P with
    | error e => simp [hm, hn] at h
    | ok rsEnc =>
      cases hsp : rsEnc.Split dataBytes with
      | error e => simp [hm, hn, hsp] at h
      | ok shards =>
        cases he : rsEnc.Encode shards with
        | error e => simp [hm, hn, hsp, he] at h
        | ok out =>
          simp only [hm, hn, hsp, he, Except.ok.injEq] at h
          subst h
          exact ⟨dataBytes, rsEnc, shards, rfl, rfl, hsp, he, rfl⟩

/-- C9. When `EncodeRoutingTableWithParams(table, D, P)` succeeds with `D ≥ 1` and
`P ≥ 0`, the result holds exactly `D + P` shards, all non-nil and of one length
`S` with `S * D ≥ L` for the length `L` of the serialized table, the metadata is
`{D, P, L}`, and the first `D` shards, one after the other, are the serialized
bytes followed by zeros. -/
theorem encode_output_shape (pk : Packages) (hsplit : SplitLaw pk.rsNew)
    (hencode : EncodeLaw pk.rsNew) (rt : RoutingTable) (D P : Int) (hD : 1 ≤ D) (hP : 0 ≤ P)
    (enc : EncodedRoutingTable) (h : EncodeRoutingTableWithParams pk rt D P = .ok enc) :
    ∃ (dataBytes : Bytes) (S : Nat), pk.jsonMarshal rt = .ok dataBytes ∧
      (enc.Shards.length : Int) = D + P ∧ AllOfSize S enc.Shards ∧
      (dataBytes.length : Int) ≤ S * D ∧
      enc.Metadata = { DataShards := D, ParityShards := P, OriginalSize := dataBytes.length } ∧
      concatShards (enc.Shards.take D.toNat) =
        dataBytes ++ List.replicate (S * D.toNat - dataBytes.length) 0 := by
  obtain ⟨dataBytes, rsEnc, shards, hm, hn, hsp, he, hmd⟩ := encode_ok_inv h
  obtain ⟨S, hle, hlen, hall, hcat⟩ := hsplit D P rsEnc hn dataBytes shards hsp
  obtain ⟨holen, htake, ⟨T, _, hTin, hTout⟩, _⟩ := hencode D P rsEnc hn shards enc.Shards he
  have hDn : ((D.toNat : Nat) : Int) = D := Int.toNat_of_nonneg (by omega)
  have hPn : ((P.toNat : Nat) : Int) = P := Int.toNat_of_nonneg hP
  have hne : shards ≠ [] := by
    intro hnil
    rw [hnil, List.length_nil] at hlen
    omega
  have hST : S = T := allOfSize_length_unique hne hall hTin
  refine ⟨dataBytes, S, hm, ?_, hST ▸ hTout, ?_, hmd, ?_⟩
  · rw [holen]; push_cast; omega
  · rw [← hDn]; exact_mod_cast hle
  · rw [htake]; exact hcat

/-! ## Erasure codec: failure above capacity -/

theorem presentCount_add_missingCount (shards : Shards) :
    presentCount shards + missingCount shards = shards.length := by
  unfold presentCount missingCount
  induction shards with
  | nil => rfl
  | cons s rest ih =>
    simp only [List.countP_cons, List.length_cons]
    cases shardPresent s <;> simp <;> omega

theorem shardPresent_normalizeShard (s : Option Bytes) :
    shardPresent (normalizeShard s) = shardPresent s := by
  cases s with
  | none => rfl
  | some b => cases b <;> rfl

theorem presentCount_map_normalizeShard (shards : Shards) :
    presentCount (shards.map normalizeShard) = presentCount shards := by
  unfold presentCount
  induction shards with
  | nil => rfl
  | cons s rest ih =>
    simp only [List.map_cons, List.countP_cons, ih, shardPresent_normalizeShard]

theorem wrapInt_shard_total {D P : Int} (hD : 1 ≤ D) (hP : 0 ≤ P) (hmax : D + P ≤ 65536) :
    wrapInt (D + P) = D + P :=
  wrapInt_of_range (by omega) (by norm_num; omega)

/-- C2. When more than `P` of the `D + P` slots of a shard set made by
`EncodeRoutingTableWithParams(table, D, P)` are missing (nil or of length zero),
`DecodeRoutingTable` returns the reconstruction-failed error and no table. -/
theorem decode_fails_above_capacity (pk : Packages) (hrange : RangeLaw pk.rsNew)
    (hencode : EncodeLaw pk.rsNew) (hfew : TooFewLaw pk.rsNew) (rt : RoutingTable)
    (D P : Int) (enc : EncodedRoutingTable)
    (h : EncodeRoutingTableWithParams pk rt D P = .ok enc) (damaged : Shards)
    (hlen : damaged.length = enc.Shards.length) (hmiss : P.toNat < missingCount damaged) :
    ∃ e, DecodeRoutingTable pk { Metadata := enc.Metadata, Shards := damaged } =
      .error (CodingError.reconstructionFailed e) := by
  obtain ⟨dataBytes, rsEnc, shards, hm, hn, hsp, he, hmd⟩ := encode_ok_inv h
  obtain ⟨hD, hP, hmax⟩ := hrange D P rsEnc hn
  obtain ⟨holen, _, _, _⟩ := hencode D P rsEnc hn shards enc.Shards he
  have hDn : ((D.toNat : Nat) : Int) = D := Int.toNat_of_nonneg (by omega)
  have hPn : ((P.toNat : Nat) : Int) = P := Int.toNat_of_nonneg hP
  have hcount := presentCount_add_missingCount damaged
  have hfewer : presentCount (damaged.map normalizeShard) < D.toNat := by
    rw [presentCount_map_normalizeShard]; omega
  obtain ⟨e, hrec⟩ := hfew D P rsEnc hn _ hfewer
  refine ⟨e, ?_⟩
  have htot : (damaged.length : Int) = wrapInt (D + P) := by
    rw [wrapInt_shard_total hD hP hmax, hlen, holen]; push_cast; omega
  simp only [DecodeRoutingTable, DecodeRoutingTableRun, hmd, htot, ne_eq, not_true_eq_false,
    if_false, hn, hrec]

/-! ## Erasure codec: round trip -/

theorem normalizeShard_of_present {s : Option Bytes} (h : shardPresent s = true) :
    normalizeShard s = s := by
  cases s with
  | none => rfl
  | some b => cases b with
    | nil => simp [shardPresent] at h
    | cons x xs => rfl

theorem normalizeShard_of_missing {s : Option Bytes} (h : shardPresent s = false) :
    normalizeShard s = none := by
  cases s with
  | none => rfl
  | some b => cases b with
    | nil => rfl
    | cons x xs => simp [shardPresent] at h

theorem shardPresent_of_allOfSize {S : Nat} {shards : Shards} (hS : 0 < S)
    (hall : AllOfSize S shards) {s : Option Bytes} (hs : s ∈ shards) : shardPresent s = true := by
  obtain ⟨b, rfl, hb⟩ := hall s hs
  cases b with
  | nil => simp at hb; omega
  | cons x xs => rfl

theorem count_none_map_normalizeShard (shards : Shards) :
    (shards.map normalizeShard).count none = missingCount shards := by
  unfold missingCount
  induction shards with
  | nil => rfl
  | cons s rest ih =>
    rw [List.map_cons, List.count_cons, List.countP_cons, ih]
    cases hp : shardPresent s
    · simp [normalizeShard_of_missing hp]
    · have hn := normalizeShard_of_present hp
      cases s with
      | none => simp [shardPresent] at hp
      | some b => simp [hn]

theorem erasure_normalized {S : Nat} {cw damaged : Shards} (hS : 0 < S)
    (hall : AllOfSize S cw) (hdam : IsErasureOf cw damaged) :
    List.Forall₂ (fun s d => d = s ∨ d = none) cw (damaged.map normalizeShard) := by
  unfold IsErasureOf at hdam
  induction hdam with
  | nil => exact List.Forall₂.nil
  | @cons s d l1 l2 hsd _ ih =>
    have hall2 : AllOfSize S l1 := fun x hx => hall x (List.mem_cons_of_mem _ hx)
    refine List.Forall₂.cons ?_ (ih hall2)
    rcases hsd with rfl | hmiss
    · left
      exact normalizeShard_of_present (shardPresent_of_allOfSize hS hall (List.mem_cons_self _ _))
    · right
      exact normalizeShard_of_missing hmiss

/-- What `DecodeRoutingTable` returns on an encoded shard set of which at most `P` shards
are missing: what `json.Unmarshal` yields on the bytes `json.Marshal(table)` gave, the
same table or the same error wrapped as the unmarshal failure. -/
theorem decode_encode_unmarshal (pk : Packages) (hrange : RangeLaw pk.rsNew)
    (hsplit : SplitLaw pk.rsNew) (hencode : EncodeLaw pk.rsNew)
    (herasure : ErasureLaw pk.rsNew) (hverify : VerifyLaw pk.rsNew) (hjoin : JoinLaw pk.rsNew)
    (rt : RoutingTable) (D P : Int) (enc : EncodedRoutingTable)
    (h : EncodeRoutingTableWithParams pk rt D P = .ok enc) (damaged : Shards)
    (hdam : IsErasureOf enc.Shards damaged) (hmiss : missingCount damaged ≤ P.toNat)
    (serialized : Bytes) (hser : pk.jsonMarshal rt = .ok serialized) :
    DecodeRoutingTable pk { Metadata := enc.Metadata, Shards := damaged } =
      (pk.jsonUnmarshal serialized).mapError CodingError.unmarshalFailed := by
  obtain ⟨dataBytes, rsEnc, shards, hm, hn, hsp, he, hmd⟩ := encode_ok_inv h
  have hsame : serialized = dataBytes := Except.ok.inj (hser.symm.trans hm)
  subst hsame
  obtain ⟨hD, hP, hmax⟩ := hrange D P rsEnc hn
  obtain ⟨S, hle, hlen, hall, hcat⟩ := hsplit D P rsEnc hn serialized shards hsp
  obtain ⟨holen, htake, ⟨T, hT, hTin, hTout⟩, hidem⟩ :=
    hencode D P rsEnc hn shards enc.Shards he
  have hDn : ((D.toNat : Nat) : Int) = D := Int.toNat_of_nonneg (by omega)
  have hPn : ((P.toNat : Nat) : Int) = P := Int.toNat_of_nonneg hP
  have hne : shards ≠ [] := by
    intro hnil
    rw [hnil, List.length_nil] at hlen
    omega
  have hST : S = T := allOfSize_length_unique hne hall hTin
  subst hST
  -- the length test passes
  have htot : (damaged.length : Int) = wrapInt (D + P) := by
    rw [wrapInt_shard_total hD hP hmax, ← hdam.length_eq, holen]; push_cast; omega
  -- reconstruction restores the encoded shard set
  have hrec : rsEnc.Reconstruct (damaged.map normalizeShard) = .ok enc.Shards :=
    herasure D P rsEnc hn shards enc.Shards _ he (erasure_normalized hT hTout hdam)
      (by rw [count_none_map_normalizeShard]; exact hmiss)
  -- verification accepts it
  obtain ⟨b, hver, hb⟩ := hverify D P rsEnc hn enc.Shards S hT hTout holen
  have hbt : b = true := hb.mpr hidem
  subst hbt
  -- joining gives back the serialized bytes
  have hjoined : rsEnc.Join enc.Shards (serialized.length : Int) = .ok serialized := by
    have := hjoin D P rsEnc hn enc.Shards S serialized.length hTout (by omega) hle
    rw [this, htake, hcat, List.take_left']
    rfl
  simp only [DecodeRoutingTable, DecodeRoutingTableRun, hmd, htot, ne_eq, not_true_eq_false,
    if_false, hn, hrec, hver, hjoined]
  cases pk.jsonUnmarshal serialized <;> rfl

/-- C1 as amended. For every routing table whose keys and values are valid UTF-8: when
`EncodeRoutingTableWithParams(table, D, P)` succeeds (so `D ≥ 1` and `P ≥ 0`) and
at most `P` of the resulting `D + P` shards are then missing (nil or of length
zero), `DecodeRoutingTable` on that shard set and the returned metadata succeeds
and returns `table`. -/
theorem decode_encode_roundtrip (pk : Packages) (hrange : RangeLaw pk.rsNew)
    (hsplit : SplitLaw pk.rsNew) (hencode : EncodeLaw pk.rsNew)
    (herasure : ErasureLaw pk.rsNew) (hverify : VerifyLaw pk.rsNew) (hjoin : JoinLaw pk.rsNew)
    (hjson : JsonRoundTripLaw pk) (rt : RoutingTable) (hvalid : IsUtf8Table rt) (D P : Int)
    (enc : EncodedRoutingTable) (h : EncodeRoutingTableWithParams pk rt D P = .ok enc)
    (damaged : Shards) (hdam : IsErasureOf enc.Shards damaged)
    (hmiss : missingCount damaged ≤ P.toNat) :
    1 ≤ D ∧ 0 ≤ P ∧
      DecodeRoutingTable pk { Metadata := enc.Metadata, Shards := damaged } = .ok rt := by
  obtain ⟨dataBytes, rsEnc, shards, hm, hn, _, _, _⟩ := encode_ok_inv h
  obtain ⟨hD, hP, _⟩ := hrange D P rsEnc hn
  refine ⟨hD, hP, ?_⟩
  rw [decode_encode_unmarshal pk hrange hsplit hencode herasure hverify hjoin rt D P enc h
    damaged hdam hmiss dataBytes hm, hjson rt dataBytes hvalid hm]
  rfl

/-! ## Erasure codec: corruption detection -/

set_option maxRecDepth 100000 in
theorem flipBit_ne (x : Byte) (k : Fin 8) : flipBit x k ≠ x := by
  revert x k
  decide

theorem forall₂_set_none (l : Shards) (i : Nat) :
    List.Forall₂ (fun s d => d = s ∨ d = none) l (l.set i none) := by
  induction l generalizing i with
  | nil => exact List.Forall₂.nil
  | cons s rest ih =>
    cases i with
    | zero =>
      exact List.Forall₂.cons (Or.inr rfl) (List.forall₂_same.mpr (fun _ _ => Or.inl rfl))
    | succ n => exact List.Forall₂.cons (Or.inl rfl) (ih n)

theorem count_none_set_le (l : Shards) (i : Nat) (h : ∀ s ∈ l, s ≠ none) :
    (l.set i none).count none ≤ 1 := by
  induction l generalizing i with
  | nil => simp
  | cons s rest ih =>
    have hrest : ∀ x ∈ rest, x ≠ none := fun x hx => h x (List.mem_cons_of_mem _ hx)
    cases i with
    | zero =>
      have h0 : rest.count none = 0 := List.count_eq_zero.mpr (fun hc => hrest none hc rfl)
      simp [List.set, h0]
    | succ n =>
      have hs : s ≠ none := h s (List.mem_cons_self _ _)
      have := ih n hrest
      simp only [List.set, List.count_cons]
      have hne : (s == none) = false := by
        cases s with
        | none => exact absurd rfl hs
        | some b => rfl
      simp [hne, this]

theorem flipShardBit_set (l : Shards) (i pos : Nat) (k : Fin 8) :
    (flipShardBit l i pos k).set i none = l.set i none := by
  unfold flipShardBit
  rw [List.set_eq_modify, List.modify_modify_eq, List.set_eq_modify]
  rfl

theorem allOfSize_flipShardBit {S : Nat} {l : Shards} (i pos : Nat) (k : Fin 8)
    (h : AllOfSize S l) : AllOfSize S (flipShardBit l i pos k) := by
  intro s hs
  obtain ⟨j, hj, hget⟩ := List.getElem_of_mem hs
  unfold flipShardBit at hget hj
  rw [List.getElem_modify] at hget
  rw [List.length_modify] at hj
  obtain ⟨b, hb, hbl⟩ := h l[j] (List.getElem_mem hj)
  by_cases hij : i = j
  · rw [if_pos hij, hb] at hget
    exact ⟨_, hget.symm, by rw [List.length_modify]; exact hbl⟩
  · rw [if_neg hij] at hget
    exact ⟨b, hget ▸ hb, hbl⟩

theorem flipShardBit_ne {l : Shards} {i pos : Nat} (k : Fin 8) {b : Bytes}
    (hb : l[i]? = some (some b)) (hpos : pos < b.length) : flipShardBit l i pos k ≠ l := by
  intro hc
  have h1 : (flipShardBit l i pos k)[i]? = l[i]? := by rw [hc]
  unfold flipShardBit at h1
  rw [List.getElem?_modify_eq, hb] at h1
  simp only [Option.map_eq_map, Option.map_some', Option.some.injEq] at h1
  have h2 : (b.modify (fun x => flipBit x k) pos)[pos]? = b[pos]? := by rw [h1]
  rw [List.getElem?_modify_eq, List.getElem?_eq_getElem hpos] at h2
  simp only [Option.map_eq_map, Option.map_some', Option.some.injEq] at h2
  exact flipBit_ne _ _ h2

theorem normalizeShard_idem (s : Option Bytes) :
    normalizeShard (normalizeShard s) = normalizeShard s := by
  cases s with
  | none => rfl
  | some b => cases b <;> rfl

theorem map_normalizeShard_set (shards : Shards) (i : Nat) (s : Option Bytes) :
    (shards.set i s).map normalizeShard = (shards.map normalizeShard).set i (normalizeShard s) := by
  induction shards generalizing i with
  | nil => rfl
  | cons a rest ih =>
    cases i with
    | zero => rfl
    | succ n => simp only [List.set_cons_succ, List.map_cons, ih]

/-! ## Erasure codec: zero-length shards count as nil -/

/-- The result of `DecodeRoutingTable` depends on the shard slice only through what the
normalization loop makes of it. -/
theorem decode_congr_normalized (pk : Packages) (md : ShardMetadata) {s1 s2 : Shards}
    (h : s1.map normalizeShard = s2.map normalizeShard) :
    DecodeRoutingTable pk { Metadata := md, Shards := s1 } =
      DecodeRoutingTable pk { Metadata := md, Shards := s2 } := by
  have hlen : s1.length = s2.length := by
    have := congrArg List.length h
    simpa using this
  unfold DecodeRoutingTable DecodeRoutingTableRun
  simp only [hlen, h]
  by_cases hc : (s2.length : Int) ≠ wrapInt (md.DataShards + md.ParityShards)
  · rw [if_pos hc, if_pos hc]
  · rw [if_neg hc, if_neg hc]
    cases pk.rsNew md.DataShards md.ParityShards with
    | error e => rfl
    | ok rsEnc => rfl

/-- C11. With `len(shards) = D + P`, `DecodeRoutingTable` returns the same table or the
same error whether a slot holds a zero-length buffer or nil, and the same as on
the slice normalized beforehand; the normalization replaces a zero-length slot
by nil, leaves a nil slot nil and leaves every non-empty slot as it is; and it
is the normalized slice that `Reconstruct` is given: when `Reconstruct` rejects
it, the shard slice is left in its normalized form. -/
theorem decode_zero_length_as_nil (pk : Packages) (md : ShardMetadata) (shards : Shards)
    (i : Nat) (hlen : (shards.length : Int) = wrapInt (md.DataShards + md.ParityShards)) :
    DecodeRoutingTable pk { Metadata := md, Shards := shards.set i (some []) } =
        DecodeRoutingTable pk { Metadata := md, Shards := shards.set i none } ∧
      DecodeRoutingTable pk { Metadata := md, Shards := shards } =
        DecodeRoutingTable pk { Metadata := md, Shards := shards.map normalizeShard } ∧
      (∀ j : Nat, (shards.map normalizeShard)[j]? = (shards[j]?).map normalizeShard) ∧
      (∀ s : Option Bytes,
        (s = some [] → normalizeShard s = none) ∧ (s = none → normalizeShard s = none) ∧
        (shardPresent s = true → normalizeShard s = s)) ∧
      (∀ rsEnc e, pk.rsNew md.DataShards md.ParityShards = .ok rsEnc →
        rsEnc.Reconstruct (shards.map normalizeShard) = .error e →
        DecodeRoutingTableRun pk { Metadata := md, Shards := shards } =
          (.error (CodingError.reconstructionFailed e), shards.map normalizeShard)) := by
  refine ⟨?_, ?_, ?_, ?_, ?_⟩
  · apply decode_congr_normalized
    rw [map_normalizeShard_set, map_normalizeShard_set]
    rfl
  · apply decode_congr_normalized
    rw [List.map_map]
    exact List.map_congr_left (fun s _ => (normalizeShard_idem s).symm)
  · intro j
    exact List.getElem?_map _ _ _
  · intro s
    refine ⟨?_, ?_, normalizeShard_of_present⟩
    · rintro rfl; rfl
    · rintro rfl; rfl
  · intro rsEnc e hn hrec
    unfold DecodeRoutingTableRun
    simp only [hlen, ne_eq, not_true_eq_false, if_false, hn, hrec]

/-! ## Signature combination: the placeholder -/

/-- C13. For every non-empty list of signature shares `CombineSignatures` returns the
first share of the list as it is, with no error, whatever the other shares are;
for the empty list it returns the error and no signature. -/
theorem combine_returns_first (shares : List Bytes) :
    (shares ≠ [] → ∃ first rest, shares = first :: rest ∧
      CombineSignatures shares = .ok first ∧
      ∀ others : List Bytes, CombineSignatures (first :: others) = .ok first) ∧
    CombineSignatures ([] : List Bytes) = .error CombineError.noSignatureShares := by
  refine ⟨?_, rfl⟩
  intro hne
  cases shares with
  | nil => exact absurd rfl hne
  | cons first rest => exact ⟨first, rest, rfl, rfl, fun _ => rfl⟩

/-- Witness for C13: three shares, the first is returned. -/
theorem combine_returns_first_witness :
    ∃ first rest, ([[5, 6], [7], [8, 9]] : List Bytes) = first :: rest ∧
      CombineSignatures [[5, 6], [7], [8, 9]] = .ok first ∧
      ∀ others : List Bytes, CombineSignatures (first :: others) = .ok first :=
  (combine_returns_first [[5, 6], [7], [8, 9]]).1 (by decide)

/-! ## Erasure codec: corruption detection with shards lost -/

theorem forall₂_getElem? {α β : Type} {R : α → β → Prop} {l1 : List α} {l2 : List β}
    (h : List.Forall₂ R l1 l2) {i : Nat} {a : α} (ha : l1[i]? = some a) :
    ∃ b, l2[i]? = some b ∧ R a b := by
  induction h generalizing i with
  | nil => simp at ha
  | @cons x y xs ys hxy _ ih =>
    cases i with
    | zero =>
      simp only [List.getElem?_cons_zero, Option.some.injEq] at ha
      subst ha
      exact ⟨y, List.getElem?_cons_zero, hxy⟩
    | succ n =>
      simp only [List.getElem?_cons_succ] at ha ⊢
      exact ih ha

/-- Blanking slot `i` of a shard set that was filled in from `X` gives `X` with slot `i`
blanked, up to the slots that were nil in `X`. -/
theorem forall₂_fill_set_none {X out : Shards}
    (h : List.Forall₂ (fun s o => o = s ∨ s = none) X out) (i : Nat) :
    List.Forall₂ (fun s d => d = s ∨ d = none) out (X.set i none) := by
  induction h generalizing i with
  | nil => exact List.Forall₂.nil
  | @cons s o xs os hso _ ih =>
    cases i with
    | zero =>
      refine List.Forall₂.cons (Or.inr rfl) ?_
      have := ih (xs.length)
      rwa [List.set_eq_of_length_le (le_refl _)] at this
    | succ n =>
      refine List.Forall₂.cons ?_ (ih n)
      rcases hso with rfl | rfl
      · exact Or.inl rfl
      · exact Or.inr rfl

theorem forall₂_erasure_set_none {c X : Shards}
    (h : List.Forall₂ (fun s d => d = s ∨ d = none) c X) (i : Nat) :
    List.Forall₂ (fun s d => d = s ∨ d = none) c (X.set i none) := by
  induction h generalizing i with
  | nil => exact List.Forall₂.nil
  | @cons s d cs ds hsd hrest ih =>
    cases i with
    | zero => exact List.Forall₂.cons (Or.inr rfl) hrest
    | succ n => exact List.Forall₂.cons hsd (ih n)

theorem count_none_set_none_le (X : Shards) (i : Nat) :
    (X.set i none).count none ≤ X.count none + 1 := by
  by_cases hi : i < X.length
  · rw [List.count_set _ _ _ _ hi]
    simp only [beq_self_eq_true, if_true]
    omega
  · rw [List.set_eq_of_length_le (by omega)]
    omega

theorem count_none_set_some (X : Shards) (i : Nat) (b c : Bytes)
    (h : X[i]? = some (some b)) : (X.set i (some c)).count none = X.count none := by
  have hi : i < X.length := by
    by_contra hc
    rw [List.getElem?_eq_none (by omega)] at h
    cases h
  have hget : X[i] = some b := by
    rw [List.getElem?_eq_getElem hi] at h
    exact Option.some.inj h
  rw [List.count_set _ _ _ _ hi, hget]
  simp

theorem flipShardBit_eq_set {l : Shards} {i : Nat} (pos : Nat) (k : Fin 8) {b : Bytes}
    (hb : l[i]? = some (some b)) :
    flipShardBit l i pos k = l.set i (some (b.modify (fun x => flipBit x k) pos)) := by
  unfold flipShardBit
  rw [List.modify_eq_set_get?]
  simp [hb]

theorem modify_flipBit_ne {b : Bytes} {pos : Nat} (k : Fin 8) (hpos : pos < b.length) :
    b.modify (fun x => flipBit x k) pos ≠ b := by
  intro h1
  have h2 : (b.modify (fun x => flipBit x k) pos)[pos]? = b[pos]? := by rw [h1]
  rw [List.getElem?_modify_eq, List.getElem?_eq_getElem hpos] at h2
  simp only [Option.map_eq_map, Option.map_some', Option.some.injEq] at h2
  exact flipBit_ne _ _ h2

/-- C3 as amended. Of a shard set made by `EncodeRoutingTableWithParams(table, D, P)`
fewer than `P` shards have been lost (are nil or of length zero).  Then flipping
any single bit of any one present shard, the shard staying in place, makes
`DecodeRoutingTable` return the verification-failed error. -/
theorem decode_detects_bit_flip (pk : Packages) (hrange : RangeLaw pk.rsNew)
    (hencode : EncodeLaw pk.rsNew) (hfill : ReconstructFillLaw pk.rsNew)
    (herasure : ErasureLaw pk.rsNew) (hverify : VerifyLaw pk.rsNew)
    (rt : RoutingTable) (D P : Int) (enc : EncodedRoutingTable)
    (h : EncodeRoutingTableWithParams pk rt D P = .ok enc) (damaged : Shards)
    (hdam : IsErasureOf enc.Shards damaged) (hmiss : missingCount damaged < P.toNat)
    (i pos : Nat) (k : Fin 8) (b : Bytes) (hb : damaged[i]? = some (some b))
    (hpos : pos < b.length) :
    DecodeRoutingTable pk { Metadata := enc.Metadata, Shards := flipShardBit damaged i pos k } =
      .error CodingError.verificationFailed := by
  obtain ⟨dataBytes, rsEnc, shards, hm, hn, hsp, he, hmd⟩ := encode_ok_inv h
  obtain ⟨hD, hP, hmax⟩ := hrange D P rsEnc hn
  obtain ⟨holen, htake, ⟨S, hS, hSin, hSout⟩, hidem⟩ :=
    hencode D P rsEnc hn shards enc.Shards he
  have hDn : ((D.toNat : Nat) : Int) = D := Int.toNat_of_nonneg (by omega)
  have hPn : ((P.toNat : Nat) : Int) = P := Int.toNat_of_nonneg hP
  -- the shard set as the normalization loop leaves it
  set b2 := b.modify (fun x => flipBit x k) pos with hb2
  have hb2len : b2.length = b.length := List.length_modify _ _ _
  have hbne : b ≠ [] := by
    intro hc; rw [hc] at hpos; simp at hpos
  have hb2ne : b2 ≠ [] := by
    intro hc; rw [hc] at hb2len; simp at hb2len; omega
  have hnb : normalizeShard (some b) = some b := by
    cases b with
    | nil => exact absurd rfl hbne
    | cons _ _ => rfl
  have hnb2 : normalizeShard (some b2) = some b2 := by
    cases hq : b2 with
    | nil => exact absurd hq hb2ne
    | cons _ _ => rfl
  set dN := damaged.map normalizeShard with hdN
  have hbad : (flipShardBit damaged i pos k).map normalizeShard = dN.set i (some b2) := by
    rw [flipShardBit_eq_set pos k hb, map_normalizeShard_set, hnb2]
  have hdNi : dN[i]? = some (some b) := by
    rw [hdN, List.getElem?_map, hb]
    simp [hnb]
  have hera : List.Forall₂ (fun s d => d = s ∨ d = none) enc.Shards dN :=
    erasure_normalized hS hSout hdam
  have hci : enc.Shards[i]? = some (some b) := by
    have hi : i < enc.Shards.length := by
      rw [hera.length_eq]
      by_contra hc
      rw [List.getElem?_eq_none (by omega)] at hdNi
      cases hdNi
    obtain ⟨d, hd, hr⟩ := forall₂_getElem? hera (List.getElem?_eq_getElem hi)
    rw [hdNi] at hd
    cases hd
    rcases hr with hr | hr
    · rw [List.getElem?_eq_getElem hi, ← hr]
    · cases hr
  have hbS : b.length = S := by
    have hi : i < enc.Shards.length := by
      by_contra hc
      rw [List.getElem?_eq_none (by omega)] at hci
      cases hci
    obtain ⟨c, hc, hcl⟩ := hSout _ (List.getElem_mem hi)
    rw [List.getElem?_eq_getElem hi] at hci
    rw [hc] at hci
    cases hci
    exact hcl
  have hdNlen : dN.length = D.toNat + P.toNat := by
    rw [← hera.length_eq, holen]
  have hdNcount : dN.count none = missingCount damaged := count_none_map_normalizeShard damaged
  have hdNslots : ∀ s ∈ dN, s = none ∨ ∃ c : Bytes, s = some c ∧ c.length = S := by
    intro s hs
    obtain ⟨j, hj, rfl⟩ := List.getElem_of_mem hs
    have hj2 : j < enc.Shards.length := by rw [hera.length_eq]; exact hj
    obtain ⟨d, hd, hr⟩ := forall₂_getElem? hera (List.getElem?_eq_getElem hj2)
    rw [List.getElem?_eq_getElem hj] at hd
    cases hd
    rcases hr with hr | hr
    · right
      rw [hr]
      exact hSout _ (List.getElem_mem hj2)
    · exact Or.inl hr
  set bad := dN.set i (some b2) with hbaddef
  have hbadlen : bad.length = D.toNat + P.toNat := by
    rw [hbaddef, List.length_set, hdNlen]
  have hbadslots : ∀ s ∈ bad, s = none ∨ ∃ c : Bytes, s = some c ∧ c.length = S := by
    intro s hs
    rcases List.mem_or_eq_of_mem_set hs with h1 | h1
    · exact hdNslots s h1
    · exact Or.inr ⟨b2, h1, by rw [hb2len, hbS]⟩
  have hbadcount : bad.count none = missingCount damaged := by
    rw [hbaddef, count_none_set_some dN i b b2 hdNi, hdNcount]
  have htot : ((flipShardBit damaged i pos k).length : Int) = wrapInt (D + P) := by
    have : (flipShardBit damaged i pos k).length = dN.length := by
      rw [hdN, List.length_map]
      unfold flipShardBit
      exact List.length_modify _ _ _
    rw [wrapInt_shard_total hD hP hmax, this, hdNlen]; push_cast; omega
  -- reconstruction fills the missing shards and keeps the others
  obtain ⟨out, hrec, houtall, hfillrel⟩ :=
    hfill D P rsEnc hn bad S hS hbadlen hbadslots (by rw [hbadcount]; omega)
  have houtlen : out.length = D.toNat + P.toNat := by
    rw [← hfillrel.length_eq, hbadlen]
  have hbadi : bad[i]? = some (some b2) := by
    have hi : i < dN.length := by
      by_contra hc
      rw [List.getElem?_eq_none (by omega)] at hdNi
      cases hdNi
    rw [hbaddef, List.getElem?_set_eq_of_lt _ hi]
  have houti : out[i]? = some (some b2) := by
    obtain ⟨o, ho, hr⟩ := forall₂_getElem? hfillrel hbadi
    rcases hr with hr | hr
    · rw [ho, hr]
    · cases hr
  -- verification cannot accept the result
  obtain ⟨v, hver, hv⟩ := hverify D P rsEnc hn out S hS houtall houtlen
  have hvf : v = false := by
    cases v with
    | false => rfl
    | true =>
      exfalso
      have houtenc : rsEnc.Encode out = .ok out := hv.mp rfl
      have hblank : bad.set i none = dN.set i none := by
        rw [hbaddef, List.set_set]
      have hcount : (dN.set i none).count none ≤ P.toNat := by
        have := count_none_set_none_le dN i
        omega
      have h1 := herasure D P rsEnc hn shards enc.Shards (dN.set i none) he
        (forall₂_erasure_set_none hera i) hcount
      have h2 := herasure D P rsEnc hn out out (dN.set i none) houtenc
        (by rw [← hblank]; exact forall₂_fill_set_none hfillrel i) hcount
      rw [h1] at h2
      have heq : enc.Shards = out := Except.ok.inj h2
      rw [heq, houti] at hci
      exact modify_flipBit_ne k hpos (Option.some.inj (Option.some.inj hci))
  subst hvf
  simp only [DecodeRoutingTable, DecodeRoutingTableRun, hmd, htot, ne_eq, not_true_eq_false,
    if_false, hn, hbad, hrec, hver]

/-! ## The reference Reed-Solomon model obeys the laws: shapes -/

theorem refNew_ok {D P : Int} {enc : Encoder} (h : refNew D P = .ok enc) :
    1 ≤ D ∧ 0 ≤ P ∧ D + P ≤ 256 ∧
      enc = { Split := refSplit D.toNat P.toNat
              Encode := refEncode D.toNat P.toNat
              Reconstruct := refReconstruct D.toNat P.toNat
              Verify := refVerify D.toNat P.toNat
              Join := refJoin D.toNat } := by
  unfold refNew at h
  by_cases h1 : D ≤ 0 ∨ P < 0
  · simp [h1] at h
  · by_cases h2 : D + P > 256
    · simp [h1, h2] at h
    · simp only [h1, h2, if_false, Except.ok.injEq] at h
      exact ⟨by omega, by omega, by omega, h.symm⟩

theorem refNew_toNat {D P : Int} {enc : Encoder} (h : refNew D P = .ok enc) :
    1 ≤ D.toNat ∧ D.toNat + P.toNat ≤ 256 := by
  obtain ⟨h1, h2, h3, _⟩ := refNew_ok h
  omega

theorem refNew_rangeLaw : RangeLaw refNew := by
  intro D P enc h
  obtain ⟨h1, h2, h3, _⟩ := refNew_ok h
  exact ⟨h1, h2, by omega⟩

theorem chunks_length (S : Nat) : ∀ (n : Nat) (l : Bytes), (chunks S n l).length = n
  | 0, _ => rfl
  | n + 1, l => by simp [chunks, chunks_length S n]

theorem chunks_size (S : Nat) : ∀ (n : Nat) (l : Bytes), l.length = n * S →
    ∀ c ∈ chunks S n l, c.length = S
  | 0, _, _, c, hc => by simp [chunks] at hc
  | n + 1, l, hl, c, hc => by
    simp only [chunks, List.mem_cons] at hc
    have hmul : (n + 1) * S = n * S + S := by ring
    rcases hc with rfl | hc
    · rw [List.length_take]; omega
    · exact chunks_size S n (l.drop S) (by rw [List.length_drop]; omega) c hc

theorem chunks_flatten (S : Nat) : ∀ (n : Nat) (l : Bytes), l.length = n * S →
    (chunks S n l).flatten = l
  | 0, l, hl => by
    have : l = [] := List.length_eq_zero.mp (by omega)
    simp [chunks, this]
  | n + 1, l, hl => by
    have hmul : (n + 1) * S = n * S + S := by ring
    simp only [chunks, List.flatten_cons]
    rw [chunks_flatten S n (l.drop S) (by rw [List.length_drop]; omega)]
    exact List.take_append_drop S l

theorem concatShards_map_some (l : List Bytes) : concatShards (l.map some) = l.flatten := by
  unfold concatShards
  rw [List.map_map]
  congr 1
  exact List.map_id'' (fun _ => rfl) l

theorem ceil_mul_ge (L D : Nat) (hD : 1 ≤ D) : L ≤ (L + D - 1) / D * D := by
  have h1 := Nat.div_add_mod (L + D - 1) D
  have h2 := Nat.mod_lt (L + D - 1) (show 0 < D by omega)
  have h3 : (L + D - 1) / D * D = D * ((L + D - 1) / D) := Nat.mul_comm _ _
  omega

theorem refNew_splitLaw : SplitLaw refNew := by
  intro D P enc h data shards hs
  obtain ⟨hD, hmax⟩ := refNew_toNat h
  obtain ⟨_, _, _, rfl⟩ := refNew_ok h
  simp only [refSplit] at hs
  by_cases h0 : data.length = 0
  · simp [h0] at hs
  · simp only [h0, if_false, Except.ok.injEq] at hs
    have hle := ceil_mul_ge data.length D.toNat hD
    set S := (data.length + D.toNat - 1) / D.toNat with hS
    set padded : Bytes := data ++ List.replicate (S * D.toNat - data.length) 0 with hpad
    have hplen : padded.length = D.toNat * S := by
      rw [hpad, List.length_append, List.length_replicate, Nat.mul_comm D.toNat S]; omega
    refine ⟨S, hle, ?_, ?_, ?_⟩
    · rw [← hs]; simp [chunks_length]
    · intro s hsm
      rw [← hs] at hsm
      rcases List.mem_append.mp hsm with hm | hm
      · obtain ⟨c, hc, rfl⟩ := List.mem_map.mp hm
        exact ⟨c, rfl, chunks_size S D.toNat padded hplen c hc⟩
      · rw [List.eq_of_mem_replicate hm]
        exact ⟨_, rfl, List.length_replicate _ _⟩
    · rw [← hs, List.take_left' (by simp [chunks_length]), concatShards_map_some,
        chunks_flatten S D.toNat padded hplen]

theorem shardLen_of_allOfSize {S : Nat} {l : Shards} (h : AllOfSize S l) :
    ∀ s ∈ l, shardLen s = S := by
  intro s hs
  obtain ⟨b, rfl, hb⟩ := h s hs
  exact hb

theorem shardSize_of_allOfSize {S : Nat} {l : Shards} (hS : 0 < S) (hne : l ≠ [])
    (h : AllOfSize S l) : shardSize l = S := by
  cases l with
  | nil => exact absurd rfl hne
  | cons s rest =>
    have := shardLen_of_allOfSize h s (List.mem_cons_self _ _)
    simp only [shardSize, this]
    rw [if_pos (by omega)]

theorem checkShards_of_allOfSize {S : Nat} {l : Shards} (hS : 0 < S) (hne : l ≠ [])
    (h : AllOfSize S l) (nilok : Bool) : checkShards l nilok = .ok () := by
  have hsz := shardSize_of_allOfSize hS hne h
  unfold checkShards
  rw [hsz, if_neg (by omega), if_pos]
  rw [List.all_eq_true]
  intro s hs
  simp [shardLen_of_allOfSize h s hs]

theorem allOfSize_of_checkShards {l : Shards} (h : checkShards l false = .ok ()) :
    0 < shardSize l ∧ AllOfSize (shardSize l) l := by
  unfold checkShards at h
  by_cases h0 : shardSize l = 0
  · simp [h0] at h
  · rw [if_neg h0] at h
    by_cases hall : (l.all fun s => shardLen s == shardSize l || (false && shardLen s == 0)) = true
    · refine ⟨by omega, ?_⟩
      intro s hs
      have := List.all_eq_true.mp hall s hs
      simp only [Bool.false_and, Bool.or_false, beq_iff_eq] at this
      cases s with
      | none => simp [shardLen] at this; omega
      | some b => exact ⟨b, rfl, this⟩
    · rw [if_neg hall] at h
      cases h

theorem checkShards_cases (l : Shards) (nilok : Bool) :
    checkShards l nilok = .ok () ∨ ∃ e, checkShards l nilok = .error e := by
  unfold checkShards
  split
  · exact Or.inr ⟨_, rfl⟩
  · split
    · exact Or.inl rfl
    · exact Or.inr ⟨_, rfl⟩

theorem interpShard_length (nodes : List Byte) (shards : Shards) (S : Nat) (r : Byte) :
    (interpShard nodes shards S r).length = S := by
  simp [interpShard]

theorem parityOf_length (D P : Nat) (shards : Shards) : (parityOf D P shards).length = P := by
  simp [parityOf]

theorem allOfSize_parityOf (D P : Nat) (shards : Shards) :
    AllOfSize (shardSize shards) (parityOf D P shards) := by
  intro s hs
  obtain ⟨j, _, rfl⟩ := List.mem_map.mp hs
  exact ⟨_, rfl, interpShard_length _ _ _ _⟩

theorem lagrangeAt_congr {nodes : List Byte} {val1 val2 : Byte → Byte}
    (h : ∀ x ∈ nodes, val1 x = val2 x) (x : Byte) :
    lagrangeAt nodes val1 x = lagrangeAt nodes val2 x := by
  unfold lagrangeAt
  congr 1
  exact List.map_congr_left (fun xi hxi => by rw [h xi hxi])

theorem interpShard_congr {nodes : List Byte} {s1 s2 : Shards} (S : Nat) (r : Byte)
    (h : ∀ x ∈ nodes, s1.getD x.val none = s2.getD x.val none) :
    interpShard nodes s1 S r = interpShard nodes s2 S r := by
  unfold interpShard
  refine List.map_congr_left (fun k _ => lagrangeAt_congr (fun x hx => ?_) r)
  unfold shardByte
  rw [h x hx]

theorem byteOf_val {n : Nat} (h : n < 256) : (byteOf n).val = n := by
  simp [byteOf, Fin.ofNat, Nat.mod_eq_of_lt h]

theorem mem_dataNodes {D : Nat} (hD : D ≤ 256) {x : Byte} (hx : x ∈ dataNodes D) : x.val < D := by
  obtain ⟨i, hi, rfl⟩ := List.mem_map.mp hx
  have hi2 := List.mem_range.mp hi
  rw [byteOf_val (by omega)]
  exact hi2

theorem getD_eq_of_take_eq {l1 l2 : Shards} {D i : Nat} (h : l1.take D = l2.take D)
    (hi : i < D) : l1.getD i none = l2.getD i none := by
  have h1 : (l1.take D)[i]? = (l2.take D)[i]? := by rw [h]
  rw [List.getElem?_take_of_lt hi, List.getElem?_take_of_lt hi] at h1
  simp only [List.getD_eq_getElem?_getD, h1]

theorem parityOf_congr {D P : Nat} (hD : D ≤ 256) {s1 s2 : Shards}
    (hsz : shardSize s1 = shardSize s2) (h : s1.take D = s2.take D) :
    parityOf D P s1 = parityOf D P s2 := by
  unfold parityOf
  rw [hsz]
  refine List.map_congr_left (fun j _ => ?_)
  rw [interpShard_congr _ _ (fun x hx => getD_eq_of_take_eq h (mem_dataNodes hD hx))]

theorem allOfSize_append {S : Nat} {l1 l2 : Shards} (h1 : AllOfSize S l1) (h2 : AllOfSize S l2) :
    AllOfSize S (l1 ++ l2) := by
  intro s hs
  rcases List.mem_append.mp hs with h | h
  · exact h1 s h
  · exact h2 s h

theorem allOfSize_take {S : Nat} {l : Shards} (n : Nat) (h : AllOfSize S l) :
    AllOfSize S (l.take n) :=
  fun s hs => h s (List.mem_of_mem_take hs)

theorem refEncode_ok {D P : Nat} {shards out : Shards} (h : refEncode D P shards = .ok out) :
    shards.length = D + P ∧ checkShards shards false = .ok () ∧
      out = shards.take D ++ parityOf D P shards := by
  unfold refEncode at h
  by_cases hl : shards.length ≠ D + P
  · simp [hl] at h
  · rw [if_neg hl] at h
    rcases checkShards_cases shards false with hc | ⟨e, hc⟩
    · rw [hc] at h
      exact ⟨by simpa using hl, hc, (Except.ok.inj h).symm⟩
    · rw [hc] at h
      cases h

theorem refEncode_of_allOfSize {D P S : Nat} {shards : Shards} (hD : 1 ≤ D)
    (hlen : shards.length = D + P) (hS : 0 < S) (hall : AllOfSize S shards) :
    refEncode D P shards = .ok (shards.take D ++ parityOf D P shards) := by
  have hne : shards ≠ [] := by
    intro hnil; rw [hnil] at hlen; simp at hlen; omega
  unfold refEncode
  rw [if_neg (by simpa using hlen), checkShards_of_allOfSize hS hne hall]

theorem refNew_encodeLaw : EncodeLaw refNew := by
  intro D P enc h shards out he
  obtain ⟨hD, hmax⟩ := refNew_toNat h
  obtain ⟨_, _, _, rfl⟩ := refNew_ok h
  simp only at he ⊢
  obtain ⟨hlen, hchk, hout⟩ := refEncode_ok he
  obtain ⟨hS, hall⟩ := allOfSize_of_checkShards hchk
  have htl : (shards.take D.toNat).length = D.toNat := by
    rw [List.length_take]; omega
  have houtlen : out.length = D.toNat + P.toNat := by
    rw [hout, List.length_append, htl, parityOf_length]
  have houttake : out.take D.toNat = shards.take D.toNat := by
    rw [hout, List.take_left' htl]
  have houtall : AllOfSize (shardSize shards) out := by
    rw [hout]
    exact allOfSize_append (allOfSize_take _ hall) (allOfSize_parityOf _ _ _)
  refine ⟨houtlen, houttake, ⟨shardSize shards, hS, hall, houtall⟩, ?_⟩
  have hne : out ≠ [] := by
    intro hnil; rw [hnil] at houtlen; simp at houtlen; omega
  have hne2 : shards ≠ [] := by
    intro hnil; rw [hnil] at hlen; simp at hlen; omega
  rw [refEncode_of_allOfSize hD houtlen hS houtall, houttake,
    parityOf_congr (by omega) (shardSize_of_allOfSize hS hne houtall) houttake, ← hout]

theorem presentCount_of_allOfSize {S : Nat} {l : Shards} (hS : 0 < S) (h : AllOfSize S l) :
    presentCount l = l.length := by
  unfold presentCount
  rw [List.countP_eq_length]
  intro s hs
  exact shardPresent_of_allOfSize hS h hs

theorem refNew_reconstructPresentLaw : ReconstructPresentLaw refNew := by
  intro D P enc h shards S hS hall hlen
  obtain ⟨hD, hmax⟩ := refNew_toNat h
  obtain ⟨_, _, _, rfl⟩ := refNew_ok h
  have hne : shards ≠ [] := by
    intro hnil; rw [hnil] at hlen; simp at hlen; omega
  simp only [refReconstruct]
  rw [if_neg (by simpa using hlen), checkShards_of_allOfSize hS hne hall]
  simp only
  rw [if_pos (by rw [presentCount_of_allOfSize hS hall, hlen])]

theorem refNew_tooFewLaw : TooFewLaw refNew := by
  intro D P enc h shards hfew
  obtain ⟨hD, hmax⟩ := refNew_toNat h
  obtain ⟨_, _, _, rfl⟩ := refNew_ok h
  simp only [refReconstruct]
  by_cases hl : shards.length ≠ D.toNat + P.toNat
  · exact ⟨_, by rw [if_pos hl]⟩
  · rw [if_neg hl]
    rcases checkShards_cases shards true with hc | ⟨e, hc⟩
    · rw [hc]
      simp only
      rw [if_neg (by omega), if_pos hfew]
      exact ⟨_, rfl⟩
    · rw [hc]
      exact ⟨e, rfl⟩

theorem refNew_verifyLaw : VerifyLaw refNew := by
  intro D P enc h shards S hS hall hlen
  obtain ⟨hD, hmax⟩ := refNew_toNat h
  obtain ⟨_, _, _, rfl⟩ := refNew_ok h
  have hne : shards ≠ [] := by
    intro hnil; rw [hnil] at hlen; simp at hlen; omega
  refine ⟨decide (shards.drop D.toNat = parityOf D.toNat P.toNat shards), ?_, ?_⟩
  · simp only [refVerify]
    rw [if_neg (by simpa using hlen), checkShards_of_allOfSize hS hne hall]
  · simp only
    rw [refEncode_of_allOfSize hD hlen hS hall, decide_eq_true_eq]
    constructor
    · intro hd
      rw [← hd, List.take_append_drop]
    · intro he
      have he2 := Except.ok.inj he
      conv at he2 => rhs; rw [← List.take_append_drop D.toNat shards]
      exact (List.append_cancel_left he2).symm

theorem concatShards_length {S : Nat} {l : Shards} (h : AllOfSize S l) :
    (concatShards l).length = S * l.length := by
  induction l with
  | nil => simp [concatShards]
  | cons s rest ih =>
    obtain ⟨b, rfl, hb⟩ := h _ (List.mem_cons_self _ _)
    have ih2 := ih (fun x hx => h x (List.mem_cons_of_mem _ hx))
    unfold concatShards at ih2 ⊢
    simp only [List.map_cons, Option.getD_some, List.flatten_cons, List.length_append,
      List.length_cons, ih2, hb]
    ring

theorem concatShards_cons_some (b : Bytes) (rest : Shards) :
    concatShards (some b :: rest) = b ++ concatShards rest := by
  simp [concatShards]

theorem joinAvailable_of_allOfSize {S : Nat} (outSize : Nat) :
    ∀ (l : Shards) (size : Nat), AllOfSize S l →
      ∃ v, joinAvailable outSize l size = some v ∧
        (outSize ≤ v ∨ v = size + (concatShards l).length)
  | [], size, _ => ⟨size, rfl, Or.inr (by simp [concatShards])⟩
  | s :: rest, size, h => by
    obtain ⟨b, rfl, hb⟩ := h _ (List.mem_cons_self _ _)
    have hrest : AllOfSize S rest := fun x hx => h x (List.mem_cons_of_mem _ hx)
    simp only [joinAvailable]
    by_cases hge : size + b.length ≥ outSize
    · rw [if_pos hge]
      exact ⟨_, rfl, Or.inl hge⟩
    · rw [if_neg hge]
      obtain ⟨v, hv, hv2⟩ := joinAvailable_of_allOfSize outSize rest (size + b.length) hrest
      refine ⟨v, hv, ?_⟩
      rcases hv2 with hv2 | hv2
      · exact Or.inl hv2
      · right
        rw [hv2, concatShards_cons_some, List.length_append]
        omega

theorem refNew_joinLaw : JoinLaw refNew := by
  intro D P enc h shards S outSize hall hlen hsize
  obtain ⟨_, _, _, rfl⟩ := refNew_ok h
  simp only [refJoin]
  rw [if_neg (by omega), if_neg (by omega)]
  have htake := allOfSize_take D.toNat hall
  obtain ⟨v, hv, hv2⟩ := joinAvailable_of_allOfSize (S := S) outSize (shards.take D.toNat) 0 htake
  have hclen := concatShards_length htake
  rw [List.length_take, Nat.min_eq_left hlen] at hclen
  simp only [Int.toNat_ofNat, hv]
  rw [if_neg (by omega)]

/-! ## The bytes with `gfAdd` and `gfMul` are a field -/

set_option maxRecDepth 100000 in
theorem gfExp_gfLog : ∀ a : Byte, a ≠ 0 → gfExp (gfLog a) = a := by decide!

set_option maxRecDepth 100000 in
theorem gfLog_gfExp : ∀ k, k < 255 → gfLog (gfExp k) = k := by decide!

set_option maxRecDepth 100000 in
theorem gfExp_ne_zero : ∀ k, k < 255 → gfExp k ≠ 0 := by decide!

set_option maxRecDepth 100000 in
theorem gfLog_lt : ∀ a : Byte, gfLog a < 255 := by decide!

set_option maxRecDepth 100000 in
theorem gfExp_succ : ∀ k, k < 255 → gfExp ((k + 1) % 255) = xtime (gfExp k) := by decide!

theorem mul_two_xor (x y : Nat) : (x ^^^ y) * 2 = x * 2 ^^^ y * 2 := by
  apply Nat.eq_of_testBit_eq
  intro i
  have h : ∀ n : Nat, n * 2 = n <<< 1 := fun n => by rw [Nat.shiftLeft_eq, pow_one]
  rw [h, h, h]
  simp only [Nat.testBit_shiftLeft, Nat.testBit_xor]
  cases decide (i ≥ 1) <;> simp

theorem div_128_xor (x y : Nat) : (x ^^^ y) / 128 = x / 128 ^^^ y / 128 := by
  have h : ∀ n : Nat, n / 128 = n / 2 / 2 / 2 / 2 / 2 / 2 / 2 := fun n => by
    simp only [Nat.div_div_eq_div_mul]
  rw [h, h, h]
  simp only [Nat.xor_div_two]

theorem gfAdd_val (a b : Byte) : (gfAdd a b).val = a.val ^^^ b.val := rfl

/-- Multiplication by the generator is additive. -/
theorem xtime_gfAdd (a b : Byte) : xtime (gfAdd a b) = gfAdd (xtime a) (xtime b) := by
  apply Fin.ext
  simp only [xtime, gfAdd_val]
  rw [Nat.and_xor_distrib_right, mul_two_xor, div_128_xor]
  have ha : a.val / 128 < 2 := by omega
  have hb : b.val / 128 < 2 := by omega
  have hmul : (a.val / 128 ^^^ b.val / 128) * 0x1D =
      (a.val / 128) * 0x1D ^^^ (b.val / 128) * 0x1D := by
    generalize a.val / 128 = p at ha
    generalize b.val / 128 = q at hb
    interval_cases p <;> interval_cases q <;> rfl
  rw [hmul]
  ac_rfl

theorem gfAdd_comm (a b : Byte) : gfAdd a b = gfAdd b a :=
  Fin.ext (Nat.xor_comm _ _)

theorem gfAdd_assoc (a b c : Byte) : gfAdd (gfAdd a b) c = gfAdd a (gfAdd b c) :=
  Fin.ext (Nat.xor_assoc _ _ _)

theorem gfAdd_zero (a : Byte) : gfAdd a 0 = a :=
  Fin.ext (Nat.xor_zero _)

theorem zero_gfAdd (a : Byte) : gfAdd 0 a = a :=
  Fin.ext (Nat.zero_xor _)

theorem gfAdd_self (a : Byte) : gfAdd a a = 0 :=
  Fin.ext (Nat.xor_self _)

theorem gfMul_comm (a b : Byte) : gfMul a b = gfMul b a := by
  unfold gfMul
  by_cases ha : a = 0 <;> by_cases hb : b = 0 <;> simp [ha, hb, Nat.add_comm]

theorem zero_gfMul (a : Byte) : gfMul 0 a = 0 := by simp [gfMul]

theorem gfMul_zero (a : Byte) : gfMul a 0 = 0 := by simp [gfMul]

theorem gfMul_of_ne {a b : Byte} (ha : a ≠ 0) (hb : b ≠ 0) :
    gfMul a b = gfExp ((gfLog a + gfLog b) % 255) := by
  simp [gfMul, ha, hb]

theorem gfMul_ne_zero {a b : Byte} (ha : a ≠ 0) (hb : b ≠ 0) : gfMul a b ≠ 0 := by
  rw [gfMul_of_ne ha hb]
  exact gfExp_ne_zero _ (Nat.mod_lt _ (by decide))

theorem gfLog_gfMul {a b : Byte} (ha : a ≠ 0) (hb : b ≠ 0) :
    gfLog (gfMul a b) = (gfLog a + gfLog b) % 255 := by
  rw [gfMul_of_ne ha hb]
  exact gfLog_gfExp _ (Nat.mod_lt _ (by decide))

theorem gfMul_assoc (a b c : Byte) : gfMul (gfMul a b) c = gfMul a (gfMul b c) := by
  by_cases ha : a = 0
  · simp [ha, zero_gfMul]
  by_cases hb : b = 0
  · simp [hb, zero_gfMul, gfMul_zero]
  by_cases hc : c = 0
  · simp [hc, gfMul_zero]
  rw [gfMul_of_ne (gfMul_ne_zero ha hb) hc, gfMul_of_ne ha (gfMul_ne_zero hb hc),
    gfLog_gfMul ha hb, gfLog_gfMul hb hc]
  congr 1
  omega

theorem gfMul_one (a : Byte) : gfMul a 1 = a := by
  by_cases ha : a = 0
  · simp [ha, zero_gfMul]
  have h1 : gfLog 1 = 0 := by decide
  rw [gfMul_of_ne ha (by decide), h1, Nat.add_zero, Nat.mod_eq_of_lt (gfLog_lt a)]
  exact gfExp_gfLog a ha

theorem one_gfMul (a : Byte) : gfMul 1 a = a := by
  rw [gfMul_comm, gfMul_one]

theorem gfMul_two (a : Byte) : gfMul 2 a = xtime a := by
  by_cases ha : a = 0
  · subst ha; decide
  have h2 : gfLog 2 = 1 := by decide
  rw [gfMul_of_ne (by decide) ha, h2, Nat.add_comm, gfExp_succ _ (gfLog_lt a), gfExp_gfLog a ha]

theorem gfMul_exp_gfAdd : ∀ k, k < 255 → ∀ b c : Byte,
    gfMul (gfExp k) (gfAdd b c) = gfAdd (gfMul (gfExp k) b) (gfMul (gfExp k) c) := by
  intro k
  induction k with
  | zero =>
    intro _ b c
    have h0 : gfExp 0 = 1 := by decide
    rw [h0, one_gfMul, one_gfMul, one_gfMul]
  | succ n ih =>
    intro hn b c
    have hstep : gfExp (n + 1) = gfMul 2 (gfExp n) := by
      have := gfExp_succ n (by omega)
      rw [Nat.mod_eq_of_lt hn] at this
      rw [this, gfMul_two]
    rw [hstep, gfMul_assoc, gfMul_assoc, gfMul_assoc, ih (by omega), gfMul_two, gfMul_two,
      gfMul_two, xtime_gfAdd]

theorem gfMul_gfAdd (a b c : Byte) :
    gfMul a (gfAdd b c) = gfAdd (gfMul a b) (gfMul a c) := by
  by_cases ha : a = 0
  · subst ha
    simp only [zero_gfMul]
    rfl
  have := gfMul_exp_gfAdd (gfLog a) (gfLog_lt a) b c
  rwa [gfExp_gfLog a ha] at this

theorem gfMul_gfInv {a : Byte} (ha : a ≠ 0) : gfMul a (gfInv a) = 1 := by
  have hl := gfLog_lt a
  have hinv : gfInv a = gfExp ((255 - gfLog a) % 255) := by simp [gfInv, ha]
  have hne : gfInv a ≠ 0 := by
    rw [hinv]; exact gfExp_ne_zero _ (Nat.mod_lt _ (by decide))
  rw [gfMul_of_ne ha hne, hinv, gfLog_gfExp _ (Nat.mod_lt _ (by decide))]
  have h0 : (gfLog a + (255 - gfLog a) % 255) % 255 = 0 := by omega
  rw [h0]
  decide

theorem GF256.ext_byte {a b : GF256} (h : a.byte = b.byte) : a = b := by
  cases a; cases b; simp only at h; rw [h]

instance : Zero GF256 := ⟨⟨0⟩⟩
instance : One GF256 := ⟨⟨1⟩⟩
instance : Add GF256 := ⟨fun a b => ⟨gfAdd a.byte b.byte⟩⟩
instance : Neg GF256 := ⟨fun a => a⟩
instance : Mul GF256 := ⟨fun a b => ⟨gfMul a.byte b.byte⟩⟩
instance : Inv GF256 := ⟨fun a => ⟨gfInv a.byte⟩⟩

instance : CommRing GF256 where
  add_assoc a b c := by cases a; cases b; cases c; exact congrArg GF256.mk (gfAdd_assoc _ _ _)
  zero_add a := by cases a; exact congrArg GF256.mk (zero_gfAdd _)
  add_zero a := by cases a; exact congrArg GF256.mk (gfAdd_zero _)
  add_comm a b := by cases a; cases b; exact congrArg GF256.mk (gfAdd_comm _ _)
  neg_add_cancel a := by cases a; exact congrArg GF256.mk (gfAdd_self _)
  mul_assoc a b c := by cases a; cases b; cases c; exact congrArg GF256.mk (gfMul_assoc _ _ _)
  one_mul a := by cases a; exact congrArg GF256.mk (one_gfMul _)
  mul_one a := by cases a; exact congrArg GF256.mk (gfMul_one _)
  left_distrib a b c := by
    cases a; cases b; cases c; exact congrArg GF256.mk (gfMul_gfAdd _ _ _)
  right_distrib a b c := by
    cases a with | mk x => cases b with | mk y => cases c with | mk z =>
    have h : gfMul (gfAdd x y) z = gfAdd (gfMul x z) (gfMul y z) := by
      rw [gfMul_comm, gfMul_gfAdd, gfMul_comm z, gfMul_comm z]
    exact congrArg GF256.mk h
  zero_mul a := by cases a; exact congrArg GF256.mk (zero_gfMul _)
  mul_zero a := by cases a; exact congrArg GF256.mk (gfMul_zero _)
  mul_comm a b := by cases a; cases b; exact congrArg GF256.mk (gfMul_comm _ _)
  nsmul := nsmulRec
  zsmul := zsmulRec

instance : Field GF256 where
  exists_pair_ne := ⟨⟨0⟩, ⟨1⟩, by decide⟩
  mul_inv_cancel a ha := by
    cases a with | mk x =>
    have hx : x ≠ 0 := fun h => ha (congrArg GF256.mk h)
    exact congrArg GF256.mk (gfMul_gfInv hx)
  inv_zero := congrArg GF256.mk (show gfInv 0 = 0 by decide)
  nnqsmul := _
  nnqsmul_def := fun _ _ => rfl
  qsmul := _
  qsmul_def := fun _ _ => rfl

theorem GF256.add_byte (a b : GF256) : (a + b).byte = gfAdd a.byte b.byte := rfl
theorem GF256.mul_byte (a b : GF256) : (a * b).byte = gfMul a.byte b.byte := rfl
theorem GF256.inv_byte (a : GF256) : (a⁻¹).byte = gfInv a.byte := rfl
theorem GF256.sub_byte (a b : GF256) : (a - b).byte = gfAdd a.byte b.byte := by
  rw [sub_eq_add_neg]; rfl
theorem GF256.zero_byte : (0 : GF256).byte = 0 := rfl
theorem GF256.one_byte : (1 : GF256).byte = 1 := rfl

/-! ## The Lagrange form and polynomial interpolation -/

theorem mk_gfSum (l : List Byte) : GF256.mk (gfSum l) = (l.map GF256.mk).sum := by
  induction l with
  | nil => rfl
  | cons a rest ih =>
    simp only [gfSum, List.foldr_cons, List.map_cons, List.sum_cons] at ih ⊢
    rw [← ih]
    rfl

theorem mk_gfProd (l : List Byte) : GF256.mk (gfProd l) = (l.map GF256.mk).prod := by
  induction l with
  | nil => rfl
  | cons a rest ih =>
    simp only [gfProd, List.foldr_cons, List.map_cons, List.prod_cons] at ih ⊢
    rw [← ih]
    rfl

theorem GF256.mk_injective : Function.Injective GF256.mk :=
  fun _ _ h => congrArg GF256.byte h

/-- The value `lagrangeBasisAt` computes is the value of the Lagrange basis polynomial. -/
theorem mk_lagrangeBasisAt (nodes : List Byte) (hnd : nodes.Nodup) (xi x : Byte) :
    GF256.mk (lagrangeBasisAt nodes xi x) =
      Polynomial.eval (GF256.mk x) (Lagrange.basis nodes.toFinset GF256.mk xi) := by
  unfold lagrangeBasisAt Lagrange.basis
  rw [mk_gfProd, Polynomial.eval_prod, ← Finset.filter_ne', List.map_map]
  have hfilter : (nodes.toFinset.filter fun a => a ≠ xi) =
      (nodes.filter (fun xj => decide (xj ≠ xi))).toFinset := by
    rw [List.toFinset_filter]
    congr 1
    ext a
    simp
  rw [hfilter, List.prod_toFinset _ (hnd.filter _)]
  congr 1
  refine List.map_congr_left (fun xj _ => ?_)
  simp only [Function.comp, Lagrange.basisDivisor, Polynomial.eval_mul, Polynomial.eval_C,
    Polynomial.eval_sub, Polynomial.eval_X]
  apply GF256.ext_byte
  rw [GF256.mul_byte, GF256.inv_byte, GF256.sub_byte, GF256.sub_byte]

/-- The value `lagrangeAt` computes is the value of the interpolation polynomial. -/
theorem mk_lagrangeAt (nodes : List Byte) (hnd : nodes.Nodup) (val : Byte → Byte) (x : Byte) :
    GF256.mk (lagrangeAt nodes val x) =
      Polynomial.eval (GF256.mk x)
        (Lagrange.interpolate nodes.toFinset GF256.mk (fun n => GF256.mk (val n))) := by
  unfold lagrangeAt
  rw [mk_gfSum, Lagrange.interpolate_apply, Polynomial.eval_finset_sum,
    List.sum_toFinset _ hnd, List.map_map]
  congr 1
  refine List.map_congr_left (fun xi _ => ?_)
  simp only [Function.comp, Polynomial.eval_mul, Polynomial.eval_C]
  rw [← mk_lagrangeBasisAt nodes hnd]
  rfl

theorem byteOf_injOn {i j : Nat} (hi : i < 256) (hj : j < 256) (h : byteOf i = byteOf j) :
    i = j := by
  have := congrArg Fin.val h
  rwa [byteOf_val hi, byteOf_val hj] at this

theorem nodup_map_byteOf {l : List Nat} (hnd : l.Nodup) (hlt : ∀ i ∈ l, i < 256) :
    (l.map byteOf).Nodup := by
  refine (List.nodup_map_iff_inj_on hnd).mpr ?_
  intro i hi j hj h
  exact byteOf_injOn (hlt i hi) (hlt j hj) h

theorem dataNodes_nodup {D : Nat} (hD : D ≤ 256) : (dataNodes D).Nodup :=
  nodup_map_byteOf (List.nodup_range D) (fun i hi => by
    have := List.mem_range.mp hi
    omega)

theorem dataNodes_length (D : Nat) : (dataNodes D).length = D := by
  simp [dataNodes]

theorem mem_dataNodes_of_lt {D : Nat} {x : Byte} (hx : x.val < D) : x ∈ dataNodes D := by
  refine List.mem_map.mpr ⟨x.val, List.mem_range.mpr hx, ?_⟩
  apply Fin.ext
  rw [byteOf_val x.isLt]

/-- Any `D` shards determine the rest.  If the bytes `c x` in the slots `x < N` are
consistent, those from slot `D` on being the values of the polynomial through
the first `D`, then the polynomial through the bytes of any `D` distinct slots
below `N` takes the value `c r` at every slot `r < N`. -/
theorem lagrangeAt_of_consistent {D N : Nat} (hDN : D ≤ N) (hN : N ≤ 256) (c : Byte → Byte)
    (hcons : ∀ x : Byte, D ≤ x.val → x.val < N → c x = lagrangeAt (dataNodes D) c x)
    (nodes : List Byte) (hnd : nodes.Nodup) (hlen : nodes.length = D)
    (hlt : ∀ x ∈ nodes, x.val < N) (r : Byte) (hr : r.val < N) :
    lagrangeAt nodes c r = c r := by
  have hD : D ≤ 256 := by omega
  set F := Lagrange.interpolate (dataNodes D).toFinset GF256.mk (fun n => GF256.mk (c n))
    with hF
  have hinj : ∀ s : Finset Byte, Set.InjOn GF256.mk (s : Set Byte) :=
    fun s => GF256.mk_injective.injOn
  -- the polynomial through the data bytes takes the value `c x` at every slot below `N`
  have hval : ∀ x : Byte, x.val < N → Polynomial.eval (GF256.mk x) F = GF256.mk (c x) := by
    intro x hx
    by_cases hxd : x.val < D
    · exact Lagrange.eval_interpolate_at_node _ (hinj _)
        (List.mem_toFinset.mpr (mem_dataNodes_of_lt hxd))
    · rw [hcons x (by omega) hx, mk_lagrangeAt _ (dataNodes_nodup hD)]
  -- it is the polynomial through the bytes of the chosen slots
  have hdeg : F.degree < (nodes.toFinset.card : WithBot Nat) := by
    have h1 := Lagrange.degree_interpolate_lt (fun n => GF256.mk (c n)) (hinj (dataNodes D).toFinset)
    rw [List.toFinset_card_of_nodup (dataNodes_nodup hD), dataNodes_length] at h1
    rw [List.toFinset_card_of_nodup hnd, hlen]
    exact h1
  have heq : F = Lagrange.interpolate nodes.toFinset GF256.mk (fun n => GF256.mk (c n)) :=
    Lagrange.eq_interpolate_of_eval_eq _ (hinj _) hdeg
      (fun i hi => hval i (hlt i (List.mem_toFinset.mp hi)))
  have := mk_lagrangeAt nodes hnd c r
  rw [← heq, hval r hr] at this
  exact GF256.mk_injective this

/-! ## The reference Reed-Solomon model obeys the laws: reconstruction -/

theorem shardSize_eq_of_sizes {S : Nat} (hS : 0 < S) :
    ∀ l : Shards, (∀ d ∈ l, shardLen d = S ∨ shardLen d = 0) → (∃ d ∈ l, shardLen d ≠ 0) →
      shardSize l = S
  | [], _, hex => by
    obtain ⟨d, hd, _⟩ := hex
    cases hd
  | s :: rest, hall, hex => by
    unfold shardSize
    by_cases h0 : shardLen s ≠ 0
    · rw [if_pos h0]
      rcases hall s (List.mem_cons_self _ _) with h | h
      · exact h
      · exact absurd h h0
    · rw [if_neg h0]
      refine shardSize_eq_of_sizes hS rest (fun d hd => hall d (List.mem_cons_of_mem _ hd)) ?_
      obtain ⟨d, hd, hne⟩ := hex
      rcases List.mem_cons.mp hd with rfl | hd
      · exact absurd hne h0
      · exact ⟨d, hd, hne⟩

theorem checkShards_nilok_of_sizes {S : Nat} (hS : 0 < S) {l : Shards}
    (hall : ∀ d ∈ l, shardLen d = S ∨ shardLen d = 0) (hex : ∃ d ∈ l, shardLen d ≠ 0) :
    checkShards l true = .ok () := by
  have hsz := shardSize_eq_of_sizes hS l hall hex
  unfold checkShards
  rw [hsz, if_neg (by omega), if_pos]
  rw [List.all_eq_true]
  intro d hd
  rcases hall d hd with h | h <;> simp [h]

theorem eq_map_range_getD (l : Shards) :
    l = (List.range l.length).map (fun i => l.getD i none) := by
  apply List.ext_getElem
  · simp
  · intro i h1 h2
    simp [List.getD_eq_getElem?_getD, List.getElem?_eq_getElem h1]

theorem presentSlots_length (l : Shards) : (presentSlots l).length = presentCount l := by
  unfold presentSlots presentCount
  conv_rhs => rw [eq_map_range_getD l, List.countP_map]
  rw [List.countP_eq_length_filter]
  rfl

theorem presentSlots_nodup (l : Shards) : (presentSlots l).Nodup :=
  (List.nodup_range _).filter _

theorem mem_presentSlots {l : Shards} {i : Nat} (h : i ∈ presentSlots l) :
    i < l.length ∧ shardPresent (l.getD i none) = true := by
  unfold presentSlots at h
  rw [List.mem_filter, List.mem_range] at h
  exact h

theorem shardPresent_some_of_len {S : Nat} (hS : 0 < S) {b : Bytes} (hb : b.length = S) :
    shardPresent (some b) = true := by
  cases b with
  | nil => simp at hb; omega
  | cons x xs => rfl

theorem getD_of_lt (l : Shards) {i : Nat} (hi : i < l.length) : l.getD i none = l[i] := by
  simp [List.getD_eq_getElem?_getD, List.getElem?_eq_getElem hi]

theorem shardByte_of_get {l : Shards} {x : Byte} {b : Bytes} {k : Nat}
    (hx : l.getD x.val none = some b) (hk : k < b.length) : shardByte l k x = b[k] := by
  unfold shardByte
  rw [hx]
  simp [List.getD_eq_getElem?_getD, List.getElem?_eq_getElem hk]

theorem interpShard_getElem (nodes : List Byte) (shards : Shards) (S : Nat) (r : Byte)
    {k : Nat} (hk : k < (interpShard nodes shards S r).length) :
    (interpShard nodes shards S r)[k] = lagrangeAt nodes (shardByte shards k) r := by
  simp [interpShard]

/-- In an encoded shard set the bytes of every parity slot are the values of the
polynomial through the bytes of the data slots. -/
theorem encoded_consistent {D P S : Nat} (hmax : D + P ≤ 256) {shards out : Shards}
    (hsz : shardSize shards = S)
    (hout : out = shards.take D ++ parityOf D P shards) (hlen : shards.length = D + P)
    (k : Nat) (hk : k < S) (x : Byte) (hx1 : D ≤ x.val) (hx2 : x.val < D + P) :
    shardByte out k x = lagrangeAt (dataNodes D) (shardByte out k) x := by
  have htl : (shards.take D).length = D := by rw [List.length_take]; omega
  have houttake : out.take D = shards.take D := by rw [hout, List.take_left' htl]
  have hget : out.getD x.val none =
      some (interpShard (dataNodes D) shards S (byteOf (D + (x.val - D)))) := by
    have hxl : x.val < out.length := by
      rw [hout, List.length_append, htl, parityOf_length]; exact hx2
    rw [getD_of_lt out hxl]
    simp only [hout]
    rw [List.getElem_append_right (by omega)]
    simp only [htl, parityOf, List.getElem_map, List.getElem_range, hsz]
  have hbx : byteOf (D + (x.val - D)) = x := by
    apply Fin.ext
    rw [byteOf_val (by omega)]
    omega
  rw [shardByte_of_get hget (by rw [interpShard_length]; exact hk), interpShard_getElem, hbx]
  refine lagrangeAt_congr (fun n hn => ?_) x
  unfold shardByte
  rw [getD_eq_of_take_eq houttake (mem_dataNodes (by omega) hn)]

theorem refReconstruct_erasure {D P : Nat} (hD : 1 ≤ D) (hmax : D + P ≤ 256)
    {shards out damaged : Shards} (he : refEncode D P shards = .ok out)
    (hdam : List.Forall₂ (fun s d => d = s ∨ d = none) out damaged)
    (hcount : damaged.count none ≤ P) : refReconstruct D P damaged = .ok out := by
  obtain ⟨hlen, hchk, hout⟩ := refEncode_ok he
  obtain ⟨hS, hall⟩ := allOfSize_of_checkShards hchk
  set S := shardSize shards with hSdef
  have htl : (shards.take D).length = D := by rw [List.length_take]; omega
  have houtlen : out.length = D + P := by
    rw [hout, List.length_append, htl, parityOf_length]
  have houtall : AllOfSize S out := by
    rw [hout]
    exact allOfSize_append (allOfSize_take _ hall) (allOfSize_parityOf _ _ _)
  have hdlen : damaged.length = D + P := by rw [← hdam.length_eq, houtlen]
  -- slot by slot, the damaged set holds the encoded shard or nil
  have hslot : ∀ i, i < D + P →
      damaged.getD i none = out.getD i none ∨ damaged.getD i none = none := by
    intro i hi
    have h1 : i < out.length := by omega
    have h2 : i < damaged.length := by omega
    rw [getD_of_lt damaged h2, getD_of_lt out h1]
    exact List.Forall₂.get hdam h1 h2
  have houtget : ∀ i, i < D + P → ∃ b : Bytes, out.getD i none = some b ∧ b.length = S := by
    intro i hi
    have h1 : i < out.length := by omega
    rw [getD_of_lt out h1]
    exact houtall _ (List.getElem_mem h1)
  have hpres : ∀ i, i < D + P → shardPresent (damaged.getD i none) = true →
      damaged.getD i none = out.getD i none := by
    intro i hi hp
    rcases hslot i hi with h | h
    · exact h
    · rw [h] at hp; cases hp
  have hmem : ∀ d ∈ damaged, ∃ i, i < D + P ∧ d = damaged.getD i none := by
    intro d hd
    obtain ⟨i, hi, rfl⟩ := List.getElem_of_mem hd
    exact ⟨i, by omega, (getD_of_lt damaged hi).symm⟩
  -- the sizes the library checks
  have hsizes : ∀ d ∈ damaged, shardLen d = S ∨ shardLen d = 0 := by
    intro d hd
    obtain ⟨i, hi, rfl⟩ := hmem d hd
    rcases hslot i hi with h | h
    · obtain ⟨b, hb, hbl⟩ := houtget i hi
      left; rw [h, hb]; exact hbl
    · right; rw [h]; rfl
  -- the number of present shards
  have hmiss : missingCount damaged = damaged.count none := by
    unfold missingCount
    rw [List.count_eq_countP]
    refine List.countP_congr (fun d hd => ?_)
    obtain ⟨i, hi, rfl⟩ := hmem d hd
    rcases hslot i hi with h | h
    · obtain ⟨b, hb, hbl⟩ := houtget i hi
      rw [h, hb]
      simp [shardPresent_some_of_len hS hbl]
    · rw [h]; simp [shardPresent]
  have hpc := presentCount_add_missingCount damaged
  have hpcD : D ≤ presentCount damaged := by omega
  have hex : ∃ d ∈ damaged, shardLen d ≠ 0 := by
    have hpos : 0 < presentCount damaged := by omega
    unfold presentCount at hpos
    obtain ⟨d, hd, hp⟩ := List.countP_pos_iff.mp hpos
    refine ⟨d, hd, ?_⟩
    cases d with
    | none => simp [shardPresent] at hp
    | some b =>
      cases b with
      | nil => simp [shardPresent] at hp
      | cons x xs => simp [shardLen]
  have hszd : shardSize damaged = S := shardSize_eq_of_sizes hS damaged hsizes hex
  unfold refReconstruct
  rw [if_neg (by simpa using hdlen), checkShards_nilok_of_sizes hS hsizes hex]
  simp only
  by_cases hfull : presentCount damaged = D + P
  · -- nothing is missing
    rw [if_pos hfull]
    congr 1
    apply List.ext_getElem (by rw [hdlen, houtlen])
    intro i h1 h2
    have hi : i < D + P := by omega
    have hallp : ∀ d ∈ damaged, shardPresent d = true := by
      unfold presentCount at hfull
      rw [← hdlen] at hfull
      exact List.countP_eq_length.mp hfull
    have := hpres i hi (hallp _ (by rw [getD_of_lt damaged h1]; exact List.getElem_mem h1))
    rwa [getD_of_lt damaged h1, getD_of_lt out h2] at this
  · rw [if_neg hfull, if_neg (by omega)]
    -- the slots the missing shards are computed from
    set slots := (presentSlots damaged).take D with hslots
    have hslen : slots.length = D := by
      rw [hslots, List.length_take, presentSlots_length]; omega
    have hsmem : ∀ i ∈ slots, i < D + P ∧ shardPresent (damaged.getD i none) = true := by
      intro i hi
      have := mem_presentSlots (List.mem_of_mem_take hi)
      rw [hdlen] at this
      exact this
    have hsnd : (slots.map byteOf).Nodup :=
      nodup_map_byteOf ((presentSlots_nodup damaged).sublist (List.take_sublist _ _))
        (fun i hi => by have := (hsmem i hi).1; omega)
    have hnodes : ∀ x ∈ slots.map byteOf,
        x.val < D + P ∧ damaged.getD x.val none = out.getD x.val none := by
      intro x hx
      obtain ⟨i, hi, rfl⟩ := List.mem_map.mp hx
      obtain ⟨h1, h2⟩ := hsmem i hi
      rw [byteOf_val (by omega)]
      exact ⟨h1, hpres i h1 h2⟩
    congr 1
    apply List.ext_getElem (by simp [hdlen, houtlen])
    intro i h1 h2
    have hi : i < D + P := by omega
    simp only [List.getElem_map, List.getElem_range]
    by_cases hp : shardPresent (damaged.getD i none) = true
    · rw [if_pos hp, hpres i hi hp, getD_of_lt out h2]
    · rw [if_neg hp]
      obtain ⟨b, hb, hbl⟩ := houtget i hi
      rw [getD_of_lt out h2] at hb
      rw [hb, hszd]
      congr 1
      apply List.ext_getElem (by rw [interpShard_length, hbl])
      intro k hk1 hk2
      have hk : k < S := by omega
      have hix : (byteOf i).val = i := byteOf_val (by omega)
      rw [interpShard_getElem]
      have hcongr : lagrangeAt (slots.map byteOf) (shardByte damaged k) (byteOf i) =
          lagrangeAt (slots.map byteOf) (shardByte out k) (byteOf i) := by
        refine lagrangeAt_congr (fun x hx => ?_) _
        unfold shardByte
        rw [(hnodes x hx).2]
      rw [hcongr, lagrangeAt_of_consistent (D := D) (N := D + P) (by omega) hmax
        (shardByte out k)
        (fun x hx1 hx2 => encoded_consistent hmax hSdef.symm hout hlen k hk x hx1 hx2)
        (slots.map byteOf) hsnd (by rw [List.length_map, hslen])
        (fun x hx => (hnodes x hx).1) (byteOf i) (by rw [hix]; exact hi)]
      exact shardByte_of_get (by rw [hix, getD_of_lt out h2]; exact hb) hk2

theorem refNew_erasureLaw : ErasureLaw refNew := by
  intro D P enc h shards out damaged he hdam hcount
  obtain ⟨hD, hmax⟩ := refNew_toNat h
  obtain ⟨_, _, _, rfl⟩ := refNew_ok h
  exact refReconstruct_erasure hD hmax he hdam hcount

/-! ## The reference Reed-Solomon model obeys the laws: filling in -/

theorem missingCount_eq_count_none {S : Nat} (hS : 0 < S) (l : Shards)
    (h : ∀ s ∈ l, s = none ∨ ∃ b : Bytes, s = some b ∧ b.length = S) :
    missingCount l = l.count none := by
  unfold missingCount
  induction l with
  | nil => rfl
  | cons s rest ih =>
    rw [List.countP_cons, List.count_cons, ih (fun x hx => h x (List.mem_cons_of_mem _ hx))]
    rcases h s (List.mem_cons_self _ _) with rfl | ⟨b, rfl, hb⟩
    · rfl
    · have : shardPresent (some b) = true := shardPresent_some_of_len hS hb
      simp [this]

theorem refNew_reconstructFillLaw : ReconstructFillLaw refNew := by
  intro D P enc h shards S hS hlen hslots hcount
  obtain ⟨hD, hmax⟩ := refNew_toNat h
  obtain ⟨_, _, _, rfl⟩ := refNew_ok h
  have hsizes : ∀ d ∈ shards, shardLen d = S ∨ shardLen d = 0 := by
    intro d hd
    rcases hslots d hd with rfl | ⟨b, rfl, hb⟩
    · exact Or.inr rfl
    · exact Or.inl hb
  have hmc := missingCount_eq_count_none hS shards hslots
  have hpm := presentCount_add_missingCount shards
  have hpres : D.toNat ≤ presentCount shards := by omega
  have hex : ∃ d ∈ shards, shardLen d ≠ 0 := by
    have hpos : 0 < presentCount shards := by omega
    obtain ⟨d, hd, hp⟩ := List.countP_pos_iff.mp hpos
    refine ⟨d, hd, ?_⟩
    rcases hslots d hd with rfl | ⟨b, rfl, hb⟩
    · simp [shardPresent] at hp
    · show b.length ≠ 0
      omega
  have hsz := shardSize_eq_of_sizes hS shards hsizes hex
  have hpresent : ∀ s ∈ shards, shardPresent s = true → ∃ b : Bytes, s = some b ∧ b.length = S := by
    intro s hs hp
    rcases hslots s hs with rfl | hb
    · simp [shardPresent] at hp
    · exact hb
  simp only [refReconstruct]
  rw [if_neg (by simpa using hlen), checkShards_nilok_of_sizes hS hsizes hex]
  simp only
  by_cases hallp : presentCount shards = D.toNat + P.toNat
  · rw [if_pos hallp]
    refine ⟨shards, rfl, ?_, List.forall₂_same.mpr (fun _ _ => Or.inl rfl)⟩
    intro s hs
    apply hpresent s hs
    have : shards.countP shardPresent = shards.length := by
      unfold presentCount at hallp
      rw [hallp, hlen]
    exact List.countP_eq_length.mp this s hs
  · rw [if_neg hallp, if_neg (by omega)]
    refine ⟨_, rfl, ?_, ?_⟩
    · intro s hs
      obtain ⟨i, hi, rfl⟩ := List.mem_map.mp hs
      have hi2 := List.mem_range.mp hi
      by_cases hp : shardPresent (shards.getD i none) = true
      · rw [if_pos hp]
        apply hpresent _ _ hp
        rw [getD_of_lt shards hi2]
        exact List.getElem_mem hi2
      · rw [if_neg hp]
        exact ⟨_, rfl, by rw [interpShard_length, hsz]⟩
    · conv_lhs => rw [eq_map_range_getD shards]
      rw [List.forall₂_map_left_iff, List.forall₂_map_right_iff]
      refine List.forall₂_same.mpr (fun i hi => ?_)
      have hi2 := List.mem_range.mp hi
      by_cases hp : shardPresent (shards.getD i none) = true
      · rw [if_pos hp]
        exact Or.inl rfl
      · rw [if_neg hp]
        right
        rcases hslots (shards.getD i none)
            (by rw [getD_of_lt shards hi2]; exact List.getElem_mem hi2) with h0 | ⟨b, hb, hbl⟩
        · exact h0
        · rw [hb] at hp
          exact absurd (shardPresent_some_of_len hS hbl) hp

/-! ## The JSON model reads back what it writes -/

theorem byteOf_eq {n : Nat} {b : Byte} (h : b.val = n) : byteOf n = b := by
  apply Fin.ext
  rw [byteOf_val (by omega), h]

theorem isCont_bounds {b : Byte} (h : isCont b = true) : 0x80 ≤ b.val ∧ b.val ≤ 0xBF := by
  simpa [isCont] using h

/-- A multi-byte sequence that decodes takes two to four bytes, which are there, the
bytes after them do not matter, and `EncodeRune` gives the sequence back. -/
theorem decodeRune_valid (b : Byte) (t : Bytes) (hb : ¬ b.val < 0x80)
    (hv : decodeRune (b :: t) ≠ (0xFFFD, 1)) :
    ∃ r k, decodeRune (b :: t) = (r, k) ∧ 2 ≤ k ∧ k ≤ 4 ∧ k - 1 ≤ t.length ∧
      (∀ Y, decodeRune (b :: (t.take (k - 1) ++ Y)) = (r, k)) ∧
      encodeRune r = b :: t.take (k - 1) ∧ ¬ (0xD800 ≤ r ∧ r < 0xE000) ∧ 0x80 ≤ r := by
  by_cases h2 : 0xC2 ≤ b.val ∧ b.val ≤ 0xDF
  · rcases t with _ | ⟨b1, t1⟩
    · exact absurd (by simp only [decodeRune, hb, h2, if_true, if_false, and_self, Bool.false_eq_true, reduceIte]) hv
    · by_cases hc : isCont b1 = true
      · have e : ∀ Y, decodeRune (b :: b1 :: Y) =
            ((b.val - 0xC0) * 64 + (b1.val - 0x80), 2) := by
          intro Y
          simp only [decodeRune, hb, h2, hc, if_true, if_false, and_self, Bool.false_eq_true, reduceIte]
        have hb1 := isCont_bounds hc
        refine ⟨_, _, e t1, by omega, by omega, by simp, fun Y => e _, ?_, by omega, by omega⟩
        have hr1 : ¬ (b.val - 0xC0) * 64 + (b1.val - 0x80) < 0x80 := by omega
        have hr2 : (b.val - 0xC0) * 64 + (b1.val - 0x80) < 0x800 := by omega
        simp only [encodeRune, hr1, hr2, if_true, if_false, Nat.add_one_sub_one, List.take_succ_cons,
          List.take_zero]
        rw [byteOf_eq (b := b) (by omega), byteOf_eq (b := b1) (by omega)]
      · exact absurd (by simp only [decodeRune, hb, h2, hc, if_true, if_false, and_self, Bool.false_eq_true, reduceIte]) hv
  · by_cases h3 : 0xE0 ≤ b.val ∧ b.val ≤ 0xEF
    · rcases t with _ | ⟨b1, _ | ⟨b2, t1⟩⟩
      · exact absurd (by simp only [decodeRune, hb, h2, h3, if_true, if_false, and_self, Bool.false_eq_true, reduceIte]) hv
      · exact absurd (by simp only [decodeRune, hb, h2, h3, if_true, if_false, and_self, Bool.false_eq_true, reduceIte]) hv
      · by_cases hc : (if b.val = 0xE0 then 0xA0 else 0x80) ≤ b1.val ∧
            b1.val ≤ (if b.val = 0xED then 0x9F else 0xBF) ∧ isCont b2
        · have e : ∀ Y, decodeRune (b :: b1 :: b2 :: Y) =
              (((b.val - 0xE0) * 64 + (b1.val - 0x80)) * 64 + (b2.val - 0x80), 3) := by
            intro Y
            simp only [decodeRune, hb, h2, h3, hc, if_true, if_false, and_self, Bool.false_eq_true, reduceIte]
          obtain ⟨hc1, hc2, hc3⟩ := hc
          have hb2 := isCont_bounds hc3
          have hlo : 0x800 ≤ ((b.val - 0xE0) * 64 + (b1.val - 0x80)) * 64 + (b2.val - 0x80) ∧
              0x80 ≤ b1.val := by
            split_ifs at hc1 <;> omega
          have hhi : ¬ (0xD800 ≤ ((b.val - 0xE0) * 64 + (b1.val - 0x80)) * 64 + (b2.val - 0x80) ∧
              ((b.val - 0xE0) * 64 + (b1.val - 0x80)) * 64 + (b2.val - 0x80) < 0xE000) ∧
              b1.val ≤ 0xBF := by
            split_ifs at hc2 <;> omega
          refine ⟨_, _, e t1, by omega, by omega, by simp, fun Y => e _, ?_, hhi.1, by omega⟩
          have hr1 : ¬ ((b.val - 0xE0) * 64 + (b1.val - 0x80)) * 64 + (b2.val - 0x80) < 0x80 := by
            omega
          have hr2 : ¬ ((b.val - 0xE0) * 64 + (b1.val - 0x80)) * 64 + (b2.val - 0x80) < 0x800 := by
            omega
          have hr3 : ¬ 0x10FFFF < ((b.val - 0xE0) * 64 + (b1.val - 0x80)) * 64 + (b2.val - 0x80) := by
            omega
          have hr4 : ((b.val - 0xE0) * 64 + (b1.val - 0x80)) * 64 + (b2.val - 0x80) < 0x10000 := by
            omega
          simp only [encodeRune, hr1, hr2, hr3, hr4, hhi.1, or_self, if_true, if_false,
            List.take_succ_cons, List.take_zero]
          rw [byteOf_eq (b := b) (by omega), byteOf_eq (b := b1) (by omega),
            byteOf_eq (b := b2) (by omega)]
        · exact absurd (by simp only [decodeRune, hb, h2, h3, hc, if_true, if_false, and_self, Bool.false_eq_true, reduceIte]) hv
    · by_cases h4 : 0xF0 ≤ b.val ∧ b.val ≤ 0xF4
      · rcases t with _ | ⟨b1, _ | ⟨b2, _ | ⟨b3, t1⟩⟩⟩
        · exact absurd (by simp only [decodeRune, hb, h2, h3, h4, if_true, if_false, and_self, Bool.false_eq_true, reduceIte]) hv
        · exact absurd (by simp only [decodeRune, hb, h2, h3, h4, if_true, if_false, and_self, Bool.false_eq_true, reduceIte]) hv
        · exact absurd (by simp only [decodeRune, hb, h2, h3, h4, if_true, if_false, and_self, Bool.false_eq_true, reduceIte]) hv
        · by_cases hc : (if b.val = 0xF0 then 0x90 else 0x80) ≤ b1.val ∧
              b1.val ≤ (if b.val = 0xF4 then 0x8F else 0xBF) ∧ isCont b2 ∧ isCont b3
          · have e : ∀ Y, decodeRune (b :: b1 :: b2 :: b3 :: Y) =
                ((((b.val - 0xF0) * 64 + (b1.val - 0x80)) * 64 + (b2.val - 0x80)) * 64 +
                  (b3.val - 0x80), 4) := by
              intro Y
              simp only [decodeRune, hb, h2, h3, h4, hc, if_true, if_false, and_self, Bool.false_eq_true, reduceIte]
            obtain ⟨hc1, hc2, hc3, hc4⟩ := hc
            have hb2 := isCont_bounds hc3
            have hb3 := isCont_bounds hc4
            have hlo : 0x10000 ≤ (((b.val - 0xF0) * 64 + (b1.val - 0x80)) * 64 +
                (b2.val - 0x80)) * 64 + (b3.val - 0x80) ∧ 0x80 ≤ b1.val := by
              split_ifs at hc1 <;> omega
            have hhi : (((b.val - 0xF0) * 64 + (b1.val - 0x80)) * 64 +
                (b2.val - 0x80)) * 64 + (b3.val - 0x80) ≤ 0x10FFFF ∧ b1.val ≤ 0xBF := by
              split_ifs at hc2 <;> omega
            refine ⟨_, _, e t1, by omega, by omega, by simp, fun Y => e _, ?_, by omega, by omega⟩
            have hr1 : ¬ (((b.val - 0xF0) * 64 + (b1.val - 0x80)) * 64 +
                (b2.val - 0x80)) * 64 + (b3.val - 0x80) < 0x80 := by omega
            have hr2 : ¬ (((b.val - 0xF0) * 64 + (b1.val - 0x80)) * 64 +
                (b2.val - 0x80)) * 64 + (b3.val - 0x80) < 0x800 := by omega
            have hr3 : ¬ 0x10FFFF < (((b.val - 0xF0) * 64 + (b1.val - 0x80)) * 64 +
                (b2.val - 0x80)) * 64 + (b3.val - 0x80) := by omega
            have hr4 : ¬ (((b.val - 0xF0) * 64 + (b1.val - 0x80)) * 64 +
                (b2.val - 0x80)) * 64 + (b3.val - 0x80) < 0x10000 := by omega
            have hr5 : ¬ (0xD800 ≤ (((b.val - 0xF0) * 64 + (b1.val - 0x80)) * 64 +
                (b2.val - 0x80)) * 64 + (b3.val - 0x80) ∧ (((b.val - 0xF0) * 64 +
                (b1.val - 0x80)) * 64 + (b2.val - 0x80)) * 64 + (b3.val - 0x80) < 0xE000) := by
              omega
            simp only [encodeRune, hr1, hr2, hr3, hr4, hr5, or_self, if_true, if_false,
              List.take_succ_cons, List.take_zero]
            rw [byteOf_eq (b := b) (by omega), byteOf_eq (b := b1) (by omega),
              byteOf_eq (b := b2) (by omega), byteOf_eq (b := b3) (by omega)]
          · exact absurd
              (by simp only [decodeRune, hb, h2, h3, h4, hc, if_true, if_false, and_self, Bool.false_eq_true, reduceIte]) hv
      · exact absurd (by simp only [decodeRune, hb, h2, h3, h4, if_true, if_false, and_self, Bool.false_eq_true, reduceIte]) hv

theorem quoteBody_zero_false (e : Bool) (t : Bytes) :
    quoteBody e 0 false t = quoteBody e 0 true t := by
  cases t with
  | nil => simp only [quoteBody]
  | cons b rest => simp only [quoteBody]

theorem quoteBody_keep (e : Bool) (n : Nat) (t : Bytes) :
    quoteBody e n true t = t.take n ++ quoteBody e 0 true (t.drop n) := by
  induction t generalizing n with
  | nil => simp [quoteBody]
  | cons b rest ih =>
    cases n with
    | zero => simp
    | succ m =>
      simp only [quoteBody, if_true, List.take_succ_cons, List.drop_succ_cons, List.cons_append,
        List.nil_append, List.singleton_append]
      rw [ih m]

theorem quoteBody_skip (e : Bool) (n : Nat) (t : Bytes) :
    quoteBody e n false t = quoteBody e 0 true (t.drop n) := by
  induction t generalizing n with
  | nil => simp [quoteBody]
  | cons b rest ih =>
    cases n with
    | zero => simp [quoteBody_zero_false]
    | succ m =>
      simp only [quoteBody, Bool.false_eq_true, if_false, List.drop_succ_cons, List.nil_append]
      rw [ih m]

theorem utf8ValidFrom_drop (n : Nat) (t : Bytes) :
    utf8ValidFrom n t = utf8ValidFrom 0 (t.drop n) := by
  induction t generalizing n with
  | nil => simp [utf8ValidFrom]
  | cons b rest ih =>
    cases n with
    | zero => simp
    | succ m =>
      simp only [utf8ValidFrom, List.drop_succ_cons]
      rw [ih m]

/-- The scanner copies the bytes still pending of a multi-byte sequence. -/
theorem scanString_pending (u X : Bytes) (fuel : Nat) :
    scanString fuel u.length (u ++ X) =
      (scanString (fuel - u.length) 0 X).map (fun r => (u ++ r.1, r.2)) := by
  induction u generalizing fuel with
  | nil =>
    simp only [List.length_nil, List.nil_append, Nat.sub_zero]
    cases scanString fuel 0 X <;> rfl
  | cons b rest ih =>
    cases fuel with
    | zero => simp [scanString]
    | succ f =>
      simp only [List.length_cons, List.cons_append, scanString, Nat.add_sub_add_right]
      have := ih f
      rw [show rest.append X = rest ++ X from rfl, this]
      cases scanString (f - rest.length) 0 X <;> rfl

theorem hexDigit_isHex (n : Nat) (h : n < 16) :
    isHex (hexDigit n) = true ∧ hexVal (hexDigit n) = n := by
  have : ∀ m : Fin 16, isHex (hexDigit m.val) = true ∧ hexVal (hexDigit m.val) = m.val := by
    decide
  exact this ⟨n, h⟩

theorem getu4_hex (h1 h2 h3 h4 : Byte) (X : Bytes) (a1 : isHex h1 = true) (a2 : isHex h2 = true)
    (a3 : isHex h3 = true) (a4 : isHex h4 = true) :
    getu4 (0x5C :: 0x75 :: h1 :: h2 :: h3 :: h4 :: X) =
      some (((hexVal h1 * 16 + hexVal h2) * 16 + hexVal h3) * 16 + hexVal h4) := by
  have e1 : ((0x5C : Byte).val = 0x5C) := rfl
  have e2 : ((0x75 : Byte).val = 0x75) := rfl
  simp only [getu4, e1, e2, a1, a2, a3, a4, and_self, if_true]

/-- The scanner reads an escape `\uXXXX` of a code point that is no surrogate. -/
theorem scanString_u4 (h1 h2 h3 h4 : Byte) (X : Bytes) (fuel r : Nat)
    (a1 : isHex h1 = true) (a2 : isHex h2 = true) (a3 : isHex h3 = true) (a4 : isHex h4 = true)
    (hr : ((hexVal h1 * 16 + hexVal h2) * 16 + hexVal h3) * 16 + hexVal h4 = r)
    (hs : ¬ (0xD800 ≤ r ∧ r < 0xDC00)) :
    scanString (fuel + 1) 0 (0x5C :: 0x75 :: h1 :: h2 :: h3 :: h4 :: X) =
      (scanString fuel 0 X).map (fun out => (encodeRune r ++ out.1, out.2)) := by
  have e1 : ¬ ((0x5C : Byte).val = 0x22) := by decide
  have e2 : ¬ ((0x5C : Byte).val < 0x20) := by decide
  have e3 : ((0x5C : Byte).val = 0x5C) := rfl
  have e4 : ((0x75 : Byte).val = 0x75) := rfl
  rw [scanString]
  simp only [e1, e2, e3, e4, if_true, if_false, getu4_hex h1 h2 h3 h4 X a1 a2 a3 a4, hr, hs,
    List.drop_succ_cons, List.drop_zero]
  simp

/-- The scanner reads what `appendString` writes for an ASCII byte. -/
theorem scanString_ascii (b : Byte) (hb : b.val < 0x80) (X : Bytes) (fuel : Nat) :
    scanString (fuel + 1) 0 ((if htmlSafe b then [b] else escapeAscii b) ++ X) =
      (scanString fuel 0 X).map (fun out => (b :: out.1, out.2)) := by
  have enc : encodeRune b.val = [b] := by
    simp only [encodeRune, hb, if_true]
    rw [byteOf_eq rfl]
  by_cases hs : htmlSafe b = true
  · have h1 : ¬ b.val = 0x22 := by
      intro h; simp [htmlSafe, h] at hs
    have h2 : ¬ b.val < 0x20 := by
      intro h
      have : ¬ 0x20 ≤ b.val := by omega
      simp [htmlSafe, this] at hs
    have h3 : ¬ b.val = 0x5C := by
      intro h; simp [htmlSafe, h] at hs
    simp only [hs, if_true, List.singleton_append]
    rw [scanString.eq_def]
    simp only [h1, h2, h3, hb, if_true, if_false]
  · simp only [hs, Bool.false_eq_true, if_false]
    have hu : ∀ (c x : Byte), simpleEscape c = some x → ¬ c.val = 0x75 →
        scanString (fuel + 1) 0 (0x5C :: c :: X) =
          (scanString fuel 0 X).map (fun out => (x :: out.1, out.2)) := by
      intro c x hcx hc75
      have e3 : ((0x5C : Byte).val = 0x5C) := rfl
      simp only [scanString, e3, hc75, hcx, if_true, if_false]
      simp
    by_cases c1 : b.val = 0x5C ∨ b.val = 0x22
    · simp only [escapeAscii, c1, if_true, List.cons_append, List.nil_append]
      have hse : simpleEscape b = some b := by
        simp only [simpleEscape]
        rcases c1 with c | c <;> simp [c]
      exact hu b b hse (by omega)
    · by_cases c2 : b.val = 0x08
      · have : b = 0x08 := Fin.ext c2
        subst this
        simp only [escapeAscii, c1, c2, if_true, if_false, List.cons_append, List.nil_append]
        exact hu 0x62 0x08 (by decide) (by decide)
      · by_cases c3 : b.val = 0x0C
        · have : b = 0x0C := Fin.ext c3
          subst this
          simp only [escapeAscii, c1, c2, c3, if_true, if_false, List.cons_append, List.nil_append]
          exact hu 0x66 0x0C (by decide) (by decide)
        · by_cases c4 : b.val = 0x0A
          · have : b = 0x0A := Fin.ext c4
            subst this
            simp only [escapeAscii, c1, c2, c3, c4, if_true, if_false, List.cons_append,
              List.nil_append]
            exact hu 0x6E 0x0A (by decide) (by decide)
          · by_cases c5 : b.val = 0x0D
            · have : b = 0x0D := Fin.ext c5
              subst this
              simp only [escapeAscii, c1, c2, c3, c4, c5, if_true, if_false, List.cons_append,
                List.nil_append]
              exact hu 0x72 0x0D (by decide) (by decide)
            · by_cases c6 : b.val = 0x09
              · have : b = 0x09 := Fin.ext c6
                subst this
                simp only [escapeAscii, c1, c2, c3, c4, c5, c6, if_true, if_false,
                  List.cons_append, List.nil_append]
                exact hu 0x74 0x09 (by decide) (by decide)
              · simp only [escapeAscii, c1, c2, c3, c4, c5, c6, if_false, List.cons_append,
                  List.nil_append]
                have d1 := hexDigit_isHex (b.val / 16) (by omega)
                have d2 := hexDigit_isHex (b.val % 16) (by omega)
                have z : isHex 0x30 = true ∧ hexVal 0x30 = 0 := by decide
                rw [scanString_u4 0x30 0x30 _ _ X fuel b.val z.1 z.1 d1.1 d2.1
                  (by rw [z.2, d1.2, d2.2]; omega) (by omega), enc]
                rfl

/-- The scanner reads the escape written for U+2028 and U+2029. -/
theorem scanString_linesep (r : Nat) (hr : r = 0x2028 ∨ r = 0x2029) (X : Bytes) (fuel : Nat) :
    scanString (fuel + 1) 0 ([0x5C, 0x75, 0x32, 0x30, 0x32, hexDigit (r % 16)] ++ X) =
      (scanString fuel 0 X).map (fun out => (encodeRune r ++ out.1, out.2)) := by
  have z : isHex 0x32 = true ∧ hexVal 0x32 = 2 ∧ isHex 0x30 = true ∧ hexVal 0x30 = 0 := by
    decide
  have d := hexDigit_isHex (r % 16) (by omega)
  exact scanString_u4 0x32 0x30 0x32 _ X fuel r z.1 z.2.2.1 z.1 d.1
    (by rw [z.2.1, z.2.2.2, d.2]; omega) (by omega)

theorem escapeAscii_length_pos (b : Byte) :
    0 < (if htmlSafe b then [b] else escapeAscii b).length := by
  unfold escapeAscii
  split_ifs <;> simp

/-- A string that is valid UTF-8, written by `appendString` and followed by the closing
quote, is read back by the scanner. -/
theorem scanString_quoteBody (e : Bool) (N : Nat) :
    ∀ s : Bytes, s.length ≤ N → utf8ValidFrom 0 s = true → ∀ (rest : Bytes) (fuel : Nat),
      (quoteBody e 0 true s).length < fuel →
      scanString fuel 0 (quoteBody e 0 true s ++ 0x22 :: rest) = some (s, rest) := by
  induction N with
  | zero =>
    intro s hs _ rest fuel hf
    have : s = [] := List.length_eq_zero.mp (by omega)
    subst this
    obtain ⟨f, rfl⟩ : ∃ f, fuel = f + 1 := ⟨fuel - 1, by omega⟩
    have e0 : ((0x22 : Byte).val = 0x22) := rfl
    rw [scanString.eq_def]
    simp only [quoteBody, List.nil_append, e0, if_true]
  | succ N ih =>
    intro s hs hv rest fuel hf
    rcases s with _ | ⟨b, t⟩
    · exact ih [] (by simp) hv rest fuel hf
    · have htl : t.length ≤ N := by simpa using hs
      by_cases hb : b.val < 0x80
      · have hq : quoteBody e 0 true (b :: t) =
            (if htmlSafe b then [b] else escapeAscii b) ++ quoteBody e 0 true t := by
          simp only [quoteBody, hb, if_true]
        have hvt : utf8ValidFrom 0 t = true := by
          simpa only [utf8ValidFrom, hb, if_true] using hv
        rw [hq, List.length_append] at hf
        have hpos := escapeAscii_length_pos b
        obtain ⟨f, rfl⟩ : ∃ f, fuel = f + 1 := ⟨fuel - 1, by omega⟩
        rw [hq, List.append_assoc, scanString_ascii b hb _ f, ih t htl hvt rest f (by omega)]
        rfl
      · have hv1 : decodeRune (b :: t) ≠ (0xFFFD, 1) := by
          intro hc
          simp [utf8ValidFrom, hb, hc] at hv
        obtain ⟨r, k, hdec, hk2, hk4, hkt, hcongr, henc, hsur, hr80⟩ := decodeRune_valid b t hb hv1
        have hv2 : ¬ ((r, k) = ((0xFFFD, 1) : Nat × Nat)) := hdec ▸ hv1
        have hvt : utf8ValidFrom 0 (t.drop (k - 1)) = true := by
          rw [← utf8ValidFrom_drop]
          simpa only [utf8ValidFrom, hb, hdec, hv2, if_false] using hv
        have hdl : (t.drop (k - 1)).length ≤ N := by
          rw [List.length_drop]; omega
        have htake : (t.take (k - 1)).length = k - 1 := by
          rw [List.length_take]; omega
        have hsplit : b :: t = (b :: t.take (k - 1)) ++ t.drop (k - 1) := by
          rw [List.cons_append, List.take_append_drop]
        by_cases hls : r = 0x2028 ∨ r = 0x2029
        · have hq : quoteBody e 0 true (b :: t) =
              [0x5C, 0x75, 0x32, 0x30, 0x32, hexDigit (r % 16)] ++
                quoteBody e 0 true (t.drop (k - 1)) := by
            simp only [quoteBody, hb, hdec, hv2, hls, if_true, if_false]
            rw [quoteBody_skip]
          rw [hq, List.length_append] at hf
          obtain ⟨f, rfl⟩ : ∃ f, fuel = f + 1 := ⟨fuel - 1, by omega⟩
          rw [hq, List.append_assoc, scanString_linesep r hls _ f,
            ih _ hdl hvt rest f (by simp at hf; omega), henc]
          simp only [Option.map_some']
          rw [← hsplit]
        · have hq : quoteBody e 0 true (b :: t) =
              b :: (t.take (k - 1) ++ quoteBody e 0 true (t.drop (k - 1))) := by
            simp only [quoteBody, hb, hdec, hv2, hls, if_false]
            rw [quoteBody_keep]
          rw [hq] at hf
          simp only [List.length_cons, List.length_append, htake] at hf
          obtain ⟨f, rfl⟩ : ∃ f, fuel = f + 1 := ⟨fuel - 1, by omega⟩
          have hb1 : ¬ b.val = 0x22 := by omega
          have hb2 : ¬ b.val < 0x20 := by omega
          have hb3 : ¬ b.val = 0x5C := by omega
          have hdec2 := hcongr (quoteBody e 0 true (t.drop (k - 1)) ++ 0x22 :: rest)
          rw [hq, List.cons_append, List.append_assoc, scanString.eq_def]
          simp only [hb1, hb2, hb3, hb, hdec2, hv2, if_false]
          have hp := scanString_pending (t.take (k - 1))
            (quoteBody e 0 true (t.drop (k - 1)) ++ 0x22 :: rest) f
          rw [htake] at hp
          rw [hp, ih _ hdl hvt rest (f - (k - 1)) (by omega)]
          simp only [Option.map_some']
          rw [← List.cons_append, ← hsplit]

/-- A quoted string followed by more input: the scanner, started after the opening
quote, returns the string and the input after the closing quote. -/
theorem scanString_quoteString (e : Bool) (s rest : Bytes) (hv : utf8Valid s = true) :
    ∃ body, quoteString e s ++ rest = 0x22 :: body ∧
      scanString (body.length + 1) 0 body = some (s, rest) := by
  refine ⟨quoteBody e 0 true s ++ 0x22 :: rest, by simp [quoteString], ?_⟩
  exact scanString_quoteBody e s.length s (le_refl _) hv rest _ (by simp; omega)

theorem skipSpace_cons {c : Byte} (h : isSpace c = false) (r : Bytes) :
    skipSpace (c :: r) = c :: r := by
  simp only [skipSpace, h, Bool.false_eq_true, if_false]

/-- The reader reads a string value written by the encoder. -/
theorem readJson_string (e : Bool) (v tail : Bytes) (hv : utf8Valid v = true) (f d : Nat) :
    readJson (f + 1) .value d (quoteString e v ++ tail) = some ⟨.str v, [], tail⟩ := by
  obtain ⟨body, hbody, hscan⟩ := scanString_quoteString e v tail hv
  have e0 : ((0x22 : Byte).val = 0x22) := rfl
  rw [hbody, readJson.eq_def]
  simp only [skipSpace_cons (show isSpace 0x22 = false by decide), e0, if_true, hscan,
    Option.map_some']

/-- One member of an object: the reader reads key, colon and value and goes on with
what follows. -/
theorem readJson_member (e : Bool) (k v Z : Bytes) (hk : utf8Valid k = true)
    (hv : utf8Valid v = true) (f d : Nat) :
    readJson (f + 2) .members d (quoteString e k ++ 0x3A :: (quoteString e v ++ Z)) =
      match skipSpace Z with
      | c :: rest3 =>
        if c.val = 0x2C then
          match readJson (f + 1) .members d rest3 with
          | none => none
          | some more => some ⟨.object, (k, .str v) :: more.members, more.rest⟩
        else if c.val = 0x7D then some ⟨.object, [(k, .str v)], rest3⟩
        else none
      | [] => none := by
  obtain ⟨body, hbody, hscan⟩ := scanString_quoteString e k (0x3A :: (quoteString e v ++ Z)) hk
  have e0 : ((0x22 : Byte).val = 0x22) := rfl
  have e1 : ((0x3A : Byte).val = 0x3A) := rfl
  rw [hbody, readJson.eq_def]
  simp only [skipSpace_cons (show isSpace 0x22 = false by decide), e0, if_true, hscan,
    skipSpace_cons (show isSpace 0x3A = false by decide), e1, readJson_string e v Z hv f d]

theorem quoteString_cons (e : Bool) (s : Bytes) :
    quoteString e s = 0x22 :: (quoteBody e 0 true s ++ [0x22]) := by
  simp [quoteString]

/-- The reader reads the members of a non-empty object written by the encoder. -/
theorem readJson_members (e : Bool) (es : List (Bytes × Bytes)) (hne : es ≠ [])
    (hval : ∀ kv ∈ es, utf8Valid kv.1 = true ∧ utf8Valid kv.2 = true) :
    ∀ (fuel d : Nat) (tail : Bytes), es.length < fuel →
      readJson fuel .members d (marshalEntries e es ++ 0x7D :: tail) =
        some ⟨.object, es.map (fun kv => (kv.1, JsonShape.str kv.2)), tail⟩ := by
  induction es with
  | nil => exact absurd rfl hne
  | cons kv rest ih =>
    intro fuel d tail hf
    obtain ⟨hk, hv⟩ := hval kv (List.mem_cons_self _ _)
    obtain ⟨f, rfl⟩ : ∃ f, fuel = f + 2 := ⟨fuel - 2, by simp at hf; omega⟩
    have e1 : ((0x7D : Byte).val = 0x7D) := rfl
    have e2 : ((0x2C : Byte).val = 0x2C) := rfl
    have n1 : ¬ ((0x7D : Byte).val = 0x2C) := by decide
    cases rest with
    | nil =>
      have hm : marshalEntries e [kv] ++ 0x7D :: tail =
          quoteString e kv.1 ++ 0x3A :: (quoteString e kv.2 ++ 0x7D :: tail) := by
        simp [marshalEntries]
      rw [hm, readJson_member e _ _ _ hk hv]
      simp only [skipSpace_cons (show isSpace 0x7D = false by decide), e1, n1, if_true, if_false,
        List.map_cons, List.map_nil]
      simp
    | cons kv2 rest2 =>
      have hm : marshalEntries e (kv :: kv2 :: rest2) ++ 0x7D :: tail =
          quoteString e kv.1 ++ 0x3A :: (quoteString e kv.2 ++
            0x2C :: (marshalEntries e (kv2 :: rest2) ++ 0x7D :: tail)) := by
        simp [marshalEntries]
      have hrec := ih (by simp) (fun x hx => hval x (List.mem_cons_of_mem _ hx)) (f + 1) d tail
        (by simp at hf ⊢; omega)
      rw [hm, readJson_member e _ _ _ hk hv]
      simp only [skipSpace_cons (show isSpace 0x2C = false by decide), e2, if_true, hrec,
        List.map_cons]

theorem bytesLe_refl (a : Bytes) : bytesLe a a = true := by
  induction a with
  | nil => rfl
  | cons x rest ih => simp [bytesLe, ih]

theorem bytesLe_total (a b : Bytes) : bytesLe a b = true ∨ bytesLe b a = true := by
  induction a generalizing b with
  | nil => exact Or.inl rfl
  | cons x as ih =>
    cases b with
    | nil => exact Or.inr rfl
    | cons y bs =>
      simp only [bytesLe, Bool.or_eq_true, decide_eq_true_eq, Bool.and_eq_true, beq_iff_eq]
      rcases Nat.lt_trichotomy x.val y.val with h | h | h
      · exact Or.inl (Or.inl h)
      · rcases ih bs with h2 | h2
        · exact Or.inl (Or.inr ⟨h, h2⟩)
        · exact Or.inr (Or.inr ⟨h.symm, h2⟩)
      · exact Or.inr (Or.inl h)

/-- A key above all keys of the map is added at the end. -/
theorem tableInsert_last (key value : Bytes) (acc : List (Bytes × Bytes))
    (h : ∀ kv ∈ acc, bytesLe key kv.1 = false) :
    tableInsert key value acc = acc ++ [(key, value)] := by
  induction acc with
  | nil => rfl
  | cons kv rest ih =>
    have h1 := h kv (List.mem_cons_self _ _)
    have hne : ¬ kv.1 = key := by
      intro hc
      rw [hc, bytesLe_refl] at h1
      cases h1
    simp only [tableInsert, hne, h1, if_false, Bool.false_eq_true, List.cons_append]
    rw [ih (fun x hx => h x (List.mem_cons_of_mem _ hx))]

/-- Storing members whose keys ascend gives the entries in the order read. -/
theorem storeMembers_ascending (es acc : List (Bytes × Bytes))
    (h : (acc ++ es).Pairwise (fun a b => bytesLe b.1 a.1 = false)) :
    storeMembers (es.map (fun kv => (kv.1, JsonShape.str kv.2))) acc = .ok (acc ++ es) := by
  induction es generalizing acc with
  | nil => simp [storeMembers]
  | cons kv rest ih =>
    have hins : tableInsert kv.1 kv.2 acc = acc ++ [kv] := by
      apply tableInsert_last
      intro x hx
      exact (List.pairwise_append.mp h).2.2 x hx kv (List.mem_cons_self _ _)
    simp only [List.map_cons, storeMembers, hins]
    rw [ih (acc ++ [kv]) (by simpa using h)]
    simp

theorem marshalEntries_length (e : Bool) (es : List (Bytes × Bytes)) :
    es.length ≤ (marshalEntries e es).length := by
  induction es with
  | nil => simp
  | cons kv rest ih =>
    cases rest with
    | nil => simp [marshalEntries, quoteString]
    | cons kv2 rest2 =>
      simp only [marshalEntries, List.length_append, List.length_cons] at ih ⊢
      omega

/-- `json.Unmarshal` reads back the object written for entries with ascending keys and
valid UTF-8. -/
theorem goJsonUnmarshal_marshalEntries (e : Bool) (es : List (Bytes × Bytes))
    (hasc : es.Pairwise (fun a b => bytesLe b.1 a.1 = false))
    (hval : ∀ kv ∈ es, utf8Valid kv.1 = true ∧ utf8Valid kv.2 = true) :
    goJsonUnmarshal ([0x7B] ++ marshalEntries e es ++ [0x7D]) = .ok (some es) := by
  have e0 : ((0x7B : Byte).val = 0x7B) := rfl
  have n0 : ¬ ((0x7B : Byte).val = 0x22) := by decide
  have e1 : ((0x7D : Byte).val = 0x7D) := rfl
  have hst := storeMembers_ascending es [] (by simpa using hasc)
  unfold goJsonUnmarshal
  cases es with
  | nil =>
    rw [readJson.eq_def]
    simp only [marshalEntries, List.append_nil, List.singleton_append, List.nil_append,
      skipSpace_cons (show isSpace 0x7B = false by decide),
      skipSpace_cons (show isSpace 0x7D = false by decide), e0, n0, e1, if_true, if_false]
    simp [skipSpace, storeMembers]
  | cons kv rest =>
    obtain ⟨body, hbody⟩ : ∃ body, marshalEntries e (kv :: rest) = 0x22 :: body := by
      cases rest with
      | nil => exact ⟨_, by simp [marshalEntries, quoteString]; rfl⟩
      | cons kv2 rest2 => exact ⟨_, by simp [marshalEntries, quoteString]; rfl⟩
    have hlen := marshalEntries_length e (kv :: rest)
    have hdata : [0x7B] ++ marshalEntries e (kv :: rest) ++ [0x7D] =
        0x7B :: 0x22 :: (body ++ [0x7D]) := by
      rw [hbody]; rfl
    have hread := readJson_members e (kv :: rest) (by simp) hval
      (2 * (0x7B :: 0x22 :: (body ++ [0x7D])).length + 1) 1 []
      (by
        rw [hbody] at hlen
        simp only [List.length_append, List.length_cons, List.length_nil] at hlen ⊢
        omega)
    rw [hbody, List.cons_append] at hread
    have n1 : ¬ ((0x22 : Byte).val = 0x7D) := by decide
    have hd : ¬ (0 + 1 > 10000) := by decide
    rw [hdata, readJson.eq_def]
    simp only [skipSpace_cons (show isSpace 0x7B = false by decide),
      skipSpace_cons (show isSpace 0x22 = false by decide), e0, n0, n1, hd, if_false, hread]
    rw [List.map_cons] at hst
    simp [skipSpace, hst]

/-- The model of `encoding/json`, with either way of writing U+FFFD, keeps the round-trip
law. -/
theorem goJson_roundTrip (e : Bool) (rt : RoutingTable) (serialized : Bytes)
    (hvalid : IsUtf8Table rt) (hm : goJsonMarshal e rt = .ok serialized) :
    goJsonUnmarshal serialized = .ok rt := by
  cases rt with
  | none =>
    simp only [goJsonMarshal, Except.ok.injEq] at hm
    subst hm
    decide
  | some entries =>
    obtain ⟨hasc, hval⟩ := hvalid entries rfl
    have hsorted : entries.Sorted (fun a b => bytesLe a.1 b.1 = true) := by
      refine List.Pairwise.imp ?_ hasc
      intro a b hba
      rcases bytesLe_total a.1 b.1 with h | h
      · exact h
      · rw [h] at hba; cases hba
    simp only [goJsonMarshal, hsorted.insertionSort_eq, Except.ok.injEq] at hm
    subst hm
    exact goJsonUnmarshal_marshalEntries e entries hasc hval

theorem refPackages_jsonRoundTripLaw : JsonRoundTripLaw refPackages :=
  fun rt serialized hvalid hm => goJson_roundTrip false rt serialized hvalid hm

theorem legacyPackages_jsonRoundTripLaw : JsonRoundTripLaw legacyPackages :=
  fun rt serialized hvalid hm => goJson_roundTrip true rt serialized hvalid hm

/-! ## The scenario, run on the reference packages -/

theorem scenario_marshal : refPackages.jsonMarshal scenarioTable = .ok scenarioJson := by
  decide!

theorem scenario_unmarshal : refPackages.jsonUnmarshal scenarioJson = .ok scenarioTable := by
  decide!

theorem scenario_encode :
    EncodeRoutingTableWithParams refPackages scenarioTable 2 3 = .ok scenarioEncoded := by
  decide!

/-- Witness for the amended C1: `D = 2`, `P = 3`, shards 2 and 4 set to nil; the table
`k1 ↦ v1, k2 ↦ v2`, which is valid UTF-8, comes back. -/
theorem decode_encode_roundtrip_witness :
    IsUtf8Table scenarioTable ∧
    EncodeRoutingTableWithParams refPackages scenarioTable 2 3 = .ok scenarioEncoded ∧
    IsErasureOf scenarioEncoded.Shards (receivedShards scenarioEncoded.Shards) ∧
    missingCount (receivedShards scenarioEncoded.Shards) ≤ (3 : Int).toNat ∧
    DecodeRoutingTable refPackages
      { Metadata := scenarioEncoded.Metadata, Shards := receivedShards scenarioEncoded.Shards } =
        .ok scenarioTable :=
  ⟨by decide, scenario_encode, by decide, by decide,
    (decode_encode_roundtrip refPackages refNew_rangeLaw refNew_splitLaw refNew_encodeLaw
      refNew_erasureLaw refNew_verifyLaw refNew_joinLaw refPackages_jsonRoundTripLaw
      scenarioTable (by decide) 2 3 scenarioEncoded scenario_encode
      (receivedShards scenarioEncoded.Shards) (by decide) (by decide)).2.2⟩

/-- C1, the claim refuted: the table `k ↦ "\xff"` is encoded with `D = 2`, `P = 3`,
shards 2 and 4 are lost, and decoding succeeds with a different table, the
value being U+FFFD (bytes EF BF BD): `json.Marshal` replaces a byte that is not
valid UTF-8.  This is so whichever way the JSON encoder writes U+FFFD, as the
character itself (11 bytes of JSON) or as an escape (14 bytes). -/
theorem roundtrip_alters_invalid_utf8 :
    (EncodeRoutingTableWithParams refPackages invalidUtf8Table 2 3 = .ok invalidUtf8Encoded ∧
      IsErasureOf invalidUtf8Encoded.Shards (receivedShards invalidUtf8Encoded.Shards) ∧
      missingCount (receivedShards invalidUtf8Encoded.Shards) ≤ 3 ∧
      DecodeRoutingTable refPackages
        { Metadata := invalidUtf8Encoded.Metadata
          Shards := receivedShards invalidUtf8Encoded.Shards } =
          .ok (some [([0x6B], [0xEF, 0xBF, 0xBD])])) ∧
    (EncodeRoutingTableWithParams legacyPackages invalidUtf8Table 2 3 =
        .ok invalidUtf8EncodedLegacy ∧
      IsErasureOf invalidUtf8EncodedLegacy.Shards
        (receivedShards invalidUtf8EncodedLegacy.Shards) ∧
      missingCount (receivedShards invalidUtf8EncodedLegacy.Shards) ≤ 3 ∧
      DecodeRoutingTable legacyPackages
        { Metadata := invalidUtf8EncodedLegacy.Metadata
          Shards := receivedShards invalidUtf8EncodedLegacy.Shards } =
          .ok (some [([0x6B], [0xEF, 0xBF, 0xBD])])) ∧
    (some [([0x6B], [0xEF, 0xBF, 0xBD])] : RoutingTable) ≠ invalidUtf8Table := by
  refine ⟨⟨?_, ?_, ?_, ?_⟩, ⟨?_, ?_, ?_, ?_⟩, ?_⟩ <;> decide!

/-- Witness for C2: `D = 2`, `P = 3` and four of the five shards absent. -/
theorem decode_fails_above_capacity_witness :
    ∃ e, DecodeRoutingTable refPackages
      { Metadata := scenarioEncoded.Metadata
        Shards := [some [123, 34, 107, 49, 34, 58, 34, 118, 49, 34, 44], none, some [], none,
          none] } = .error (CodingError.reconstructionFailed e) :=
  decode_fails_above_capacity refPackages refNew_rangeLaw refNew_encodeLaw refNew_tooFewLaw
    scenarioTable 2 3 scenarioEncoded scenario_encode _ (by decide) (by decide)

/-- C3, the claim refuted where exactly `P` shards are lost.  With two data shards and no
parity shard, flipping bit 0 of byte 7 of shard 0 (the letter `v` becomes `w`)
goes unnoticed and `DecodeRoutingTable` returns the table `k1 ↦ w1, k2 ↦ v2`.
With `D = 2`, `P = 3` and the three parity shards lost, the same flip in the
present shard 0 goes unnoticed in the same way. -/
theorem bit_flip_undetected_at_capacity :
    (EncodeRoutingTableWithParams refPackages scenarioTable 2 0 = .ok scenarioEncodedNoParity ∧
      DecodeRoutingTable refPackages
        { Metadata := scenarioEncodedNoParity.Metadata
          Shards := flipShardBit scenarioEncodedNoParity.Shards 0 7 0 } =
          .ok (some [([0x6B, 0x31], [0x77, 0x31]), ([0x6B, 0x32], [0x76, 0x32])])) ∧
    (EncodeRoutingTableWithParams refPackages scenarioTable 2 3 = .ok scenarioEncoded ∧
      IsErasureOf scenarioEncoded.Shards scenarioParityLost ∧
      missingCount scenarioParityLost = 3 ∧
      DecodeRoutingTable refPackages
        { Metadata := scenarioEncoded.Metadata
          Shards := flipShardBit scenarioParityLost 0 7 0 } =
          .ok (some [([0x6B, 0x31], [0x77, 0x31]), ([0x6B, 0x32], [0x76, 0x32])])) ∧
    (some [([0x6B, 0x31], [0x77, 0x31]), ([0x6B, 0x32], [0x76, 0x32])] : RoutingTable) ≠
      scenarioTable := by
  decide!

/-- Witness for the amended C3: `D = 2`, `P = 3`, shards 2 and 4 lost, bit 0 of byte 7 of
the present shard 0 flipped. -/
theorem decode_detects_bit_flip_witness :
    IsErasureOf scenarioEncoded.Shards (receivedShards scenarioEncoded.Shards) ∧
    missingCount (receivedShards scenarioEncoded.Shards) < (3 : Int).toNat ∧
    DecodeRoutingTable refPackages
      { Metadata := scenarioEncoded.Metadata
        Shards := flipShardBit (receivedShards scenarioEncoded.Shards) 0 7 0 } =
      .error CodingError.verificationFailed :=
  ⟨by decide, by decide,
    decode_detects_bit_flip refPackages refNew_rangeLaw refNew_encodeLaw
      refNew_reconstructFillLaw refNew_erasureLaw refNew_verifyLaw scenarioTable 2 3
      scenarioEncoded scenario_encode (receivedShards scenarioEncoded.Shards) (by decide)
      (by decide) 0 7 0 [123, 34, 107, 49, 34, 58, 34, 118, 49, 34, 44] rfl (by decide)⟩

/-- Witness for C4: metadata for `2 + 3` shards with four shard slots. -/
theorem decode_shard_count_mismatch_witness :
    DecodeRoutingTable refPackages
      { Metadata := { DataShards := 2, ParityShards := 3, OriginalSize := 21 }
        Shards := [none, some [1], none, none] } = .error CodingError.shardCountMismatch ∧
    DecodeRoutingTableRun refPackages
      { Metadata := { DataShards := 2, ParityShards := 3, OriginalSize := 21 }
        Shards := [none, some [1], none, none] } =
      (.error CodingError.shardCountMismatch, [none, some [1], none, none]) :=
  decode_shard_count_mismatch refPackages
    { Metadata := { DataShards := 2, ParityShards := 3, OriginalSize := 21 }
      Shards := [none, some [1], none, none] } (by decide)

/-- Witness for C9: the encoding of the scenario table with `D = 2`, `P = 3`. -/
theorem encode_output_shape_witness :
    ∃ (dataBytes : Bytes) (S : Nat), refPackages.jsonMarshal scenarioTable = .ok dataBytes ∧
      (scenarioEncoded.Shards.length : Int) = 2 + 3 ∧ AllOfSize S scenarioEncoded.Shards ∧
      (dataBytes.length : Int) ≤ S * 2 ∧
      scenarioEncoded.Metadata =
        { DataShards := 2, ParityShards := 3, OriginalSize := dataBytes.length } ∧
      concatShards (scenarioEncoded.Shards.take (2 : Int).toNat) =
        dataBytes ++ List.replicate (S * (2 : Int).toNat - dataBytes.length) 0 :=
  encode_output_shape refPackages refNew_splitLaw refNew_encodeLaw scenarioTable 2 3
    (by decide) (by decide) scenarioEncoded scenario_encode

/-- Witness for C11: the scenario with slot 2 of length zero, against slot 2 nil. -/
theorem decode_zero_length_as_nil_witness :
    DecodeRoutingTable refPackages
        { Metadata := scenarioEncoded.Metadata
          Shards := scenarioEncoded.Shards.set 2 (some []) } =
      DecodeRoutingTable refPackages
        { Metadata := scenarioEncoded.Metadata, Shards := scenarioEncoded.Shards.set 2 none } ∧
    DecodeRoutingTable refPackages
        { Metadata := scenarioEncoded.Metadata
          Shards := scenarioEncoded.Shards.set 2 (some []) } = .ok scenarioTable :=
  ⟨(decode_zero_length_as_nil refPackages scenarioEncoded.Metadata scenarioEncoded.Shards 2
      (by decide)).1, by decide!⟩

/-! ## Key material: the threshold of `BuildQuorum` -/

section KeyMaterial

open Kyber Types Polynomial

variable {F : Type}

/-- Horner's rule on a coefficient list is the evaluation of the polynomial with these
coefficients. -/
theorem exists_poly_of_coeffs [CommRing F] (cs : List F) :
    ∃ p : Polynomial F, (∀ j, p.coeff j = cs.getD j 0) ∧
      ∀ x, p.eval x = cs.foldr (fun c v => v * x + c) 0 := by
  induction cs with
  | nil => exact ⟨0, fun j => by simp, fun x => by simp⟩
  | cons c rest ih =>
    obtain ⟨p, hc, he⟩ := ih
    refine ⟨C c + X * p, ?_, ?_⟩
    · intro j
      cases j with
      | zero => simp
      | succ n => simp [hc n, Polynomial.coeff_C_succ]
    · intro x
      simp [he x, mul_comm, add_comm]

/-- The coefficient list of a polynomial of degree below `t`, run through Horner's rule,
evaluates the polynomial. -/
theorem horner_coeffs [CommRing F] (p : Polynomial F) (t : Nat) (hdeg : p.degree < t) (x : F) :
    ((List.range t).map p.coeff).foldr (fun c v => v * x + c) 0 = p.eval x := by
  obtain ⟨p2, hc, he⟩ := exists_poly_of_coeffs ((List.range t).map p.coeff)
  have : p2 = p := by
    ext j
    rw [hc j]
    by_cases hj : j < t
    · simp [List.getD, hj]
    · have hz : p.coeff j = 0 :=
        (Polynomial.degree_lt_iff_coeff_zero p t).1 hdeg j (not_lt.1 hj)
      have hn : (List.range t)[j]? = none :=
        List.getElem?_eq_none (by simpa using not_lt.1 hj)
      simp [List.getD, hn, hz]
  rw [← he x, this]

/-- What `BuildQuorum` returns when `0 < threshold` and `0 <= size`. -/
theorem buildQuorum_ok [CommRing F] (rand : Nat → F) (id size threshold : Int)
    (hpos : 0 < threshold) (hsz : 0 ≤ size) :
    NewPriPoly threshold rand = .ok { coeffs := (List.range threshold.toNat).map rand } ∧
    BuildQuorum rand id size threshold =
      .ok { ID := id
            Peers := buildPeers 0 ((List.range size.toNat).map
              (fun i : Nat => PriPoly.Eval { coeffs := (List.range threshold.toNat).map rand } (i : Int)))
            PubKey := (PubPoly.Eval (PriPoly.Commit
              { coeffs := (List.range threshold.toNat).map rand }) 0).V
            PrivShares := (List.range size.toNat).map
              (fun i : Nat => PriPoly.Eval { coeffs := (List.range threshold.toNat).map rand } (i : Int)) } := by
  have h1 : ¬ threshold < 0 := by omega
  have h2 : ¬ threshold = 0 := by omega
  have h3 : ¬ size < 0 := by omega
  have hn : NewPriPoly threshold rand =
      .ok { coeffs := (List.range threshold.toNat).map rand } := by
    unfold NewPriPoly
    rw [if_neg h1, if_neg h2]
  refine ⟨hn, ?_⟩
  unfold BuildQuorum
  rw [hn]
  simp only [PriPoly.Shares, if_neg h3]

end KeyMaterial

section KeyMaterialThreshold

open Kyber Types Polynomial

variable {F : Type}

/-- The evaluation point of share `i` is `i + 1`. -/
theorem evalPoint_cast [CommRing F] (i : Nat) : (((1 + (i : Int) : Int)) : F) = (i : F) + 1 := by
  push_cast
  ring

/-- Horner's rule written as the sum of the monomials. -/
theorem horner_eq_sum [CommRing F] (cs : List F) (x : F) :
    cs.foldr (fun c v => v * x + c) 0 =
      (Finset.range cs.length).sum (fun k => cs.getD k 0 * x ^ k) := by
  induction cs with
  | nil => simp
  | cons c rest ih =>
    rw [List.foldr_cons, ih, List.length_cons, Finset.sum_range_succ', Finset.sum_mul]
    simp [pow_succ, mul_assoc]

/-- The value of share `i` of the polynomial drawn from `rand`. -/
theorem priPoly_eval_V [CommRing F] (rand : Nat → F) (t i : Nat) :
    (PriPoly.Eval { coeffs := (List.range t).map rand } (i : Int)).V =
      (Finset.range t).sum (fun k => rand k * ((i : F) + 1) ^ k) := by
  unfold PriPoly.Eval
  simp only [evalPoint_cast]
  rw [horner_eq_sum]
  simp only [List.length_map, List.length_range]
  refine Finset.sum_congr rfl (fun k hk => ?_)
  have hk2 : k < t := Finset.mem_range.1 hk
  simp [List.getD, hk2]

/-- The polynomial behind the coefficients drawn from `rand`. -/
theorem exists_sharing_poly [CommRing F] (rand : Nat → F) (t : Nat) (ht : 0 < t) :
    ∃ p : Polynomial F, p.degree < t ∧ p.coeff 0 = rand 0 ∧
      ∀ i : Nat, p.eval ((i : F) + 1) =
        (PriPoly.Eval { coeffs := (List.range t).map rand } (i : Int)).V := by
  obtain ⟨p, hc, he⟩ := exists_poly_of_coeffs ((List.range t).map rand)
  refine ⟨p, ?_, ?_, ?_⟩
  · rw [Polynomial.degree_lt_iff_coeff_zero]
    intro m hm
    rw [hc m]
    have hn : (List.range t)[m]? = none := List.getElem?_eq_none (by simpa using hm)
    simp [List.getD, hn]
  · rw [hc 0]
    simp [List.getD, ht]
  · intro i
    rw [he]
    unfold PriPoly.Eval
    simp only [evalPoint_cast]

end KeyMaterialThreshold

section KeyMaterialClaims

open Kyber Types Polynomial

variable {F : Type}

/-- The shares of a quorum, slot by slot. -/
theorem privShares_getElem_opt [CommRing F] (rand : Nat → F) (t n i : Nat) (hi : i < n) :
    ((List.range n).map
      (fun k : Nat => PriPoly.Eval { coeffs := (List.range t).map rand } (k : Int)))[i]? =
      some (PriPoly.Eval { coeffs := (List.range t).map rand } (i : Int)) := by
  simp [hi]

/-- C12. For `BuildQuorum(id, size, threshold)` with `0 < threshold < size`, on a scalar
field in which `0, 1, ..., size` are distinct: the sharing polynomial has exactly
`threshold` coefficients, the first being the master secret `rand 0`; the `size`
private shares are its values at the points `1, ..., size`, which are distinct
and nonzero; any `threshold` or more of the shares give back the master secret
by interpolation at zero; and fewer than `threshold` shares do not determine it:
another random stream gives the same shares in these slots with a different
master secret. -/
theorem buildQuorum_threshold_shares [Field F] (rand : Nat → F) (id size threshold : Int)
    (hpos : 0 < threshold) (hlt : threshold < size)
    (hchar : ∀ a b : Nat, a ≤ size.toNat → b ≤ size.toNat → (a : F) = (b : F) → a = b) :
    ∃ (poly : PriPoly F) (q : Types.Quorum F),
      NewPriPoly threshold rand = .ok poly ∧
      BuildQuorum rand id size threshold = .ok q ∧
      (poly.coeffs.length : Int) = threshold ∧
      poly.coeffs.head? = some (rand 0) ∧
      (q.PrivShares.length : Int) = size ∧
      (∀ i : Nat, i < size.toNat →
        q.PrivShares[i]? = some (poly.Eval i) ∧
        (poly.Eval i).V =
          (Finset.range threshold.toNat).sum (fun k => rand k * ((i : F) + 1) ^ k)) ∧
      (∀ i j : Nat, i < size.toNat → j < size.toNat → (i : F) + 1 = (j : F) + 1 → i = j) ∧
      (∀ i : Nat, i < size.toNat → (i : F) + 1 ≠ 0) ∧
      (∀ S : Finset Nat, (∀ i ∈ S, i < size.toNat) → threshold.toNat ≤ S.card →
        (Lagrange.interpolate S (fun i : Nat => (i : F) + 1)
          (fun i : Nat => (poly.Eval i).V)).eval 0 = rand 0) ∧
      (∀ S : Finset Nat, (∀ i ∈ S, i < size.toNat) → S.card < threshold.toNat →
        ∃ (rand2 : Nat → F) (q2 : Types.Quorum F),
          BuildQuorum rand2 id size threshold = .ok q2 ∧
          (∀ i ∈ S, q2.PrivShares[i]? = q.PrivShares[i]?) ∧ rand2 0 ≠ rand 0) := by
  have hsz : 0 ≤ size := by omega
  have ht : 0 < threshold.toNat := by omega
  obtain ⟨hnew, hbuild⟩ := buildQuorum_ok rand id size threshold hpos hsz
  have hinj : ∀ i j : Nat, i < size.toNat → j < size.toNat →
      (i : F) + 1 = (j : F) + 1 → i = j := by
    intro i j hi hj h
    exact hchar i j (le_of_lt hi) (le_of_lt hj) (add_right_cancel h)
  have hne : ∀ i : Nat, i < size.toNat → (i : F) + 1 ≠ 0 := by
    intro i hi h
    have h2 : ((i + 1 : Nat) : F) = ((0 : Nat) : F) := by
      push_cast
      exact h
    have := hchar (i + 1) 0 hi (Nat.zero_le _) h2
    omega
  refine ⟨_, _, hnew, hbuild, ?_, ?_, ?_, ?_, hinj, hne, ?_, ?_⟩
  · simp only [List.length_map, List.length_range]
    omega
  · obtain ⟨n, hn⟩ : ∃ n, threshold.toNat = n + 1 := ⟨threshold.toNat - 1, by omega⟩
    rw [hn, List.range_succ_eq_map]
    rfl
  · simp only [List.length_map, List.length_range]
    omega
  · intro i hi
    exact ⟨privShares_getElem_opt rand _ _ i hi, priPoly_eval_V rand _ i⟩
  · intro S hS hcard
    obtain ⟨p, hdeg, hc0, hev⟩ := exists_sharing_poly rand threshold.toNat ht
    have hvs : Set.InjOn (fun i : Nat => (i : F) + 1) (S : Set Nat) := by
      intro i hi j hj h
      exact hinj i j (hS i hi) (hS j hj) h
    have hdeg2 : p.degree < S.card :=
      lt_of_lt_of_le hdeg (by exact_mod_cast hcard)
    have := Lagrange.eq_interpolate_of_eval_eq
      (fun i : Nat => (PriPoly.Eval { coeffs := (List.range threshold.toNat).map rand } (i : Int)).V)
      hvs hdeg2 (fun i _ => hev i)
    rw [← this, ← Polynomial.coeff_zero_eq_eval_zero, hc0]
  · intro S hS hcard
    obtain ⟨p, hdeg, hc0, hev⟩ := exists_sharing_poly rand threshold.toNat ht
    let z : Polynomial F := S.prod (fun i => X - C ((i : F) + 1))
    have hzdeg : z.degree < threshold.toNat := by
      have : z.degree = S.card := by
        have hs : ∀ i ∈ S, (X - C ((i : F) + 1)).degree = 1 :=
          fun i _ => Polynomial.degree_X_sub_C _
        rw [Polynomial.degree_prod, Finset.sum_congr rfl hs]
        simp
      rw [this]
      exact_mod_cast hcard
    have hz0 : z.eval 0 ≠ 0 := by
      rw [Polynomial.eval_prod]
      refine Finset.prod_ne_zero_iff.2 (fun i hi => ?_)
      simp only [eval_sub, eval_X, eval_C, zero_sub, ne_eq, neg_eq_zero]
      exact hne i (hS i hi)
    have hzS : ∀ i ∈ S, z.eval ((i : F) + 1) = 0 := by
      intro i hi
      rw [Polynomial.eval_prod]
      exact Finset.prod_eq_zero hi (by simp)
    have hpzdeg : (p + z).degree < threshold.toNat :=
      lt_of_le_of_lt (Polynomial.degree_add_le p z) (max_lt hdeg hzdeg)
    obtain ⟨_, hbuild2⟩ := buildQuorum_ok (fun k => (p + z).coeff k) id size threshold hpos hsz
    refine ⟨fun k => (p + z).coeff k, _, hbuild2, ?_, ?_⟩
    · intro i hi
      have hi2 := hS i hi
      simp only [privShares_getElem_opt _ _ _ i hi2]
      congr 1
      unfold PriPoly.Eval
      simp only [evalPoint_cast]
      congr 1
      have h1 := horner_coeffs (p + z) threshold.toNat hpzdeg ((i : F) + 1)
      have h2 := hev i
      unfold PriPoly.Eval at h2
      simp only [evalPoint_cast] at h2
      rw [h1, ← h2, Polynomial.eval_add, hzS i hi, add_zero]
    · show (p + z).coeff 0 ≠ rand 0
      rw [Polynomial.coeff_add, hc0, Polynomial.coeff_zero_eq_eval_zero z]
      intro h
      exact hz0 (by simpa using h)

end KeyMaterialClaims

section KeyMaterialExamples

open Kyber Types Polynomial

/-- The public key of the quorum is the commitment evaluated at index 0, which is the
point at `x = 1`: the public share of peer 0. -/
theorem buildQuorum_pubKey {F : Type} [CommRing F] (rand : Nat → F) (id size threshold : Int)
    (q : Types.Quorum F) (h : BuildQuorum rand id size threshold = .ok q) :
    ∃ poly : PriPoly F, NewPriPoly threshold rand = .ok poly ∧
      q.PubKey = { dlog := (poly.Eval 0).V } := by
  unfold BuildQuorum at h
  cases hn : NewPriPoly threshold rand with
  | error e => rw [hn] at h; cases h
  | ok poly =>
    rw [hn] at h
    dsimp only at h
    refine ⟨poly, rfl, ?_⟩
    cases hs : poly.Shares size with
    | error e => rw [hs] at h; cases h
    | ok sh =>
      rw [hs] at h
      simp only [Except.ok.injEq] at h
      subst h
      simp only [PubPoly.Eval, PriPoly.Commit, PriPoly.Eval, List.foldr_map, mul_comm]

/-- Witness for C12 on the field of 13 elements: `size = 5`, `threshold = 3`, random
stream 1, 2, 3, ...; the sharing polynomial is `1 + 2 x + 3 x^2`, and the shares
in slots 0, 2 and 4 give back the master secret 1. -/
theorem buildQuorum_threshold_shares_witness :
    ((0 : Int) < 3 ∧ (3 : Int) < 5) ∧
    ∃ (poly : PriPoly (ZMod 13)) (q : Types.Quorum (ZMod 13)),
      NewPriPoly 3 (fun k => (k : ZMod 13) + 1) = .ok poly ∧
      BuildQuorum (fun k => (k : ZMod 13) + 1) 1 5 3 = .ok q ∧
      poly.coeffs = [1, 2, 3] ∧
      q.PrivShares.map (fun s => s.V) = [6, 4, 8, 5, 8] ∧
      (Lagrange.interpolate {0, 2, 4} (fun i : Nat => (i : ZMod 13) + 1)
        (fun i : Nat => (poly.Eval i).V)).eval 0 = 1 := by
  refine ⟨⟨by decide, by decide⟩, ?_⟩
  obtain ⟨poly, q, h1, h2, -, -, -, -, -, -, h9, -⟩ :=
    buildQuorum_threshold_shares (fun k => (k : ZMod 13) + 1) 1 5 3 (by decide) (by decide)
      (by
        intro a b ha hb h
        have ha2 : a ≤ 5 := ha
        have hb2 : b ≤ 5 := hb
        rw [ZMod.natCast_eq_natCast_iff'] at h
        omega)
  have e1 : NewPriPoly 3 (fun k => (k : ZMod 13) + 1) = .ok { coeffs := [1, 2, 3] } := by decide
  have e2 : BuildQuorum (fun k => (k : ZMod 13) + 1) 1 5 3 =
      .ok { ID := 1
            Peers := buildPeers 0 [⟨0, 6⟩, ⟨1, 4⟩, ⟨2, 8⟩, ⟨3, 5⟩, ⟨4, 8⟩]
            PubKey := ⟨6⟩
            PrivShares := [⟨0, 6⟩, ⟨1, 4⟩, ⟨2, 8⟩, ⟨3, 5⟩, ⟨4, 8⟩] } := by decide
  rw [e1] at h1
  rw [e2] at h2
  cases h1
  cases h2
  refine ⟨_, _, e1, e2, rfl, rfl, ?_⟩
  have := h9 {0, 2, 4} (by decide) (by decide)
  simpa using this

/-- Counterexample for C12 on the scalars of Ed25519: `size = 5`, `threshold = 3`, random
stream 1, 2, 3, ....  `NewPriPoly` makes 3 coefficients, not 4: the polynomial is
`1 + 2 x + 3 x^2`, of degree 2, with shares 6, 17, 34, 57, 86.  And 3 shares
determine the master secret: whatever the random stream, a quorum whose first
three shares are 6, 17, 34 has master secret 1. -/
theorem buildQuorum_threshold_shares_suffice :
    (∃ q : Types.Quorum Ed25519Scalar,
      NewPriPoly 3 (fun k => (k : Ed25519Scalar) + 1) = .ok { coeffs := [1, 2, 3] } ∧
      BuildQuorum (fun k => (k : Ed25519Scalar) + 1) 1 5 3 = .ok q ∧
      q.PrivShares.map (fun s => s.V) = [6, 17, 34, 57, 86]) ∧
    (∀ (rand2 : Nat → Ed25519Scalar) (q2 : Types.Quorum Ed25519Scalar),
      BuildQuorum rand2 1 5 3 = .ok q2 →
      (q2.PrivShares.take 3).map (fun s => s.V) = [6, 17, 34] → rand2 0 = 1) := by
  constructor
  · refine ⟨_, ?_, (buildQuorum_ok _ 1 5 3 (by decide) (by decide)).2, ?_⟩
    · rw [(buildQuorum_ok _ 1 5 3 (by decide) (by decide)).1]
      simp [List.range_succ]
      norm_num
    · simp [List.range_succ, PriPoly.Eval]
      norm_num
  · intro rand2 q2 hq hsh
    rw [(buildQuorum_ok rand2 1 5 3 (by decide) (by decide)).2] at hq
    cases hq
    simp [List.range_succ, PriPoly.Eval] at hsh
    obtain ⟨h0, h1, h2⟩ := hsh
    linear_combination 3 * h0 - 3 * h1 + h2

end KeyMaterialExamples

end NCDHT
